import Mathlib

/-!
# BoatManagement.c — a shallow embedding

The program keeps a fleet of at most 120 boats in an array of owning pointers,
sorted by name, reads and writes it as comma-separated lines, and bills each
boat per foot and per month.

Conventions of the embedding.

* A C string is the list of its characters before the terminating NUL.
  Functions that walk a `char*` stop at the first NUL of the list they get.
* `float` is IEEE-754 binary32: finite values with a sign (so both zeros),
  the two infinities and NaN with its sign bit.  Every finite binary32 value
  is an integer multiple of `2^-149`.  Arithmetic rounds to nearest, ties to
  even, at 24 significant bits, and overflows to infinity.
* `<stdio.h>` is the GNU C library in the C locale.
* A call whose behaviour the C standard leaves undefined (a write past the
  end of an array, a read of an object that was never written) has no
  result: the function that models it returns `none`.
* `BoatDatabase.boatList` holds the pointees of `boatList[0 .. boatCount)`;
  `boatCount` is the length of that list.  A `Boat*` into the array is the
  index of its slot.
* `malloc` is taken to succeed and console output is not modelled.
-/

set_option maxRecDepth 8000

namespace BoatManagement

/-! ## Constants -/

def MAX_BOATS : Nat := 120
def MAX_NAME_LEN : Nat := 128
def MAX_LICENSE_LEN : Nat := 16
def MAX_LINE : Nat := 256

/-- The terminator of a C string. -/
def NUL : Char := Char.ofNat 0

/-! ## binary32 -/

/-- A binary32 value: `finite neg mag` is `mag * 2^-149` with the sign bit
`neg`, `inf neg` is the infinity of that sign, `nan neg` is a NaN with that
sign bit (its payload is not kept). -/
inductive F32 where
  | finite (neg : Bool) (mag : Nat)
  | inf (neg : Bool)
  | nan (neg : Bool)
deriving DecidableEq, Repr

/-- Number of binary digits of `n`, by halving (`fuel` bounds the halvings). -/
def bitLenAux : Nat → Nat → Nat
  | 0, _ => 0
  | fuel + 1, n => if n = 0 then 0 else bitLenAux fuel (n / 2) + 1

/-- Number of binary digits of `n` (`0` for `0`). -/
def bitLen (n : Nat) : Nat := bitLenAux n n

/-- The integer nearest to `p / q`, ties to the even one (`q > 0`). -/
def divRoundEven (p q : Nat) : Nat :=
  if 2 * (p % q) < q then p / q
  else if q < 2 * (p % q) then p / q + 1
  else if (p / q) % 2 = 0 then p / q else p / q + 1

/-- The magnitude `p / q` (in units of `2^-149`) rounded to 24 significant
bits: the last `bitLen (p / q) - 24` bits are rounded away. -/
def roundMag (p q : Nat) : Nat :=
  divRoundEven p (q * 2 ^ (bitLen (p / q) - 24)) * 2 ^ (bitLen (p / q) - 24)

/-- The binary32 value nearest to `± p / q` units: the magnitude rounded to
24 significant bits, and infinity when that reaches `2^128` (in units of
`2^-149`). -/
def F32.round (neg : Bool) (p q : Nat) : F32 :=
  if 2 ^ 128 * 2 ^ 149 ≤ roundMag p q then .inf neg else .finite neg (roundMag p q)

/-- The binary32 value nearest to the decimal `± d * 10^e` (what `strtof`
returns for it, and what a decimal constant converts to). -/
def F32.ofDecimal (neg : Bool) (d : Nat) (e : Int) : F32 :=
  match e with
  | Int.ofNat k => F32.round neg (d * 10 ^ k * 2 ^ 149) 1
  | Int.negSucc k => F32.round neg (d * 2 ^ 149) (10 ^ (k + 1))

/-- The binary32 value nearest to `± m * 2^e` (what `strtof` returns for a
hexadecimal constant). -/
def F32.ofHex (neg : Bool) (m : Nat) (e : Int) : F32 :=
  match e with
  | Int.ofNat k => F32.round neg (m * 2 ^ k * 2 ^ 149) 1
  | Int.negSucc k => F32.round neg (m * 2 ^ 149) (2 ^ (k + 1))

/-- The signed count of `2^-149` of a finite value (`0` for the others). -/
def F32.units : F32 → Int
  | .finite neg mag => if neg then -(mag : Int) else (mag : Int)
  | _ => 0

/-- The value is finite: neither an infinity nor a NaN. -/
def F32.isFinite : F32 → Bool
  | .finite _ _ => true
  | _ => false

/-- The rational number a finite binary32 value stands for (`0` for the
others). -/
def F32.toRat (x : F32) : ℚ := (x.units : ℚ) / 2 ^ 149

/-- The value is a whole number. -/
def F32.isWhole : F32 → Prop
  | .finite _ mag => 2 ^ 149 ∣ mag
  | _ => False

/-- The value is a binary32: a finite one has at most 24 significant bits
and lies below `2^128`. -/
def F32.isBinary32 : F32 → Prop
  | .finite neg mag => F32.round neg mag 1 = .finite neg mag
  | _ => True

instance (x : F32) : Decidable x.isWhole := by
  unfold F32.isWhole; split <;> infer_instance

instance (x : F32) : Decidable x.isBinary32 := by
  unfold F32.isBinary32; split <;> infer_instance

/-- The binary32 nearest to `v` units, for the exact sum or difference `v`
of two finite values; `zneg` is the sign bit of a zero result. -/
def F32.ofUnits (v : Int) (zneg : Bool) : F32 :=
  if v = 0 then .finite zneg 0 else F32.round (decide (v < 0)) v.natAbs 1

/-- Addition of `float`s: `a + b`.  A NaN operand is the result (when both
are NaN the compiler picks one, here the left one); the sum of opposite
infinities is the default NaN, whose sign bit is set on x86-64. -/
def fadd : F32 → F32 → F32
  | .nan s, _ => .nan s
  | .finite _ _, .nan t => .nan t
  | .inf _, .nan t => .nan t
  | .inf s, .inf t => if s = t then .inf s else .nan true
  | .inf s, .finite _ _ => .inf s
  | .finite _ _, .inf t => .inf t
  | .finite s m, .finite t n =>
    F32.ofUnits ((F32.finite s m).units + (F32.finite t n).units) (s && t)

/-- Subtraction of `float`s: `a - b`. -/
def fsub : F32 → F32 → F32
  | .nan s, _ => .nan s
  | .finite _ _, .nan t => .nan t
  | .inf _, .nan t => .nan t
  | .inf s, .inf t => if s = t then .nan true else .inf s
  | .inf s, .finite _ _ => .inf s
  | .finite _ _, .inf t => .inf (!t)
  | .finite s m, .finite t n =>
    F32.ofUnits ((F32.finite s m).units - (F32.finite t n).units) (s && !t)

/-- Multiplication of `float`s: `a * b`. -/
def fmul : F32 → F32 → F32
  | .nan s, _ => .nan s
  | .finite _ _, .nan t => .nan t
  | .inf _, .nan t => .nan t
  | .inf s, .inf t => .inf (xor s t)
  | .inf s, .finite t n => if n = 0 then .nan true else .inf (xor s t)
  | .finite s m, .inf t => if m = 0 then .nan true else .inf (xor s t)
  | .finite s m, .finite t n => F32.round (xor s t) (m * n) (2 ^ 149)

/-- Comparison of `float`s: `a > b`; false when an operand is NaN. -/
def fgt : F32 → F32 → Bool
  | .nan _, _ => false
  | .finite _ _, .nan _ => false
  | .inf _, .nan _ => false
  | .inf s, .inf t => !s && t
  | .inf s, .finite _ _ => !s
  | .finite _ _, .inf t => t
  | .finite s m, .finite t n => decide ((F32.finite t n).units < (F32.finite s m).units)

/-- Comparison of a `float` with zero: `x >= 0`; false for NaN. -/
def fge0 : F32 → Bool
  | .finite neg mag => !neg || decide (mag = 0)
  | .inf neg => !neg
  | .nan _ => false

/-- The constant `RATE_SLIP`, 12.50, converted to `float`. -/
def RATE_SLIP : F32 := F32.ofDecimal false 1250 (-2)
/-- The constant `RATE_LAND`, 14.00, converted to `float`. -/
def RATE_LAND : F32 := F32.ofDecimal false 1400 (-2)
/-- The constant `RATE_TRAILOR`, 25.00, converted to `float`. -/
def RATE_TRAILOR : F32 := F32.ofDecimal false 2500 (-2)
/-- The constant `RATE_STORAGE`, 11.20, converted to `float`. -/
def RATE_STORAGE : F32 := F32.ofDecimal false 1120 (-2)

/-! ## Data definitions -/

/-- The enumeration `LocationType`. -/
inductive LocationType where
  | SLIP
  | LAND
  | TRAILOR
  | STORAGE
deriving DecidableEq, Repr

/-- The union `LocationDetail`: the member written last.
`trailorTag` holds all `MAX_LICENSE_LEN` bytes of the array, padding
included; `indeterminate` is the union of a freshly allocated `Boat`. -/
inductive LocationDetail where
  | slipNumber (n : Int)
  | bayLetter (c : Char)
  | trailorTag (buf : List Char)
  | storageSpace (n : Int)
  | indeterminate
deriving DecidableEq, Repr

/-- The struct `Boat`.  The field `type` is `none` while it has
never been assigned since `malloc`. -/
structure Boat where
  name : List Char
  length : F32
  type : Option LocationType
  location : LocationDetail
  amountOwed : F32
deriving DecidableEq, Repr

/-- The struct `BoatDatabase`: the pointees of `boatList[0 .. boatCount)`. -/
structure BoatDatabase where
  boatList : List Boat
deriving DecidableEq, Repr

/-- The field `boatCount`. -/
def BoatDatabase.boatCount (db : BoatDatabase) : Nat := db.boatList.length

/-! ## `<ctype.h>`, `<string.h>`, `<stdlib.h>` -/

/-- The function `tolower` in the C locale. -/
def tolower (c : Char) : Char :=
  if 65 ≤ c.toNat ∧ c.toNat ≤ 90 then Char.ofNat (c.toNat + 32) else c

/-- The function `isspace` in the C locale. -/
def isspace (c : Char) : Bool :=
  decide (c.toNat = 32 ∨ (9 ≤ c.toNat ∧ c.toNat ≤ 13))

/-- The function `isdigit`. -/
def isdigit (c : Char) : Bool :=
  decide (48 ≤ c.toNat ∧ c.toNat ≤ 57)

/-- The function `isxdigit`. -/
def isxdigit (c : Char) : Bool :=
  decide ((48 ≤ c.toNat ∧ c.toNat ≤ 57) ∨ (65 ≤ c.toNat ∧ c.toNat ≤ 70) ∨
    (97 ≤ c.toNat ∧ c.toNat ≤ 102))

/-- The characters of a `char*` up to its terminator. -/
def cstr (s : List Char) : List Char := s.takeWhile (fun c => decide (c ≠ NUL))

/-- The function `strcmp`. -/
def strcmp : List Char → List Char → Int
  | [], [] => 0
  | [], b :: _ => -(b.toNat : Int)
  | a :: _, [] => (a.toNat : Int)
  | a :: as, b :: bs =>
    if a.toNat ≠ b.toNat then (a.toNat : Int) - b.toNat
    else if a.toNat = 0 then 0
    else strcmp as bs

/-- The function `strcasecmp`. -/
def strcasecmp : List Char → List Char → Int
  | [], [] => 0
  | [], b :: _ => -((tolower b).toNat : Int)
  | a :: _, [] => ((tolower a).toNat : Int)
  | a :: as, b :: bs =>
    if (tolower a).toNat ≠ (tolower b).toNat then
      ((tolower a).toNat : Int) - (tolower b).toNat
    else if (tolower a).toNat = 0 then 0
    else strcasecmp as bs

/-- What `strncpy (dest, src, n)` leaves in the `n` bytes of `dest`: the first `n`
characters of `src`, padded with NUL when `src` is shorter. -/
def strncpy (src : List Char) (n : Nat) : List Char :=
  (cstr src).take n ++ List.replicate (n - (cstr src).length) NUL

/-- Value of a run of decimal digits. -/
def digitsVal (ds : List Char) : Nat :=
  ds.foldl (fun v c => 10 * v + (c.toNat - 48)) 0

/-- Value of a hexadecimal digit. -/
def hexDigitVal (c : Char) : Nat :=
  if c.toNat ≤ 57 then c.toNat - 48 else if c.toNat ≤ 70 then c.toNat - 55 else c.toNat - 87

/-- Value of a run of hexadecimal digits. -/
def hexVal (ds : List Char) : Nat :=
  ds.foldl (fun v c => 16 * v + hexDigitVal c) 0

/-- Conversion of `long` to `int`. -/
def wrapInt (v : Int) : Int := (v + 2 ^ 31) % 2 ^ 32 - 2 ^ 31

/-- Saturation of `strtol` at the range of `long`. -/
def clampLong (v : Int) : Int :=
  if v < -(2 ^ 63) then -(2 ^ 63) else if 2 ^ 63 - 1 < v then 2 ^ 63 - 1 else v

/-- Sign and digits of `atoi` once leading blanks are gone. -/
def atoiSigned (s : List Char) : Int :=
  match s with
  | '-' :: t => -(digitsVal (t.takeWhile isdigit) : Int)
  | '+' :: t => (digitsVal (t.takeWhile isdigit) : Int)
  | _ => (digitsVal (s.takeWhile isdigit) : Int)

/-- The function `atoi`, as `(int) strtol (s, NULL, 10)`. -/
def atoi (s : List Char) : Int :=
  wrapInt (clampLong (atoiSigned ((cstr s).dropWhile isspace)))

/-! ## `<stdio.h>`: the conversions the program uses -/

/-- The directive `%N[^,]`: a non-empty run of at most `width` characters
other than a comma; no blank is skipped.  Returns the run and the rest. -/
def scanSet (width : Nat) (s : List Char) : Option (List Char × List Char) :=
  if (s.takeWhile (fun c => decide (c ≠ ','))).take width = [] then none
  else some ((s.takeWhile (fun c => decide (c ≠ ','))).take width,
    s.drop ((s.takeWhile (fun c => decide (c ≠ ','))).take width).length)

/-- The literal `,` of the format: exactly one comma. -/
def scanComma : List Char → Option (List Char)
  | ',' :: t => some t
  | _ => none

/-- The sign of a number: whether it is `-`, and the input after it. -/
def scanSign : List Char → Bool × List Char
  | '-' :: t => (true, t)
  | '+' :: t => (false, t)
  | s => (false, s)

/-- The digits after a decimal point, when there is one, and the input
after them. -/
def scanFraction : List Char → List Char × List Char
  | '.' :: t => (t.takeWhile isdigit, t.dropWhile isdigit)
  | s => ([], s)

/-- The exponent part after a mantissa and the input after it.  An `e`
followed by no digit is consumed and counts as exponent 0, as the GNU C
library reads it. -/
def scanExponent : List Char → Int × List Char
  | [] => (0, [])
  | c :: t =>
    if c = 'e' ∨ c = 'E' then
      (if (scanSign t).1 then -(digitsVal ((scanSign t).2.takeWhile isdigit) : Int)
        else (digitsVal ((scanSign t).2.takeWhile isdigit) : Int),
       (scanSign t).2.dropWhile isdigit)
    else (0, c :: t)

/-- The binary exponent part of a hexadecimal constant and the input after
it: `p`, an optional sign and decimal digits.  A `p` followed by no digit is
consumed and counts as exponent 0. -/
def scanBinExponent : List Char → Int × List Char
  | [] => (0, [])
  | c :: t =>
    if c = 'p' ∨ c = 'P' then
      (if (scanSign t).1 then -(digitsVal ((scanSign t).2.takeWhile isdigit) : Int)
        else (digitsVal ((scanSign t).2.takeWhile isdigit) : Int),
       (scanSign t).2.dropWhile isdigit)
    else (0, c :: t)

/-- The letters `word` (given in lower case) at the head of the input, in
either case: the input after them. -/
def scanWord : List Char → List Char → Option (List Char)
  | [], s => some s
  | _ :: _, [] => none
  | k :: ks, c :: t => if tolower c = k then scanWord ks t else none

/-- A decimal number after its sign: digits with an optional point, of which
one digit at least, and an optional exponent. -/
def scanDecimal (neg : Bool) (s : List Char) : Option (F32 × List Char) :=
  if s.takeWhile isdigit = [] ∧ (scanFraction (s.dropWhile isdigit)).1 = [] then none
  else
    some (F32.ofDecimal neg
        (digitsVal (s.takeWhile isdigit ++ (scanFraction (s.dropWhile isdigit)).1))
        ((scanExponent (scanFraction (s.dropWhile isdigit)).2).1
          - ((scanFraction (s.dropWhile isdigit)).1.length : Int)),
      (scanExponent (scanFraction (s.dropWhile isdigit)).2).2)

/-- A hexadecimal number after its sign and `0x`: hexadecimal digits with an
optional point and, once a digit was read, an optional binary exponent.  The
prefix alone does not convert; the prefix and a point alone read as zero. -/
def scanHex (neg : Bool) (s : List Char) : Option (F32 × List Char) :=
  match s.dropWhile isxdigit with
  | '.' :: t =>
    if s.takeWhile isxdigit = [] ∧ t.takeWhile isxdigit = [] then some (.finite neg 0, t)
    else
      some (F32.ofHex neg (hexVal (s.takeWhile isxdigit ++ t.takeWhile isxdigit))
          ((scanBinExponent (t.dropWhile isxdigit)).1
            - 4 * ((t.takeWhile isxdigit).length : Int)),
        (scanBinExponent (t.dropWhile isxdigit)).2)
  | r =>
    if s.takeWhile isxdigit = [] then none
    else some (F32.ofHex neg (hexVal (s.takeWhile isxdigit)) (scanBinExponent r).1,
      (scanBinExponent r).2)

/-- A number after its sign: `nan`, `inf` or `infinity` in either case (a
fourth letter `i` commits to `infinity`), a hexadecimal constant after `0x`,
or a decimal number. -/
def scanNumber (neg : Bool) : List Char → Option (F32 × List Char)
  | [] => none
  | c :: t =>
    if tolower c = 'n' then
      match scanWord ['a', 'n'] t with
      | some r => some (.nan neg, r)
      | none => none
    else if tolower c = 'i' then
      match scanWord ['n', 'f'] t with
      | none => none
      | some [] => some (.inf neg, [])
      | some (d :: r) =>
        if tolower d = 'i' then
          match scanWord ['n', 'i', 't', 'y'] r with
          | some r1 => some (.inf neg, r1)
          | none => none
        else some (.inf neg, d :: r)
    else if c = '0' ∧ (t.head?).map tolower = some 'x' then scanHex neg (t.drop 1)
    else scanDecimal neg (c :: t)

/-- The directive `%f` into a `float`: blanks are skipped, then an optional
sign and a number are read as the GNU C library reads them; the value is the
nearest binary32, an infinity on overflow. -/
def scanFloat (s : List Char) : Option (F32 × List Char) :=
  scanNumber (scanSign (s.dropWhile isspace)).1 (scanSign (s.dropWhile isspace)).2

/-- The call `sscanf (line, "%127[^,],%f,%15[^,],%31[^,],%f", ...) == 5`:
the five converted values when all five conversions succeed. -/
def sscanf (line : List Char) :
    Option (List Char × F32 × List Char × List Char × F32) := do
  let (name, r1) ← scanSet 127 (cstr line)
  let r2 ← scanComma r1
  let (length, r3) ← scanFloat r2
  let r4 ← scanComma r3
  let (typeStr, r5) ← scanSet 15 r4
  let r6 ← scanComma r5
  let (detail, r7) ← scanSet 31 r6
  let r8 ← scanComma r7
  let (amountOwed, _) ← scanFloat r8
  pure (name, length, typeStr, detail, amountOwed)

/-- The character of a decimal digit. -/
def digitChar (d : Nat) : Char := Char.ofNat (48 + d)

/-- Decimal digits of `n` in front of `acc`, most significant first. -/
def showNatAux : Nat → Nat → List Char → List Char
  | 0, _, acc => acc
  | fuel + 1, n, acc =>
    if n / 10 = 0 then digitChar (n % 10) :: acc
    else showNatAux fuel (n / 10) (digitChar (n % 10) :: acc)

/-- Decimal digits of a natural number. -/
def showNat (n : Nat) : List Char := showNatAux (n + 1) n []

/-- The directive `%d`. -/
def showInt (n : Int) : List Char :=
  if n < 0 then '-' :: showNat n.natAbs else showNat n.natAbs

/-- The `k` low decimal digits of `m`, with leading zeros. -/
def fracDigits : Nat → Nat → List Char
  | 0, _ => []
  | k + 1, m => digitChar (m / 10 ^ k % 10) :: fracDigits k m

/-- The directives `%.0f` and `%.2f` (`prec` digits after the point): a
minus sign when the sign bit is set, then the exact magnitude rounded to
that many decimals, ties to even, or `inf`, or `nan`. -/
def fmtFixed (prec : Nat) : F32 → List Char
  | .finite neg mag =>
    (if neg then ['-'] else [])
      ++ showNat (divRoundEven (mag * 10 ^ prec) (2 ^ 149) / 10 ^ prec)
      ++ (if prec = 0 then []
          else '.' :: fracDigits prec (divRoundEven (mag * 10 ^ prec) (2 ^ 149) % 10 ^ prec))
  | .inf neg => (if neg then ['-'] else []) ++ ['i', 'n', 'f']
  | .nan neg => (if neg then ['-'] else []) ++ ['n', 'a', 'n']

/-- The directive `%s` on the array `trailorTag`: the characters before the
first NUL; `none` when the array holds no NUL, for then the read runs past
its end. -/
def showTag (buf : List Char) : Option (List Char) :=
  if NUL ∈ buf then some (cstr buf) else none

/-- Successive results of `fgets (line, n, file)` on a file that holds `s`;
`cur` is the part of the current line read so far, last character first. -/
def fgetsLines (n : Nat) (cur : List Char) : List Char → List (List Char)
  | [] => if cur = [] then [] else [cur.reverse]
  | c :: rest =>
    if c = '\n' ∨ cur.length + 2 = n then (c :: cur).reverse :: fgetsLines n [] rest
    else fgetsLines n (c :: cur) rest

/-! ## The program -/

/-- The function `toLowerStr`: the string left in `dest`. -/
def toLowerStr (src : List Char) : List Char := (cstr src).map tolower

/-- The function `namesEqual`: compares two boat names case-insensitively.
Each string is copied in lower case, terminator included, into a scratch
array of `MAX_NAME_LEN` bytes; a string of `MAX_NAME_LEN` characters or more
is written past the end of its array, and the call has no result. -/
def namesEqual (a b : List Char) : Option Bool :=
  if (cstr a).length < MAX_NAME_LEN ∧ (cstr b).length < MAX_NAME_LEN then
    some (decide (strcmp (toLowerStr a) (toLowerStr b) = 0))
  else none

/-- The function `compareBoats`, on the pointees. -/
def compareBoats (a b : Boat) : Int := strcasecmp a.name b.name

/-- The order `qsort` is asked to establish: `compareBoats (a, b) <= 0`. -/
def boatLe (a b : Boat) : Prop := compareBoats a b ≤ 0

instance : DecidableRel boatLe := fun a b => by
  unfold boatLe; infer_instance

/-- The library call `qsort (db->boatList, db->boatCount, sizeof (BoatPtr),
compareBoats)`: a sort by `compareBoats` (here by insertion; the order among
boats that compare equal is left open by the C standard). -/
def qsort (l : List Boat) : List Boat := l.insertionSort boatLe

/-- The rate `applyMonthlyCharges` selects in its `switch`. -/
def rateOf : LocationType → F32
  | .SLIP => RATE_SLIP
  | .LAND => RATE_LAND
  | .TRAILOR => RATE_TRAILOR
  | .STORAGE => RATE_STORAGE

/-- The function `applyMonthlyCharges`.  When `type` was never assigned the
`switch` leaves `rate` uninitialised; that case is `none`. -/
def applyMonthlyCharges (boat : Boat) : Option Boat :=
  match boat.type with
  | none => none
  | some t =>
    some { boat with amountOwed := fadd boat.amountOwed (fmul (rateOf t) boat.length) }

def slipLabel : List Char := ['s', 'l', 'i', 'p']
def landLabel : List Char := ['l', 'a', 'n', 'd']
def trailorLabel : List Char := ['t', 'r', 'a', 'i', 'l', 'o', 'r']
def storageLabel : List Char := ['s', 't', 'o', 'r', 'a', 'g', 'e']

/-- The block shared by `loadCSV` and `addBoat`: `sscanf` into a fresh
`Boat`, then the chain of `strcasecmp` tests on `typeStr`.  The result is
`none` when `sscanf` does not return 5 (the boat is freed).  The chain has
no final `else`: a kind that matches no label leaves `type` and `location`
as `malloc` delivered them. -/
def parseBoat (line : List Char) : Option Boat :=
  match sscanf line with
  | none => none
  | some (name, length, typeStr, detail, amountOwed) =>
    if strcasecmp typeStr slipLabel = 0 then
      some ⟨name, length, some .SLIP, .slipNumber (atoi detail), amountOwed⟩
    else if strcasecmp typeStr landLabel = 0 then
      some ⟨name, length, some .LAND, .bayLetter (detail.headD NUL), amountOwed⟩
    else if strcasecmp typeStr trailorLabel = 0 then
      some ⟨name, length, some .TRAILOR,
        .trailorTag (strncpy detail MAX_LICENSE_LEN), amountOwed⟩
    else if strcasecmp typeStr storageLabel = 0 then
      some ⟨name, length, some .STORAGE, .storageSpace (atoi detail), amountOwed⟩
    else
      some ⟨name, length, none, .indeterminate, amountOwed⟩

/-- The `while` loop of `loadCSV` over the lines `fgets` delivers. -/
def loadLoop : List (List Char) → List Boat → List Boat
  | [], l => l
  | line :: rest, l =>
    if l.length < MAX_BOATS then
      match parseBoat line with
      | some boat => loadLoop rest (l ++ [boat])
      | none => loadLoop rest l
    else l

/-- The function `loadCSV`; `file` is the content of the file, `none` when
`fopen` fails. -/
def loadCSV (db : BoatDatabase) (file : Option (List Char)) : BoatDatabase :=
  match file with
  | none => db
  | some content => ⟨qsort (loadLoop (fgetsLines MAX_LINE [] content) db.boatList)⟩

/-- The three `fprintf` calls `saveCSV` makes for one boat.  It is `none`
when the `switch` reads a `type` that was never assigned or a member of the
union that is not the one written last. -/
def saveLine (b : Boat) : Option (List Char) :=
  match b.type, b.location with
  | some .SLIP, .slipNumber n =>
    some (b.name ++ [','] ++ fmtFixed 0 b.length ++ [','] ++ slipLabel ++ [',']
      ++ showInt n ++ [','] ++ fmtFixed 2 b.amountOwed ++ ['\n'])
  | some .LAND, .bayLetter c =>
    some (b.name ++ [','] ++ fmtFixed 0 b.length ++ [','] ++ landLabel ++ [',']
      ++ [c] ++ [','] ++ fmtFixed 2 b.amountOwed ++ ['\n'])
  | some .TRAILOR, .trailorTag buf =>
    match showTag buf with
    | none => none
    | some tag =>
      some (b.name ++ [','] ++ fmtFixed 0 b.length ++ [','] ++ trailorLabel ++ [',']
        ++ tag ++ [','] ++ fmtFixed 2 b.amountOwed ++ ['\n'])
  | some .STORAGE, .storageSpace n =>
    some (b.name ++ [','] ++ fmtFixed 0 b.length ++ [','] ++ storageLabel ++ [',']
      ++ showInt n ++ [','] ++ fmtFixed 2 b.amountOwed ++ ['\n'])
  | _, _ => none

/-- The `for` loop of `saveCSV`: the lines written, in order. -/
def saveLines : List Boat → Option (List (List Char))
  | [] => some []
  | b :: rest =>
    match saveLine b, saveLines rest with
    | some line, some lines => some (line :: lines)
    | _, _ => none

/-- The function `saveCSV` when `fopen` succeeds: the lines of the file. -/
def saveCSV (db : BoatDatabase) : Option (List (List Char)) := saveLines db.boatList

/-- The function `addBoat`. -/
def addBoat (db : BoatDatabase) (line : List Char) : BoatDatabase :=
  if db.boatCount ≥ MAX_BOATS then db
  else
    match parseBoat line with
    | some boat => ⟨qsort (db.boatList ++ [boat])⟩
    | none => db

/-- The loop of `findBoat` from slot `i` on, over the boats from that slot:
`some (some j)` when it returns the boat of slot `j`, `some none` when it
ends without a match (`NULL`), `none` when a call of `namesEqual` has no
result. -/
def findBoatFrom (name : List Char) : List Boat → Nat → Option (Option Nat)
  | [], _ => some none
  | b :: rest, i =>
    match namesEqual b.name name with
    | none => none
    | some true => some (some i)
    | some false => findBoatFrom name rest (i + 1)

/-- The function `findBoat`: the slot of the boat it returns a pointer to,
`some none` for `NULL`. -/
def findBoat (db : BoatDatabase) (name : List Char) : Option (Option Nat) :=
  findBoatFrom name db.boatList 0

/-- The loop of `removeBoat`: `some (some l)` with `l` the list without its
first boat named `name`, `some none` when the loop ends without a match,
`none` when a call of `namesEqual` has no result. -/
def removeLoop (name : List Char) : List Boat → Option (Option (List Boat))
  | [] => some none
  | b :: rest =>
    match namesEqual b.name name with
    | none => none
    | some true => some (some rest)
    | some false =>
      match removeLoop name rest with
      | none => none
      | some none => some none
      | some (some l) => some (some (b :: l))

/-- The function `removeBoat`: the store it leaves. -/
def removeBoat (db : BoatDatabase) (name : List Char) : Option BoatDatabase :=
  match removeLoop name db.boatList with
  | none => none
  | some none => some db
  | some (some l) => some ⟨l⟩

/-- The function `acceptPayment`: the store it leaves. -/
def acceptPayment (db : BoatDatabase) (name : List Char) (amount : F32) :
    Option BoatDatabase :=
  match findBoat db name with
  | none => none
  | some none => some db
  | some (some i) =>
    match db.boatList[i]? with
    | none => some db
    | some boat =>
      if fgt amount boat.amountOwed then some db
      else some ⟨db.boatList.set i { boat with amountOwed := fsub boat.amountOwed amount }⟩

/-- The loop of `applyMonthlyToAll`. -/
def applyMonthlyLoop : List Boat → Option (List Boat)
  | [] => some []
  | b :: rest =>
    match applyMonthlyCharges b, applyMonthlyLoop rest with
    | some b1, some l => some (b1 :: l)
    | _, _ => none

/-- The function `applyMonthlyToAll`. -/
def applyMonthlyToAll (db : BoatDatabase) : Option BoatDatabase :=
  match applyMonthlyLoop db.boatList with
  | some l => some ⟨l⟩
  | none => none

/-! ## Notions the statements use -/

/-- Slot `i` holds the first boat of `l` whose name equals `name`
case-insensitively: it matches and no slot before it does. -/
def FirstMatch (name : List Char) (l : List Boat) (i : Nat) : Prop :=
  (∃ b, l[i]? = some b ∧ namesEqual b.name name = some true) ∧
    ∀ j, j < i → ∀ b, l[j]? = some b → namesEqual b.name name = some false

/-- Two names are equal up to the case of the letters `A` to `Z`: a
case-insensitive match, stated with the library function `Char.toLower` and
no function of the program. -/
def SameName (a b : List Char) : Prop :=
  (cstr a).map Char.toLower = (cstr b).map Char.toLower

instance (a b : List Char) : Decidable (SameName a b) := by
  unfold SameName; infer_instance

/-- Slot `i` holds the first boat of `l` whose name is `name` up to case:
the lowest index of a case-insensitive match. -/
def FirstSame (name : List Char) (l : List Boat) (i : Nat) : Prop :=
  (∃ b, l[i]? = some b ∧ SameName b.name name) ∧
    ∀ j, j < i → ∀ b, l[j]? = some b → ¬ SameName b.name name

/-- Every name of the store is a string that fits the member
`char name[MAX_NAME_LEN]`: at most 127 characters and the terminator. -/
def NamesFit (l : List Boat) : Prop :=
  ∀ b, b ∈ l → (cstr b.name).length < MAX_NAME_LEN

instance (l : List Boat) : Decidable (NamesFit l) := by
  unfold NamesFit; infer_instance

/-- The stores the program can reach from the empty one by calls of
`loadCSV`, `addBoat` and `removeBoat`.  A call of `removeBoat` that has no
result (its name overflows the scratch array of `namesEqual`) reaches no
store. -/
inductive Reachable : BoatDatabase → Prop where
  | empty : Reachable ⟨[]⟩
  | load (db : BoatDatabase) (file : Option (List Char)) :
      Reachable db → Reachable (loadCSV db file)
  | add (db : BoatDatabase) (line : List Char) :
      Reachable db → Reachable (addBoat db line)
  | remove (db db1 : BoatDatabase) (name : List Char) :
      Reachable db → removeBoat db name = some db1 → Reachable db1

/-! ## Well-formed records -/

/-- The characters that end a number in a saved line. -/
def IsSep (c : Char) : Prop := c = ',' ∨ c = '\n'

/-- A character that may stand inside a field: neither the separator nor
the terminator. -/
def IsFieldChar (c : Char) : Prop := c ≠ ',' ∧ c ≠ NUL

instance (c : Char) : Decidable (IsFieldChar c) := by
  unfold IsFieldChar; infer_instance

/-- A name `saveCSV` can write and `sscanf` can read back: not empty, at most
127 characters, free of commas. -/
def WellFormedName (name : List Char) : Prop :=
  name ≠ [] ∧ name.length ≤ 127 ∧ ∀ c, c ∈ name → IsFieldChar c

/-- The storage kind is assigned and the union holds the member of that
kind: an `int`, a bay letter that is no comma, or the array left by
`strncpy` for a tag of 1 to 15 characters free of commas. -/
def WellFormedLocation : Option LocationType → LocationDetail → Prop
  | some .SLIP, .slipNumber n => -2 ^ 31 ≤ n ∧ n < 2 ^ 31
  | some .LAND, .bayLetter c => IsFieldChar c
  | some .TRAILOR, .trailorTag buf =>
    ∃ tag, tag ≠ [] ∧ tag.length ≤ 15 ∧ (∀ c, c ∈ tag → IsFieldChar c) ∧
      buf = strncpy tag MAX_LICENSE_LEN
  | some .STORAGE, .storageSpace n => -2 ^ 31 ≤ n ∧ n < 2 ^ 31
  | _, _ => False

/-- A well-formed record: a well-formed name, a well-formed location, and
two `float`s. -/
def WellFormed (b : Boat) : Prop :=
  WellFormedName b.name ∧ WellFormedLocation b.type b.location ∧
    b.length.isBinary32 ∧ b.amountOwed.isBinary32

/-- The value is the `float` nearest to a decimal with two places, `± k / 100`. -/
def IsCents (x : F32) : Prop :=
  ∃ neg k, x = F32.ofDecimal neg k (-2)

/-! ## Sample data -/

/-- The boat of the line `Jetta,20,slip,2,500.00`. -/
def jetta : Boat :=
  ⟨"Jetta".toList, F32.ofDecimal false 20 0, some .SLIP, .slipNumber 2,
    F32.ofDecimal false 500 0⟩

/-- The boat of the line `Abe,30,land,C,120.50`. -/
def abe : Boat :=
  ⟨"Abe".toList, F32.ofDecimal false 30 0, some .LAND, .bayLetter 'C',
    F32.ofDecimal false 12050 (-2)⟩

/-- A second boat called `jetta`, in storage, owing 10.00. -/
def jetta2 : Boat :=
  ⟨"jetta".toList, F32.ofDecimal false 15 0, some .STORAGE, .storageSpace 7,
    F32.ofDecimal false 10 0⟩

/-- A store of three boats, two of which share a name up to case. -/
def fleet : BoatDatabase := ⟨[abe, jetta, jetta2]⟩

/-- A store that holds `MAX_BOATS` boats. -/
def fullFleet : BoatDatabase := ⟨List.replicate 120 jetta⟩

/-- A boat in a slip, 20 feet long, that owes nothing. -/
def skiff : Boat :=
  ⟨"Skiff".toList, F32.ofDecimal false 20 0, some .SLIP, .slipNumber 1,
    F32.ofDecimal false 0 0⟩

/-- What the program stores for the line `Ghost,20,yacht,7,100.00`. -/
def ghost : Boat :=
  ⟨"Ghost".toList, F32.ofDecimal false 20 0, none, .indeterminate,
    F32.ofDecimal false 100 0⟩

/-- A boat of length 20.25. -/
def dory : Boat :=
  ⟨"Dory".toList, F32.ofDecimal false 2025 (-2), some .SLIP, .slipNumber 4,
    F32.ofDecimal false 0 0⟩

/-- A boat that owes 99.999. -/
def penny : Boat :=
  ⟨"Penny".toList, F32.ofDecimal false 12 0, some .LAND, .bayLetter 'B',
    F32.ofDecimal false 99999 (-3)⟩

/-- A boat on a trailer. -/
def mia : Boat :=
  ⟨"Mia".toList, F32.ofDecimal false 25 0, some .TRAILOR,
    .trailorTag (strncpy "XY12".toList MAX_LICENSE_LEN), F32.ofDecimal true 1999 (-2)⟩

/-- A boat that owes 300000.00. -/
def rich : Boat :=
  ⟨"Rich".toList, F32.ofDecimal false 40 0, some .SLIP, .slipNumber 9,
    F32.ofDecimal false 300000 0⟩

/-- A name of 128 characters, one more than a `Boat` can hold. -/
def longName : List Char := List.replicate 128 'a'

/-! ## Further notions -/

/-- What `applyMonthlyCharges` leaves in the pointee: the charged boat, or
the boat itself where the model gives no result. -/
def charged (b : Boat) : Boat := (applyMonthlyCharges b).getD b

/-- The text of a decimal number: an optional minus sign, the digits `ip`
and, when `fp` is not empty, a point and the digits `fp`. -/
def decimalText (neg : Bool) (ip fp : List Char) : List Char :=
  (if neg then ['-'] else []) ++ ip ++ (if fp = [] then [] else '.' :: fp)

/-- The `float` nearest to the number `decimalText neg ip fp` denotes. -/
def decimalValue (neg : Bool) (ip fp : List Char) : F32 :=
  F32.ofDecimal neg (digitsVal (ip ++ fp)) (-(fp.length : Int))

/-- The text without its leading blanks (space, tab, newline, vertical tab,
form feed, carriage return). -/
def stripBlanks (s : List Char) : List Char :=
  s.dropWhile fun c => decide (c ∈ [' ', '\t', '\n', Char.ofNat 11, Char.ofNat 12, '\r'])

/-- The text without one leading sign. -/
def stripSign : List Char → List Char
  | '-' :: t => t
  | '+' :: t => t
  | s => s

/-- The text starts with a number: after blanks and an optional sign comes a
digit, or a point and a digit, or the letters `inf` or `nan` in either case.
Stated with library functions and no function of the program. -/
def NumberStart (s : List Char) : Bool :=
  (stripSign (stripBlanks s)).head?.any Char.isDigit ||
    ((stripSign (stripBlanks s)).head? == some '.' &&
      ((stripSign (stripBlanks s)).drop 1).head?.any Char.isDigit) ||
    ((stripSign (stripBlanks s)).take 3).map Char.toLower == ['i', 'n', 'f'] ||
    ((stripSign (stripBlanks s)).take 3).map Char.toLower == ['n', 'a', 'n']

/-- The text after the `n`-th comma of a line, `none` when the line has
fewer commas. -/
def afterCommas : Nat → List Char → Option (List Char)
  | 0, s => some s
  | n + 1, s =>
    match s.dropWhile fun c => decide (c ≠ ',') with
    | [] => none
    | _ :: t => afterCommas n t

/-- The text `r` is what is left of `s` after a prefix free of commas. -/
def Consumes (s r : List Char) : Prop :=
  ∃ pre, s = pre ++ r ∧ ∀ c, c ∈ pre → c ≠ ','

/-- A character that cannot continue a decimal number: no digit, no point,
no exponent letter, and not the `x` of a hexadecimal constant. -/
def StopsNumber (c : Char) : Prop :=
  c.isDigit = false ∧ c ≠ '.' ∧ c ≠ 'e' ∧ c ≠ 'E' ∧ c ≠ 'x' ∧ c ≠ 'X'

instance (c : Char) : Decidable (StopsNumber c) := by
  unfold StopsNumber; infer_instance

/-- A line that does not decompose into the five fields: the name is empty,
a field is missing (fewer than four commas), the text of the length (after
the first comma) or of `amountOwed` (after the fourth) starts with no
number, or the length is a decimal number with other text behind it, before
the comma. -/
def Malformed (line : List Char) : Prop :=
  line = [] ∨ line.head? = some ',' ∨ afterCommas 4 line = none ∨
    (∃ t, afterCommas 1 line = some t ∧ NumberStart t = false) ∨
    (∃ t, afterCommas 4 line = some t ∧ NumberStart t = false) ∨
    (∃ neg ip fp c rest, afterCommas 1 line = some (decimalText neg ip fp ++ c :: rest) ∧
      ip ≠ [] ∧ (∀ x, x ∈ ip ++ fp → x.isDigit = true) ∧ StopsNumber c ∧ c ≠ ',')

/-- The label of a storage kind in the file format. -/
def kindLabel : LocationType → List Char
  | .SLIP => slipLabel
  | .LAND => landLabel
  | .TRAILOR => trailorLabel
  | .STORAGE => storageLabel

/-- A boat called `Mia` as the program stores it for the kind `trailer`. -/
def miaTrailer : Boat :=
  ⟨"Mia".toList, F32.ofDecimal false 25 0, none, .indeterminate, F32.ofDecimal false 0 0⟩

/-- What the program stores for a trailer line whose detail has 16
characters: the array holds them all and no terminator. -/
def miaLong : Boat :=
  ⟨"Mia".toList, F32.ofDecimal false 25 0, some .TRAILOR,
    .trailorTag "ABCDEFGHIJKLMNOP".toList, F32.ofDecimal false 0 0⟩

/-- The boat has a storage kind, the union holds the member of that kind,
and a trailer tag is terminated inside its array: what the `switch` of
`saveCSV` relies on. -/
def KindAssigned (b : Boat) : Prop :=
  match b.type, b.location with
  | some .SLIP, .slipNumber _ => True
  | some .LAND, .bayLetter _ => True
  | some .TRAILOR, .trailorTag buf => NUL ∈ buf
  | some .STORAGE, .storageSpace _ => True
  | _, _ => False

instance (b : Boat) : Decidable (KindAssigned b) := by
  unfold KindAssigned; split <;> infer_instance

/-- The detail field of the format: the slip number, the bay letter, the
trailer tag or the storage number, as text. -/
def detailText : LocationDetail → List Char
  | .slipNumber n => showInt n
  | .bayLetter c => [c]
  | .trailorTag buf => cstr buf
  | .storageSpace n => showInt n
  | .indeterminate => []

/-- The number a run of decimal digits denotes, most significant digit
first, by the library function `Nat.ofDigits`. -/
def decimalNat (ds : List Char) : Nat :=
  Nat.ofDigits 10 (ds.reverse.map fun c => c.toNat - 48)

/-- The text is a decimal numeral with `places` digits after the point: a
minus sign exactly when `neg`, at least one digit, and, when `places` is not
0, a point and exactly `places` digits; read without the point, the digits
denote `value`. -/
def IsNumeral (text : List Char) (neg : Bool) (places value : Nat) : Prop :=
  ∃ ip fp, text = (if neg then ['-'] else []) ++ ip ++ (if places = 0 then [] else '.' :: fp) ∧
    ip ≠ [] ∧ fp.length = places ∧ (∀ c, c ∈ ip ++ fp → c.isDigit = true) ∧
    decimalNat (ip ++ fp) = value

/-- The text renders the finite `float` with `places` decimals: it is the
numeral, with a minus sign when the sign bit is set, of a number `v` of
`10^-places` that is nearest to the magnitude `mag * 2^-149` (at most half a
step away) and even when the magnitude lies halfway between two of them.  No
text renders an infinity or a NaN that way. -/
def IsRendering (places : Nat) (text : List Char) : F32 → Prop
  | .finite neg mag =>
    ∃ v, IsNumeral text neg places v ∧
      2 * (v * 2 ^ 149) ≤ 2 * (mag * 10 ^ places) + 2 ^ 149 ∧
      2 * (mag * 10 ^ places) ≤ 2 * (v * 2 ^ 149) + 2 ^ 149 ∧
      ((2 * (v * 2 ^ 149) = 2 * (mag * 10 ^ places) + 2 ^ 149 ∨
        2 * (mag * 10 ^ places) = 2 * (v * 2 ^ 149) + 2 ^ 149) → v % 2 = 0)
  | _ => False

/-- The text is the detail of the location: the numeral of the slip or
storage number, the bay letter, or the trailer tag up to its terminator. -/
def IsDetail (text : List Char) : LocationDetail → Prop
  | .slipNumber n => IsNumeral text (decide (n < 0)) 0 n.natAbs
  | .bayLetter c => text = [c]
  | .trailorTag buf => text = buf.takeWhile fun c => decide (c ≠ Char.ofNat 0)
  | .storageSpace n => IsNumeral text (decide (n < 0)) 0 n.natAbs
  | .indeterminate => False

/-- What the program stores for the line `Bee,1e39,slip,-3,nan`: a length
that overflowed to infinity and a balance that is no number. -/
def bee : Boat :=
  ⟨"Bee".toList, .inf false, some .SLIP, .slipNumber (-3), .nan false⟩

/-- A boat in slip -3 with a length and a balance of minus zero. -/
def cee : Boat :=
  ⟨"Cee".toList, .finite true 0, some .SLIP, .slipNumber (-3), .finite true 0⟩

/-- The content of a file made of the lines `ls`, each followed by a newline. -/
def fileOf : List (List Char) → List Char
  | [] => []
  | l :: rest => l ++ '\n' :: fileOf rest

/-- A line of 269 characters: a record, 241 blanks, and the text of a second
record from character 256 on. -/
def longLine : List Char :=
  "Ann,1,slip,1,0".toList ++ List.replicate 241 ' ' ++ "Bob,2,land,C,4".toList

/-- The boat of the text `Ann,1,slip,1,0`. -/
def ann : Boat :=
  ⟨"Ann".toList, F32.ofDecimal false 1 0, some .SLIP, .slipNumber 1, F32.ofDecimal false 0 0⟩

/-- The boat of the text `Bob,2,land,C,4`. -/
def bob : Boat :=
  ⟨"Bob".toList, F32.ofDecimal false 2 0, some .LAND, .bayLetter 'C', F32.ofDecimal false 4 0⟩

/-- The stores the program can reach from the empty one by calls of
`loadCSV`, `addBoat`, `removeBoat`, `acceptPayment` and `applyMonthlyToAll`
when every line handed to the parse (each line of a file as `fgets` delivers
it, each line given to `addBoat`) satisfies `P` and every amount paid
satisfies `R`.  A call that has no result reaches no store. -/
inductive ReachableBy (P : List Char → Prop) (R : F32 → Prop) : BoatDatabase → Prop where
  | empty : ReachableBy P R ⟨[]⟩
  | load (db : BoatDatabase) (file : Option (List Char)) :
      ReachableBy P R db →
      (∀ content, file = some content →
        ∀ line, line ∈ fgetsLines MAX_LINE [] content → P line) →
      ReachableBy P R (loadCSV db file)
  | add (db : BoatDatabase) (line : List Char) :
      ReachableBy P R db → P line → ReachableBy P R (addBoat db line)
  | remove (db db1 : BoatDatabase) (name : List Char) :
      ReachableBy P R db → removeBoat db name = some db1 → ReachableBy P R db1
  | pay (db db1 : BoatDatabase) (name : List Char) (amount : F32) :
      ReachableBy P R db → R amount → acceptPayment db name amount = some db1 →
      ReachableBy P R db1
  | month (db db1 : BoatDatabase) :
      ReachableBy P R db → applyMonthlyToAll db = some db1 → ReachableBy P R db1

/-- The line names one of the four kinds and carries no negative number and
no NaN: when it converts, the kind of its boat is assigned and its length
and `amountOwed` satisfy `>= 0`. -/
def GoodLine (line : List Char) : Prop :=
  ∀ b, parseBoat line = some b →
    (∃ t, b.type = some t) ∧ fge0 b.length = true ∧ fge0 b.amountOwed = true

/-- The amount is a finite number. -/
def FiniteAmount (x : F32) : Prop := x.isFinite = true

instance (x : F32) : Decidable (FiniteAmount x) := by
  unfold FiniteAmount; infer_instance

/-- The boat of the line `Jetta,20,slip,2,12abc`. -/
def jetta12 : Boat :=
  ⟨"Jetta".toList, F32.ofDecimal false 20 0, some .SLIP, .slipNumber 2,
    F32.ofDecimal false 12 0⟩

/-- The boat of the line `Debt,20,slip,1,-5.00`. -/
def debt : Boat :=
  ⟨"Debt".toList, F32.ofDecimal false 20 0, some .SLIP, .slipNumber 1,
    F32.ofDecimal true 500 (-2)⟩

/-- The boat of the line `Big,1e39,slip,1,1e39`: both numbers overflow to
infinity. -/
def big : Boat :=
  ⟨"Big".toList, .inf false, some .SLIP, .slipNumber 1, .inf false⟩

/-- The boat of the line `Tow,-20,slip,1,0.00`. -/
def tow : Boat :=
  ⟨"Tow".toList, F32.ofDecimal true 20 0, some .SLIP, .slipNumber 1,
    F32.ofDecimal false 0 0⟩

/-! ## Names -/

theorem char_eq_of_toNat_eq (a b : Char) (h : a.toNat = b.toNat) : a = b := by
  rw [← Char.ofNat_toNat a, ← Char.ofNat_toNat b, h]

theorem tolower_toNat (c : Char) :
    (tolower c).toNat = if 65 ≤ c.toNat ∧ c.toNat ≤ 90 then c.toNat + 32 else c.toNat := by
  unfold tolower
  split_ifs with h
  · obtain ⟨h1, h2⟩ := h
    generalize c.toNat = n at h1 h2
    interval_cases n <;> rfl
  · rfl

theorem tolower_toNat_eq_zero (c : Char) : (tolower c).toNat = 0 ↔ c = NUL := by
  rw [tolower_toNat]
  constructor
  · intro h
    by_cases hc : 65 ≤ c.toNat ∧ c.toNat ≤ 90
    · rw [if_pos hc] at h
      omega
    · rw [if_neg hc] at h
      exact char_eq_of_toNat_eq c NUL h
  · rintro rfl
    decide

theorem tolower_eq_toLower (c : Char) : tolower c = c.toLower := rfl

theorem cstr_no_nul (s : List Char) : ∀ c, c ∈ cstr s → c ≠ NUL := by
  intro c hc
  have := List.mem_takeWhile_imp hc
  simpa using this

theorem toLowerStr_eq_map (a : List Char) : toLowerStr a = (cstr a).map Char.toLower := rfl

theorem toLowerStr_no_nul (a : List Char) : ∀ c, c ∈ toLowerStr a → c ≠ NUL := by
  intro c hc
  unfold toLowerStr at hc
  obtain ⟨d, hd, rfl⟩ := List.mem_map.1 hc
  intro h
  have h0 : (tolower d).toNat = 0 := by rw [h]; decide
  exact cstr_no_nul a d hd ((tolower_toNat_eq_zero d).1 h0)

theorem strcmp_eq_zero_iff (x y : List Char)
    (hx : ∀ c, c ∈ x → c ≠ NUL) (hy : ∀ c, c ∈ y → c ≠ NUL) : strcmp x y = 0 ↔ x = y := by
  induction x generalizing y with
  | nil =>
    cases y with
    | nil => simp [strcmp]
    | cons b bs =>
      have hb : ¬ b.toNat = 0 := fun h =>
        hy b (List.mem_cons_self b bs) (char_eq_of_toNat_eq b NUL h)
      simp only [strcmp]
      constructor
      · intro h
        omega
      · intro h
        cases h
  | cons a as ih =>
    have ha : ¬ a.toNat = 0 := fun h =>
      hx a (List.mem_cons_self a as) (char_eq_of_toNat_eq a NUL h)
    cases y with
    | nil =>
      simp only [strcmp]
      constructor
      · intro h
        omega
      · intro h
        cases h
    | cons b bs =>
      simp only [strcmp]
      by_cases hab : a.toNat = b.toNat
      · have hchar : a = b := char_eq_of_toNat_eq _ _ hab
        subst hchar
        simp only [ne_eq, not_true_eq_false, if_false, ha]
        rw [ih bs (fun c hc => hx c (List.mem_cons_of_mem a hc))
          (fun c hc => hy c (List.mem_cons_of_mem a hc))]
        simp
      · simp only [ne_eq, hab, not_false_eq_true, if_true]
        constructor
        · intro h
          omega
        · intro h
          simp only [List.cons.injEq] at h
          exact absurd (by rw [h.1]) hab

theorem namesEqual_of_fit (a b : List Char)
    (ha : (cstr a).length < MAX_NAME_LEN) (hb : (cstr b).length < MAX_NAME_LEN) :
    namesEqual a b = some (decide (SameName a b)) := by
  unfold namesEqual
  rw [if_pos ⟨ha, hb⟩]
  congr 1
  have := strcmp_eq_zero_iff (toLowerStr a) (toLowerStr b) (toLowerStr_no_nul a)
    (toLowerStr_no_nul b)
  simp only [SameName, ← toLowerStr_eq_map, this]

theorem namesEqual_eq_none_iff (a b : List Char) :
    namesEqual a b = none ↔
      ¬ ((cstr a).length < MAX_NAME_LEN ∧ (cstr b).length < MAX_NAME_LEN) := by
  unfold namesEqual
  split_ifs with h <;> simp [h]

theorem namesEqual_eq_some_iff (a b : List Char) (r : Bool) :
    namesEqual a b = some r ↔
      (cstr a).length < MAX_NAME_LEN ∧ (cstr b).length < MAX_NAME_LEN ∧
        (r = true ↔ SameName a b) := by
  by_cases h : (cstr a).length < MAX_NAME_LEN ∧ (cstr b).length < MAX_NAME_LEN
  · rw [namesEqual_of_fit a b h.1 h.2]
    simp only [Option.some.injEq, h.1, h.2, true_and]
    constructor
    · rintro rfl
      simp
    · intro hr
      by_cases hs : SameName a b
      · simp [hs, hr.2 hs]
      · cases r with
        | true => exact absurd (hr.1 rfl) hs
        | false => simp [hs]
  · rw [(namesEqual_eq_none_iff a b).2 h]
    simp only [reduceCtorEq, false_iff]
    intro hr
    exact h ⟨hr.1, hr.2.1⟩

theorem sameName_length (a b : List Char) (h : SameName a b) :
    (cstr a).length = (cstr b).length := by
  have := congrArg List.length h
  simpa using this

/-! ## Lookup and removal -/

theorem firstMatch_cons_of_match (name : List Char) (b : Boat) (rest : List Boat) (i : Nat)
    (h : namesEqual b.name name = some true) : FirstMatch name (b :: rest) i ↔ i = 0 := by
  constructor
  · rintro ⟨-, hbefore⟩
    by_contra hi
    have h0 := hbefore 0 (Nat.pos_of_ne_zero hi) b (by simp)
    simp [h] at h0
  · rintro rfl
    exact ⟨⟨b, by simp, h⟩, fun j hj => absurd hj (Nat.not_lt_zero j)⟩

theorem firstMatch_cons_of_no_match (name : List Char) (b : Boat) (rest : List Boat) (i : Nat)
    (h : namesEqual b.name name = some false) :
    FirstMatch name (b :: rest) i ↔ ∃ k, i = k + 1 ∧ FirstMatch name rest k := by
  constructor
  · rintro ⟨⟨c, hc, hm⟩, hbefore⟩
    cases i with
    | zero =>
      simp at hc
      subst hc
      simp [h] at hm
    | succ k =>
      refine ⟨k, rfl, ⟨c, by simpa using hc, hm⟩, fun j hj d hd => ?_⟩
      exact hbefore (j + 1) (by omega) d (by simpa using hd)
  · rintro ⟨k, rfl, ⟨c, hc, hm⟩, hbefore⟩
    refine ⟨⟨c, by simpa using hc, hm⟩, fun j hj d hd => ?_⟩
    cases j with
    | zero =>
      simp at hd
      subst hd
      exact h
    | succ j1 => exact hbefore j1 (by omega) d (by simpa using hd)

theorem firstMatch_cons_of_none (name : List Char) (b : Boat) (rest : List Boat) (i : Nat)
    (h : namesEqual b.name name = none) : ¬ FirstMatch name (b :: rest) i := by
  rintro ⟨⟨c, hc, hm⟩, hbefore⟩
  cases i with
  | zero =>
    simp at hc
    subst hc
    simp [h] at hm
  | succ k =>
    have := hbefore 0 (by omega) b (by simp)
    simp [h] at this

theorem firstMatch_lt_length (name : List Char) (l : List Boat) (i : Nat)
    (h : FirstMatch name l i) : i < l.length := by
  obtain ⟨⟨b, hb, -⟩, -⟩ := h
  by_contra hlt
  rw [List.getElem?_eq_none (by omega)] at hb
  cases hb

theorem firstSame_lt_length (name : List Char) (l : List Boat) (i : Nat)
    (h : FirstSame name l i) : i < l.length := by
  obtain ⟨⟨b, hb, -⟩, -⟩ := h
  by_contra hlt
  rw [List.getElem?_eq_none (by omega)] at hb
  cases hb

theorem firstSame_unique (name : List Char) (l : List Boat) (i j : Nat)
    (hi : FirstSame name l i) (hj : FirstSame name l j) : i = j := by
  obtain ⟨⟨b, hb, hbm⟩, hbi⟩ := hi
  obtain ⟨⟨c, hc, hcm⟩, hcj⟩ := hj
  rcases Nat.lt_trichotomy i j with hlt | heq | hgt
  · exact absurd hbm (hcj i hlt b hb)
  · exact heq
  · exact absurd hcm (hbi j hgt c hc)

theorem firstMatch_iff_firstSame (name : List Char) (l : List Boat) (i : Nat)
    (hfit : NamesFit l) : FirstMatch name l i ↔ FirstSame name l i := by
  constructor
  · rintro ⟨⟨b, hb, hm⟩, hbefore⟩
    refine ⟨⟨b, hb, ?_⟩, fun j hj c hc => ?_⟩
    · exact ((namesEqual_eq_some_iff _ _ _).1 hm).2.2.1 rfl
    · intro hs
      have := ((namesEqual_eq_some_iff _ _ _).1 (hbefore j hj c hc)).2.2.2 hs
      cases this
  · rintro ⟨⟨b, hb, hs⟩, hbefore⟩
    have hbfit := hfit b (List.getElem?_mem hb)
    have hname : (cstr name).length < MAX_NAME_LEN := by
      rw [← sameName_length _ _ hs]
      exact hbfit
    refine ⟨⟨b, hb, ?_⟩, fun j hj c hc => ?_⟩
    · rw [namesEqual_of_fit _ _ hbfit hname]
      simp [hs]
    · rw [namesEqual_of_fit _ _ (hfit c (List.getElem?_mem hc)) hname]
      simp [hbefore j hj c hc]

theorem exists_firstSame (name : List Char) (l : List Boat)
    (h : ∃ b, b ∈ l ∧ SameName b.name name) : ∃ i, FirstSame name l i := by
  induction l with
  | nil =>
    obtain ⟨b, hb, -⟩ := h
    cases hb
  | cons a rest ih =>
    by_cases ha : SameName a.name name
    · exact ⟨0, ⟨a, by simp, ha⟩, fun j hj => absurd hj (Nat.not_lt_zero j)⟩
    · obtain ⟨b, hb, hm⟩ := h
      rcases List.mem_cons.1 hb with rfl | hrest
      · exact absurd hm ha
      · obtain ⟨k, ⟨c, hc, hcm⟩, hbefore⟩ := ih ⟨b, hrest, hm⟩
        refine ⟨k + 1, ⟨c, by simpa using hc, hcm⟩, fun j hj d hd => ?_⟩
        cases j with
        | zero =>
          simp at hd
          subst hd
          exact ha
        | succ j1 => exact hbefore j1 (by omega) d (by simpa using hd)

theorem findBoatFrom_eq_some_iff (name : List Char) (l : List Boat) (k i : Nat) :
    findBoatFrom name l k = some (some i) ↔ ∃ n, i = k + n ∧ FirstMatch name l n := by
  induction l generalizing k with
  | nil =>
    simp only [findBoatFrom, Option.some.injEq, reduceCtorEq, false_iff]
    rintro ⟨n, -, h⟩
    exact absurd (firstMatch_lt_length name [] n h) (by simp)
  | cons a rest ih =>
    cases ha : namesEqual a.name name with
    | none =>
      simp only [findBoatFrom, ha, reduceCtorEq, false_iff]
      rintro ⟨n, -, hn⟩
      exact firstMatch_cons_of_none name a rest n ha hn
    | some r =>
      cases r with
      | true =>
        simp only [findBoatFrom, ha, Option.some.injEq]
        constructor
        · rintro rfl
          exact ⟨0, rfl, (firstMatch_cons_of_match name a rest 0 ha).2 rfl⟩
        · rintro ⟨n, rfl, hn⟩
          rw [(firstMatch_cons_of_match name a rest n ha).1 hn]
          rfl
      | false =>
        simp only [findBoatFrom, ha]
        rw [ih (k + 1)]
        constructor
        · rintro ⟨n, rfl, hn⟩
          exact ⟨n + 1, by omega,
            (firstMatch_cons_of_no_match name a rest (n + 1) ha).2 ⟨n, rfl, hn⟩⟩
        · rintro ⟨n, rfl, hn⟩
          obtain ⟨m, rfl, hm⟩ := (firstMatch_cons_of_no_match name a rest n ha).1 hn
          exact ⟨m, by omega, hm⟩

theorem findBoatFrom_eq_none_iff (name : List Char) (l : List Boat) (k : Nat) :
    findBoatFrom name l k = some none ↔
      ∀ b, b ∈ l → namesEqual b.name name = some false := by
  induction l generalizing k with
  | nil => simp [findBoatFrom]
  | cons a rest ih =>
    cases ha : namesEqual a.name name with
    | none =>
      simp only [findBoatFrom, ha, reduceCtorEq, false_iff]
      intro h
      have := h a (List.mem_cons_self a rest)
      simp [ha] at this
    | some r =>
      cases r with
      | true =>
        simp only [findBoatFrom, ha, Option.some.injEq, reduceCtorEq, false_iff]
        intro h
        have := h a (List.mem_cons_self a rest)
        simp [ha] at this
      | false =>
        simp only [findBoatFrom, ha, List.mem_cons]
        rw [ih (k + 1)]
        constructor
        · rintro h b (rfl | hb)
          · exact ha
          · exact h b hb
        · exact fun h b hb => h b (Or.inr hb)

theorem findBoat_eq_some_iff (db : BoatDatabase) (name : List Char) (i : Nat) :
    findBoat db name = some (some i) ↔ FirstMatch name db.boatList i := by
  unfold findBoat
  rw [findBoatFrom_eq_some_iff]
  constructor
  · rintro ⟨n, rfl, hn⟩
    simpa using hn
  · exact fun h => ⟨i, by omega, h⟩

theorem findBoatFrom_defined (name : List Char) (l : List Boat) (k : Nat)
    (hfit : NamesFit l) (hname : (cstr name).length < MAX_NAME_LEN) :
    ∃ r, findBoatFrom name l k = some r := by
  induction l generalizing k with
  | nil => exact ⟨none, rfl⟩
  | cons a rest ih =>
    have ha := namesEqual_of_fit a.name name (hfit a (List.mem_cons_self a rest)) hname
    unfold findBoatFrom
    rw [ha]
    cases decide (SameName a.name name) with
    | true => exact ⟨_, rfl⟩
    | false => exact ih (k + 1) (fun b hb => hfit b (List.mem_cons_of_mem a hb))

theorem findBoatFrom_undefined (name : List Char) (a : Boat) (rest : List Boat) (k : Nat)
    (hname : MAX_NAME_LEN ≤ (cstr name).length) : findBoatFrom name (a :: rest) k = none := by
  have ha : namesEqual a.name name = none :=
    (namesEqual_eq_none_iff _ _).2 (fun h => by omega)
  simp [findBoatFrom, ha]

theorem removeLoop_of_firstMatch (name : List Char) (l : List Boat) (i : Nat)
    (h : FirstMatch name l i) : removeLoop name l = some (some (l.eraseIdx i)) := by
  induction l generalizing i with
  | nil => exact absurd (firstMatch_lt_length name [] i h) (by simp)
  | cons a rest ih =>
    cases ha : namesEqual a.name name with
    | none => exact absurd h (firstMatch_cons_of_none name a rest i ha)
    | some r =>
      cases r with
      | true =>
        rw [(firstMatch_cons_of_match name a rest i ha).1 h]
        simp [removeLoop, ha]
      | false =>
        obtain ⟨k, rfl, hk⟩ := (firstMatch_cons_of_no_match name a rest i ha).1 h
        simp [removeLoop, ha, ih k hk]

theorem removeLoop_of_no_match (name : List Char) (l : List Boat)
    (h : ∀ b, b ∈ l → namesEqual b.name name = some false) :
    removeLoop name l = some none := by
  induction l with
  | nil => rfl
  | cons a rest ih =>
    have ha := h a (List.mem_cons_self a rest)
    simp [removeLoop, ha, ih (fun b hb => h b (List.mem_cons_of_mem a hb))]

theorem removeLoop_undefined (name : List Char) (a : Boat) (rest : List Boat)
    (hname : MAX_NAME_LEN ≤ (cstr name).length) : removeLoop name (a :: rest) = none := by
  have ha : namesEqual a.name name = none :=
    (namesEqual_eq_none_iff _ _).2 (fun h => by omega)
  simp [removeLoop, ha]

theorem removeLoop_sublist (name : List Char) (l l1 : List Boat)
    (h : removeLoop name l = some (some l1)) : l1.Sublist l := by
  induction l generalizing l1 with
  | nil => simp [removeLoop] at h
  | cons a rest ih =>
    cases ha : namesEqual a.name name with
    | none => simp [removeLoop, ha] at h
    | some r =>
      cases r with
      | true =>
        simp only [removeLoop, ha, Option.some.injEq] at h
        subst h
        exact List.sublist_cons_self a rest
      | false =>
        simp only [removeLoop, ha] at h
        cases hr : removeLoop name rest with
        | none => simp [hr] at h
        | some o =>
          cases o with
          | none => simp [hr] at h
          | some l2 =>
            simp only [hr, Option.some.injEq] at h
            subst h
            exact (ih l2 hr).cons₂ a

theorem removeBoat_sublist (db db1 : BoatDatabase) (name : List Char)
    (h : removeBoat db name = some db1) : db1.boatList.Sublist db.boatList := by
  unfold removeBoat at h
  cases hr : removeLoop name db.boatList with
  | none => simp [hr] at h
  | some o =>
    cases o with
    | none =>
      simp only [hr, Option.some.injEq] at h
      subst h
      exact List.Sublist.refl _
    | some l =>
      simp only [hr, Option.some.injEq] at h
      subst h
      exact removeLoop_sublist name db.boatList l hr

theorem no_match_of_not_sameName (name : List Char) (l : List Boat) (hfit : NamesFit l)
    (hname : (cstr name).length < MAX_NAME_LEN)
    (h : ∀ b, b ∈ l → ¬ SameName b.name name) :
    ∀ b, b ∈ l → namesEqual b.name name = some false := by
  intro b hb
  rw [namesEqual_of_fit _ _ (hfit b hb) hname]
  simp [h b hb]

/-! ## Claims about `addBoat` at capacity, payments, removal and lookup -/

/-- C4 — Capacity.  When the store holds the maximum count
(`boatCount = 120`), `addBoat` leaves it unchanged whatever the line is:
the same count and the same records in the same order. -/
theorem addBoat_full_unchanged (db : BoatDatabase) (line : List Char)
    (hfull : db.boatCount = 120) :
    (addBoat db line).boatCount = db.boatCount ∧
      (addBoat db line).boatList = db.boatList := by
  have h : addBoat db line = db := by
    unfold addBoat
    rw [if_pos (by rw [hfull]; decide)]
  rw [h]
  exact ⟨rfl, rfl⟩

theorem addBoat_full_unchanged_witness :
    fullFleet.boatCount = 120 ∧
      (addBoat fullFleet "Abe,30,land,C,120.50".toList).boatList = fullFleet.boatList :=
  ⟨by decide, (addBoat_full_unchanged fullFleet "Abe,30,land,C,120.50".toList (by decide)).2⟩

theorem fgt_finite (s t : Bool) (m n : Nat) :
    fgt (.finite s m) (.finite t n) = true ↔
      (F32.finite t n).units < (F32.finite s m).units := by
  simp [fgt]

theorem findBoat_of_firstSame (db : BoatDatabase) (name : List Char) (i : Nat)
    (hfit : NamesFit db.boatList) (h : FirstSame name db.boatList i) :
    findBoat db name = some (some i) :=
  (findBoat_eq_some_iff db name i).2 ((firstMatch_iff_firstSame name db.boatList i hfit).2 h)

theorem fits_of_sameName (l : List Boat) (b : Boat) (name : List Char) (hfit : NamesFit l)
    (hb : b ∈ l) (h : SameName b.name name) : (cstr name).length < MAX_NAME_LEN := by
  rw [← sameName_length _ _ h]
  exact hfit b hb

/-- C5 — Overpayment is rejected.  Let `r` be a boat of the store whose name
matches `name` case-insensitively, and let `amount` be strictly greater than
what `r` owes (the comparison `amount > amountOwed` of `float`s, which for
finite values is the comparison of the numbers).  Then `acceptPayment`
leaves `r` as it is in its slot, and when `r` is the boat the name stands
for (the first match, which the lookup yields) the whole store is unchanged:
the balance is not clamped to zero. -/
theorem acceptPayment_overpayment_rejected (db : BoatDatabase) (name : List Char)
    (amount : F32) (j : Nat) (r : Boat)
    (hfit : NamesFit db.boatList)
    (hslot : db.boatList[j]? = some r)
    (hname : SameName r.name name)
    (hover : fgt amount r.amountOwed = true) :
    (∃ db1, acceptPayment db name amount = some db1 ∧ db1.boatList[j]? = some r ∧
        (FirstSame name db.boatList j → db1 = db)) ∧
      ∀ s t m n, fgt (.finite s m) (.finite t n) = true ↔
        (F32.finite t n).units < (F32.finite s m).units := by
  refine ⟨?_, fgt_finite⟩
  have hr : r ∈ db.boatList := List.getElem?_mem hslot
  obtain ⟨i, hi⟩ := exists_firstSame name db.boatList ⟨r, hr, hname⟩
  have hfind := findBoat_of_firstSame db name i hfit hi
  obtain ⟨⟨boat, hboat, -⟩, -⟩ := hi
  unfold acceptPayment
  simp only [hfind, hboat]
  by_cases hrej : fgt amount boat.amountOwed = true
  · rw [if_pos hrej]
    exact ⟨db, rfl, hslot, fun _ => rfl⟩
  · rw [if_neg hrej]
    have hij : i ≠ j := by
      rintro rfl
      rw [hslot] at hboat
      cases hboat
      exact hrej hover
    refine ⟨_, rfl, ?_, fun hfirst => ?_⟩
    · rw [List.getElem?_set_ne hij]
      exact hslot
    · have hj := findBoat_of_firstSame db name j hfit hfirst
      rw [hfind] at hj
      simp only [Option.some.injEq] at hj
      exact absurd hj hij

theorem acceptPayment_overpayment_rejected_witness :
    NamesFit fleet.boatList ∧ fleet.boatList[1]? = some jetta ∧
      SameName jetta.name "JETTA".toList ∧
      fgt (F32.ofDecimal false 50001 (-2)) jetta.amountOwed = true ∧
      acceptPayment fleet "JETTA".toList (F32.ofDecimal false 50001 (-2)) = some fleet ∧
      ∃ db1, acceptPayment fleet "JETTA".toList (F32.ofDecimal false 50001 (-2)) = some db1 ∧
        db1.boatList[1]? = some jetta ∧
        (FirstSame "JETTA".toList fleet.boatList 1 → db1 = fleet) :=
  ⟨by decide, by decide, by decide, by decide, by decide,
    (acceptPayment_overpayment_rejected fleet "JETTA".toList (F32.ofDecimal false 50001 (-2))
      1 jetta (by decide) (by decide) (by decide) (by decide)).1⟩

theorem round_zero (neg : Bool) : F32.round neg 0 1 = .finite neg 0 := by
  cases neg <;> decide

theorem fsub_finite_of_le (a b : F32) (ha : a.isFinite = true) (hb : b.isFinite = true)
    (hpos : 0 < b.units) (hle : b.units ≤ a.units) :
    fsub a b = F32.round false (a.units - b.units).toNat 1 := by
  cases a with
  | finite s m =>
    cases b with
    | finite t n =>
      have ht : t = false := by
        cases t with
        | false => rfl
        | true =>
          simp only [F32.units, if_true] at hpos
          omega
      subst ht
      have hs : s = false := by
        cases s with
        | false => rfl
        | true =>
          simp only [F32.units, if_true, Bool.false_eq_true, if_false] at hpos hle
          omega
      subst hs
      simp only [F32.units, Bool.false_eq_true, if_false] at hpos hle ⊢
      unfold fsub F32.ofUnits
      simp only [F32.units, Bool.false_eq_true, if_false]
      by_cases h0 : (m : Int) - n = 0
      · rw [if_pos h0, h0]
        exact (round_zero false).symm
      · rw [if_neg h0]
        have hneg : ¬ ((m : Int) - n < 0) := by omega
        have hnat : ((m : Int) - n).natAbs = ((m : Int) - n).toNat := by omega
        simp only [hneg, decide_False, hnat]
    | inf t => cases hb
    | nan t => cases hb
  | inf s => cases ha
  | nan s => cases ha

theorem fsub_self_finite (a : F32) (ha : a.isFinite = true) (hpos : 0 < a.units) :
    fsub a a = .finite false 0 := by
  rw [fsub_finite_of_le a a ha ha hpos (le_refl _), sub_self]
  exact round_zero false

theorem toRat_round_of_isBinary32 (v : Nat) (h : F32.isBinary32 (.finite false v)) :
    (F32.round false v 1).toRat = (v : ℚ) / 2 ^ 149 := by
  unfold F32.isBinary32 at h
  rw [h]
  simp [F32.toRat, F32.units]

/-- C6 (amended) — Accepted payment.  Let slot `i` hold the first boat whose
name matches `name` case-insensitively, and let `amount` and the balance of
that boat be finite, `amount` positive and not above the balance.  Then
`acceptPayment` changes slot `i` only, replacing the balance by the `float`
difference `amountOwed - amount`: the binary32 nearest to the exact
difference.  That is the exact difference whenever the exact one is a
binary32 value, and it is 0 when the payment equals the balance. -/
theorem acceptPayment_accepted (db : BoatDatabase) (name : List Char) (amount : F32)
    (i : Nat) (boat : Boat)
    (hfit : NamesFit db.boatList)
    (hfirst : FirstSame name db.boatList i)
    (hslot : db.boatList[i]? = some boat)
    (hfin : amount.isFinite = true ∧ boat.amountOwed.isFinite = true)
    (hpos : 0 < amount.units)
    (hle : amount.units ≤ boat.amountOwed.units) :
    acceptPayment db name amount
        = some ⟨db.boatList.set i { boat with amountOwed := fsub boat.amountOwed amount }⟩ ∧
      fsub boat.amountOwed amount
        = F32.round false (boat.amountOwed.units - amount.units).toNat 1 ∧
      (F32.isBinary32 (.finite false (boat.amountOwed.units - amount.units).toNat) →
        (fsub boat.amountOwed amount).toRat = boat.amountOwed.toRat - amount.toRat) ∧
      (amount = boat.amountOwed → fsub boat.amountOwed amount = .finite false 0) := by
  have hsub := fsub_finite_of_le boat.amountOwed amount hfin.2 hfin.1 hpos hle
  refine ⟨?_, hsub, fun hb => ?_, ?_⟩
  · have hfind := findBoat_of_firstSame db name i hfit hfirst
    have hrej : fgt amount boat.amountOwed = false := by
      cases hamt : amount with
      | finite s m =>
        cases howed : boat.amountOwed with
        | finite t n =>
          rw [hamt, howed] at hle
          have := (fgt_finite s t m n).not.2 (by omega)
          simpa using this
        | inf t => simp [howed, F32.isFinite] at hfin
        | nan t => simp [howed, F32.isFinite] at hfin
      | inf s => simp [hamt, F32.isFinite] at hfin
      | nan s => simp [hamt, F32.isFinite] at hfin
    simp [acceptPayment, hfind, hslot, hrej]
  · rw [hsub, toRat_round_of_isBinary32 _ hb]
    have hnn : 0 ≤ boat.amountOwed.units - amount.units := by omega
    have hcast : (((boat.amountOwed.units - amount.units).toNat : Nat) : ℚ)
        = (boat.amountOwed.units : ℚ) - (amount.units : ℚ) := by
      have := Int.toNat_of_nonneg hnn
      have h2 : (((boat.amountOwed.units - amount.units).toNat : Int) : ℚ)
          = ((boat.amountOwed.units - amount.units : Int) : ℚ) := by rw [this]
      push_cast at h2
      exact_mod_cast h2
    rw [hcast]
    unfold F32.toRat
    ring
  · rintro rfl
    exact fsub_self_finite _ hfin.1 hpos

theorem acceptPayment_accepted_witness :
    NamesFit fleet.boatList ∧ FirstSame "JETTA".toList fleet.boatList 1 ∧
      fleet.boatList[1]? = some jetta ∧
      0 < (F32.ofDecimal false 500 0).units ∧
      (F32.ofDecimal false 500 0).units ≤ jetta.amountOwed.units ∧
      acceptPayment fleet "JETTA".toList (F32.ofDecimal false 500 0)
        = some ⟨[abe, { jetta with amountOwed := .finite false 0 }, jetta2]⟩ ∧
      acceptPayment fleet "JETTA".toList (F32.ofDecimal false 500 0)
        = some ⟨fleet.boatList.set 1
            { jetta with amountOwed := fsub jetta.amountOwed (F32.ofDecimal false 500 0) }⟩ :=
  ⟨by decide,
    (firstMatch_iff_firstSame _ _ _ (by decide)).1
      ((findBoat_eq_some_iff fleet "JETTA".toList 1).1 (by decide)),
    by decide, by decide, by decide, by decide,
    (acceptPayment_accepted fleet "JETTA".toList (F32.ofDecimal false 500 0) 1 jetta
      (by decide)
      ((firstMatch_iff_firstSame _ _ _ (by decide)).1
        ((findBoat_eq_some_iff fleet "JETTA".toList 1).1 (by decide)))
      (by decide) (by decide) (by decide) (by decide)).1⟩

/-- C6 — The balance is not always the exact difference.  The boat `rich`
owes 300000.00 and the payment is the `float` of 0.01, positive and below
the balance.  Consecutive `float`s near 300000 are 0.03125 apart, so the
difference rounds back to 300000.00: `acceptPayment` leaves the balance as
it was, and the exact difference is another number. -/
theorem acceptPayment_small_payment_lost :
    FirstSame "rich".toList [rich] 0 ∧
      0 < (F32.ofDecimal false 1 (-2)).units ∧
      (F32.ofDecimal false 1 (-2)).units ≤ rich.amountOwed.units ∧
      fsub rich.amountOwed (F32.ofDecimal false 1 (-2)) = rich.amountOwed ∧
      acceptPayment ⟨[rich]⟩ "rich".toList (F32.ofDecimal false 1 (-2)) = some ⟨[rich]⟩ ∧
      (fsub rich.amountOwed (F32.ofDecimal false 1 (-2))).units
        ≠ rich.amountOwed.units - (F32.ofDecimal false 1 (-2)).units ∧
      fmtFixed 2 rich.amountOwed = "300000.00".toList ∧
      fmtFixed 2 (F32.ofDecimal false 1 (-2)) = "0.01".toList := by
  refine ⟨⟨⟨rich, by decide, by decide⟩, fun j hj => absurd hj (Nat.not_lt_zero j)⟩,
    by decide, by decide, by decide, by decide, by decide, by decide, by decide⟩

theorem removeBoat_of_no_sameName (db : BoatDatabase) (name : List Char)
    (hfit : NamesFit db.boatList) (hname : (cstr name).length < MAX_NAME_LEN)
    (habsent : ∀ b, b ∈ db.boatList → ¬ SameName b.name name) :
    removeBoat db name = some db := by
  unfold removeBoat
  rw [removeLoop_of_no_match name db.boatList
    (no_match_of_not_sameName name db.boatList hfit hname habsent)]

theorem removeBoat_undefined (db : BoatDatabase) (name : List Char)
    (hne : db.boatList ≠ []) (hname : MAX_NAME_LEN ≤ (cstr name).length) :
    removeBoat db name = none := by
  obtain ⟨a, rest, h⟩ := List.exists_cons_of_ne_nil hne
  unfold removeBoat
  rw [h, removeLoop_undefined name a rest hname]

/-- C8 — Removal of an absent name, and where it breaks.  For a name of at
most 127 characters that matches no boat case-insensitively, `removeBoat`
leaves the store unchanged: the same count and the same records in the
same slots.  A name of 128 characters or more matches no boat either, but
`namesEqual` copies it into an array of 128 bytes: on a store that is not
empty the call writes past the array and has no defined result.  The menu
passes names of up to 255 characters. -/
theorem removeBoat_long_name_undefined :
    (∀ b, b ∈ fleet.boatList → ¬ SameName b.name longName) ∧
      (cstr longName).length = 128 ∧
      removeBoat fleet longName = none ∧
      (∀ (db : BoatDatabase) (name : List Char), db.boatList ≠ [] →
        MAX_NAME_LEN ≤ (cstr name).length → removeBoat db name = none) ∧
      (∀ (db : BoatDatabase) (name : List Char), NamesFit db.boatList →
        (cstr name).length < MAX_NAME_LEN →
        (∀ b, b ∈ db.boatList → ¬ SameName b.name name) →
        removeBoat db name = some db) ∧
      removeBoat fleet "Golf".toList = some fleet := by
  refine ⟨by decide, by decide, by decide, removeBoat_undefined, removeBoat_of_no_sameName,
    by decide⟩

/-- C9 — Removal of a present name.  When some boat of the store has a name
equal to `name` up to case, there is a first such slot, and `removeBoat`
deletes exactly the boat of that slot: the new sequence is the old one with
slot `i` erased (the boats before it stay in their slots, the boats after it
move down by one, each with its fields), and the count drops by exactly
one. -/
theorem removeBoat_present_erases_first (db : BoatDatabase) (name : List Char)
    (hfit : NamesFit db.boatList)
    (hpresent : ∃ b, b ∈ db.boatList ∧ SameName b.name name) :
    (∃ i, FirstSame name db.boatList i) ∧
      ∀ i, FirstSame name db.boatList i →
        i < db.boatCount ∧
        removeBoat db name = some ⟨db.boatList.eraseIdx i⟩ ∧
        (db.boatList.eraseIdx i).length + 1 = db.boatCount ∧
        (∀ j, j < i → (db.boatList.eraseIdx i)[j]? = db.boatList[j]?) ∧
        (∀ j, i ≤ j → (db.boatList.eraseIdx i)[j]? = db.boatList[j + 1]?) := by
  refine ⟨exists_firstSame name db.boatList hpresent, fun i hi => ?_⟩
  have hlt := firstSame_lt_length name db.boatList i hi
  have hm := (firstMatch_iff_firstSame name db.boatList i hfit).2 hi
  refine ⟨hlt, ?_, ?_, fun j hj => ?_, fun j hj => ?_⟩
  · unfold removeBoat
    rw [removeLoop_of_firstMatch name db.boatList i hm]
  · simp only [BoatDatabase.boatCount, List.length_eraseIdx, hlt, if_true]
    omega
  · rw [List.getElem?_eraseIdx, if_pos hj]
  · rw [List.getElem?_eraseIdx, if_neg (by omega)]

theorem removeBoat_present_erases_first_witness :
    NamesFit fleet.boatList ∧
      (∃ b, b ∈ fleet.boatList ∧ SameName b.name "JETTA".toList) ∧
      FirstSame "JETTA".toList fleet.boatList 1 ∧
      fleet.boatList.eraseIdx 1 = [abe, jetta2] ∧
      removeBoat fleet "JETTA".toList = some ⟨[abe, jetta2]⟩ ∧
      removeBoat fleet "JETTA".toList = some ⟨fleet.boatList.eraseIdx 1⟩ :=
  ⟨by decide, ⟨jetta, by decide, by decide⟩,
    (firstMatch_iff_firstSame _ _ _ (by decide)).1
      ((findBoat_eq_some_iff fleet "JETTA".toList 1).1 (by decide)),
    by decide, by decide,
    ((removeBoat_present_erases_first fleet "JETTA".toList (by decide)
      ⟨jetta, by decide, by decide⟩).2 1
      ((firstMatch_iff_firstSame _ _ _ (by decide)).1
        ((findBoat_eq_some_iff fleet "JETTA".toList 1).1 (by decide)))).2.1⟩

theorem findBoat_of_fit (db : BoatDatabase) (name : List Char)
    (hfit : NamesFit db.boatList) (hname : (cstr name).length < MAX_NAME_LEN) :
    (∀ i, findBoat db name = some (some i) ↔ FirstSame name db.boatList i) ∧
      (findBoat db name = some none ↔ ∀ b, b ∈ db.boatList → ¬ SameName b.name name) ∧
      (∃ r, findBoat db name = some r) := by
  refine ⟨fun i => ?_, ?_, findBoatFrom_defined name db.boatList 0 hfit hname⟩
  · rw [findBoat_eq_some_iff, firstMatch_iff_firstSame name db.boatList i hfit]
  · unfold findBoat
    rw [findBoatFrom_eq_none_iff]
    constructor
    · intro h b hb hs
      have := ((namesEqual_eq_some_iff _ _ _).1 (h b hb)).2.2.2 hs
      cases this
    · exact no_match_of_not_sameName name db.boatList hfit hname

theorem findBoat_undefined (db : BoatDatabase) (name : List Char)
    (hne : db.boatList ≠ []) (hname : MAX_NAME_LEN ≤ (cstr name).length) :
    findBoat db name = none := by
  obtain ⟨a, rest, h⟩ := List.exists_cons_of_ne_nil hne
  unfold findBoat
  rw [h, findBoatFrom_undefined name a rest 0 hname]

/-- C10 — Find, and where it breaks.  For a query of at most 127 characters
`findBoat` returns slot `i` exactly when slot `i` holds a boat whose name
equals the query up to case and no earlier slot does, it returns `NULL`
exactly when no boat of `boatList[0 .. boatCount)` matches, and one of the
two happens; it returns no store, so nothing is modified.  A query of 128
characters or more is copied by `namesEqual` into an array of 128 bytes: on
a store that is not empty the call writes past the array and has no defined
result, where the claim promises `NULL`.  On the fleet of the sample, asking
for `jetta` yields the boat `Jetta`. -/
theorem findBoat_long_name_undefined :
    (cstr longName).length = 128 ∧
      (∀ b, b ∈ fleet.boatList → ¬ SameName b.name longName) ∧
      findBoat fleet longName = none ∧
      (∀ (db : BoatDatabase) (name : List Char), db.boatList ≠ [] →
        MAX_NAME_LEN ≤ (cstr name).length → findBoat db name = none) ∧
      (∀ (db : BoatDatabase) (name : List Char), NamesFit db.boatList →
        (cstr name).length < MAX_NAME_LEN →
        (∀ i, findBoat db name = some (some i) ↔ FirstSame name db.boatList i) ∧
        (findBoat db name = some none ↔
          ∀ b, b ∈ db.boatList → ¬ SameName b.name name) ∧
        (∃ r, findBoat db name = some r)) ∧
      findBoat fleet "jetta".toList = some (some 1) ∧ fleet.boatList[1]? = some jetta ∧
      findBoat fleet "Golf".toList = some none := by
  refine ⟨by decide, by decide, by decide, findBoat_undefined, findBoat_of_fit, by decide,
    by decide, by decide⟩
/-! ## Monthly charges -/

theorem units_div_eq_toRat (x : F32) (n : Int) (h : x.units = n * 2 ^ 149) :
    x.toRat = (n : ℚ) := by
  unfold F32.toRat
  rw [h]
  push_cast
  norm_num

/-- C7 — Monthly charge.  For a boat whose storage kind `t` is assigned,
`applyMonthlyCharges` replaces `amountOwed` by `amountOwed + rate * length`
(in `float` arithmetic) and changes no other field, where the rate is
12.50 for a slip, 14.00 for land, 25.00 for a trailer and the `float`
nearest to 11.20 for storage (11744051 / 2^20); two applications in a row add `rate * length`
twice.  A slip boat of length 20 that owes 0.00 owes 250.00 after one
application and 500.00 after two. -/
theorem applyMonthlyCharges_adds_rate_times_length (b : Boat) (t : LocationType)
    (hkind : b.type = some t) :
    applyMonthlyCharges b
        = some { b with amountOwed := fadd b.amountOwed (fmul (rateOf t) b.length) } ∧
      (applyMonthlyCharges b).bind applyMonthlyCharges
        = some { b with
            amountOwed :=
              fadd (fadd b.amountOwed (fmul (rateOf t) b.length))
                (fmul (rateOf t) b.length) } ∧
      (rateOf .SLIP).toRat = 25 / 2 ∧ (rateOf .LAND).toRat = 14 ∧
      (rateOf .TRAILOR).toRat = 25 ∧
      rateOf .STORAGE = F32.ofDecimal false 1120 (-2) ∧
      (rateOf .STORAGE).toRat = 11744051 / 1048576 ∧
      applyMonthlyCharges skiff
        = some { skiff with amountOwed := F32.ofDecimal false 250 0 } ∧
      (applyMonthlyCharges skiff).bind applyMonthlyCharges
        = some { skiff with amountOwed := F32.ofDecimal false 500 0 } ∧
      fmtFixed 2 (F32.ofDecimal false 250 0) = "250.00".toList ∧
      fmtFixed 2 (F32.ofDecimal false 500 0) = "500.00".toList := by
  have h1 : applyMonthlyCharges b
      = some { b with amountOwed := fadd b.amountOwed (fmul (rateOf t) b.length) } := by
    simp [applyMonthlyCharges, hkind]
  refine ⟨h1, ?_, ?_, ?_, ?_, rfl, ?_, by decide, by decide, by decide, by decide⟩
  · rw [h1]
    simp [applyMonthlyCharges, hkind]
  · have h : (rateOf .SLIP).units = 25 * 2 ^ 148 := by decide
    unfold F32.toRat
    rw [h]
    push_cast
    norm_num
  · exact units_div_eq_toRat _ 14 (by decide)
  · exact units_div_eq_toRat _ 25 (by decide)
  · have h : (rateOf .STORAGE).units = 11744051 * 2 ^ 129 := by decide
    unfold F32.toRat
    rw [h]
    push_cast
    norm_num

theorem applyMonthlyCharges_adds_rate_times_length_witness :
    jetta.type = some .SLIP ∧
      applyMonthlyCharges jetta
        = some { jetta with
            amountOwed := fadd jetta.amountOwed (fmul (rateOf .SLIP) jetta.length) } :=
  ⟨by decide, (applyMonthlyCharges_adds_rate_times_length jetta .SLIP (by decide)).1⟩

/-! ## An unrecognised storage kind -/

/-- C3 — The code at a five-field line whose kind is no accepted label:
`addBoat` stores the boat, with `type` and `location` never assigned, and
`loadCSV` does the same; the store does not stay unchanged. -/
theorem addBoat_unrecognized_kind_stored :
    addBoat ⟨[]⟩ "Ghost,20,yacht,7,100.00".toList = ⟨[ghost]⟩ ∧
      loadCSV ⟨[]⟩ (some "Ghost,20,yacht,7,100.00\n".toList) = ⟨[ghost]⟩ ∧
      ghost.type = none ∧
      (addBoat ⟨[]⟩ "Ghost,20,yacht,7,100.00".toList).boatCount = 1 := by
  decide

/-! ## The order of the fleet -/

theorem strcasecmp_nil_left (c : List Char) : strcasecmp [] c ≤ 0 := by
  cases c with
  | nil => simp [strcasecmp]
  | cons z cs =>
    simp only [strcasecmp]
    omega

theorem strcasecmp_total (a b : List Char) : strcasecmp a b ≤ 0 ∨ strcasecmp b a ≤ 0 := by
  induction a generalizing b with
  | nil => exact Or.inl (strcasecmp_nil_left b)
  | cons x as ih =>
    cases b with
    | nil => exact Or.inr (strcasecmp_nil_left _)
    | cons y bs =>
      simp only [strcasecmp]
      by_cases hxy : (tolower x).toNat = (tolower y).toNat
      · by_cases hx : (tolower x).toNat = 0
        · have hy : (tolower y).toNat = 0 := by omega
          simp [hxy, hy]
        · have hy : ¬ (tolower y).toNat = 0 := by omega
          simp only [hxy, ne_eq, not_true_eq_false, if_false, hy]
          exact ih bs
      · have hyx : ¬ (tolower y).toNat = (tolower x).toNat := fun h => hxy h.symm
        simp only [ne_eq, hxy, not_false_eq_true, if_true, hyx]
        omega

theorem strcasecmp_trans (a b c : List Char)
    (hab : strcasecmp a b ≤ 0) (hbc : strcasecmp b c ≤ 0) : strcasecmp a c ≤ 0 := by
  induction a generalizing b c with
  | nil => exact strcasecmp_nil_left c
  | cons x as ih =>
    cases b with
    | nil =>
      simp only [strcasecmp] at hab
      cases c with
      | nil =>
        simp only [strcasecmp]
        exact hab
      | cons z cs =>
        simp only [strcasecmp]
        split_ifs <;> omega
    | cons y bs =>
      cases c with
      | nil =>
        simp only [strcasecmp] at hab hbc ⊢
        split_ifs at hab <;> omega
      | cons z cs =>
        simp only [strcasecmp] at hab hbc ⊢
        by_cases hxy : (tolower x).toNat = (tolower y).toNat
        · by_cases hyz : (tolower y).toNat = (tolower z).toNat
          · by_cases hx : (tolower x).toNat = 0
            · have hz : (tolower z).toNat = 0 := by omega
              simp [hx, hz]
            · have hy : ¬ (tolower y).toNat = 0 := by omega
              have hxz : (tolower x).toNat = (tolower z).toNat := by omega
              simp only [hxy, ne_eq, not_true_eq_false, if_false, hy] at hab
              simp only [hyz, ne_eq, not_true_eq_false, if_false] at hbc
              rw [← hyz] at hbc
              simp only [hy, if_false] at hbc
              simp only [hxz, ne_eq, not_true_eq_false, if_false]
              rw [← hxz]
              simp only [hx, if_false]
              exact ih bs cs hab hbc
          · simp only [ne_eq, hyz, not_false_eq_true, if_true] at hbc
            have hxz : ¬ (tolower x).toNat = (tolower z).toNat := by omega
            simp only [ne_eq, hxz, not_false_eq_true, if_true]
            omega
        · simp only [ne_eq, hxy, not_false_eq_true, if_true] at hab
          split_ifs at hbc with h1 h2
          · have hxz : ¬ (tolower x).toNat = (tolower z).toNat := by omega
            simp only [ne_eq, hxz, not_false_eq_true, if_true]
            omega
          · omega
          · omega

instance : IsTotal Boat boatLe := ⟨fun a b => strcasecmp_total a.name b.name⟩

instance : IsTrans Boat boatLe :=
  ⟨fun a b c hab hbc => strcasecmp_trans a.name b.name c.name hab hbc⟩

theorem qsort_sorted (l : List Boat) : List.Pairwise boatLe (qsort l) :=
  List.sorted_insertionSort boatLe l

/-! ## What `printf` writes and `sscanf` reads back -/

theorem digitChar_toNat (d : Nat) (h : d < 10) : (digitChar d).toNat = 48 + d := by
  interval_cases d <;> rfl

theorem isdigit_digitChar (d : Nat) (h : d < 10) : isdigit (digitChar d) = true := by
  simp only [isdigit, digitChar_toNat d h, decide_eq_true_eq]
  omega

theorem isdigit_toNat (c : Char) (h : isdigit c = true) : 48 ≤ c.toNat ∧ c.toNat ≤ 57 := by
  simpa [isdigit] using h

theorem scanSign_of_isdigit (c : Char) (t : List Char) (h : isdigit c = true) :
    scanSign (c :: t) = (false, c :: t) := by
  have hc := isdigit_toNat c h
  unfold scanSign
  split
  · rename_i heq
    simp only [List.cons.injEq] at heq
    rw [heq.1] at hc
    exact absurd hc (by decide)
  · rename_i heq
    simp only [List.cons.injEq] at heq
    rw [heq.1] at hc
    exact absurd hc (by decide)
  · rfl

theorem takeWhile_append_cons (p : Char → Bool) (l : List Char) (c : Char) (rest : List Char)
    (hl : ∀ x, x ∈ l → p x = true) (hc : p c = false) :
    (l ++ c :: rest).takeWhile p = l ∧ (l ++ c :: rest).dropWhile p = c :: rest := by
  induction l with
  | nil => simp [List.takeWhile, List.dropWhile, hc]
  | cons a as ih =>
    have ha := hl a (List.mem_cons_self a as)
    have := ih (fun x hx => hl x (List.mem_cons_of_mem a hx))
    simp [List.takeWhile, List.dropWhile, ha, this.1, this.2]


theorem showNatAux_isdigit (fuel n : Nat) (acc : List Char)
    (hacc : ∀ c, c ∈ acc → isdigit c = true) :
    ∀ c, c ∈ showNatAux fuel n acc → isdigit c = true := by
  induction fuel generalizing n acc with
  | zero => simpa [showNatAux] using hacc
  | succ fuel ih =>
    have hd : isdigit (digitChar (n % 10)) = true :=
      isdigit_digitChar _ (Nat.mod_lt _ (by decide))
    have hacc1 : ∀ c, c ∈ digitChar (n % 10) :: acc → isdigit c = true := by
      intro c hc
      rcases List.mem_cons.1 hc with rfl | hc
      · exact hd
      · exact hacc c hc
    unfold showNatAux
    split_ifs
    · exact hacc1
    · exact ih (n / 10) _ hacc1

theorem showNat_isdigit (n : Nat) : ∀ c, c ∈ showNat n → isdigit c = true :=
  showNatAux_isdigit (n + 1) n [] (fun c hc => by cases hc)

theorem showNatAux_ne_nil (fuel n : Nat) (acc : List Char) :
    showNatAux (fuel + 1) n acc ≠ [] := by
  induction fuel generalizing n acc with
  | zero =>
    unfold showNatAux
    split_ifs <;> simp [showNatAux]
  | succ fuel ih =>
    unfold showNatAux
    split_ifs
    · simp
    · exact ih _ _

theorem showNat_ne_nil (n : Nat) : showNat n ≠ [] := showNatAux_ne_nil n n []

theorem digitsVal_showNatAux (fuel n : Nat) (acc : List Char) (hfuel : n < fuel) :
    (showNatAux fuel n acc).foldl (fun v c => 10 * v + (c.toNat - 48)) 0
      = acc.foldl (fun v c => 10 * v + (c.toNat - 48)) n := by
  induction fuel generalizing n acc with
  | zero => omega
  | succ fuel ih =>
    have hd : (digitChar (n % 10)).toNat - 48 = n % 10 := by
      rw [digitChar_toNat _ (Nat.mod_lt _ (by decide))]
      omega
    unfold showNatAux
    split_ifs with h0
    · simp only [List.foldl_cons, hd]
      congr 1
      omega
    · rw [ih (n / 10) _ (by omega)]
      simp only [List.foldl_cons, hd]
      congr 1
      omega

theorem digitsVal_showNat (n : Nat) : digitsVal (showNat n) = n := by
  unfold digitsVal showNat
  rw [digitsVal_showNatAux (n + 1) n [] (by omega)]
  rfl

theorem digitsVal_append (a b : List Char) :
    digitsVal (a ++ b) = b.foldl (fun v c => 10 * v + (c.toNat - 48)) (digitsVal a) := by
  simp [digitsVal, List.foldl_append]

theorem foldl_fracDigits (k m v : Nat) :
    (fracDigits k m).foldl (fun v c => 10 * v + (c.toNat - 48)) v
      = v * 10 ^ k + m % 10 ^ k := by
  induction k generalizing v with
  | zero => simp [fracDigits, Nat.mod_one]
  | succ k ih =>
    have hd : (digitChar (m / 10 ^ k % 10)).toNat - 48 = m / 10 ^ k % 10 := by
      rw [digitChar_toNat _ (Nat.mod_lt _ (by decide))]
      omega
    simp only [fracDigits, List.foldl_cons, hd]
    rw [ih]
    have h1 : m % 10 ^ (k + 1) = 10 ^ k * (m / 10 ^ k % 10) + m % 10 ^ k := by
      rw [pow_succ, Nat.mod_mul, Nat.add_comm]
    rw [h1, pow_succ]
    ring

theorem fracDigits_isdigit (k m : Nat) : ∀ c, c ∈ fracDigits k m → isdigit c = true := by
  induction k with
  | zero => simp [fracDigits]
  | succ k ih =>
    intro c hc
    simp only [fracDigits, List.mem_cons] at hc
    rcases hc with rfl | hc
    · exact isdigit_digitChar _ (Nat.mod_lt _ (by decide))
    · exact ih c hc


/-! ### Rounding -/

theorem divRoundEven_near (p q : Nat) (hq : 0 < q) :
    2 * (divRoundEven p q * q) ≤ 2 * p + q ∧ 2 * p ≤ 2 * (divRoundEven p q * q) + q := by
  have hp := Nat.div_add_mod p q
  have hr := Nat.mod_lt p hq
  have hc : q * (p / q) = p / q * q := Nat.mul_comm _ _
  have hs : (p / q + 1) * q = p / q * q + q := by ring
  unfold divRoundEven
  split_ifs <;> (try rw [hs]) <;> omega

theorem divRoundEven_eq_of_near (n q k : Nat)
    (h1 : 2 * n < 2 * (k * q) + q) (h2 : 2 * (k * q) < 2 * n + q) :
    divRoundEven n q = k := by
  have hp := Nat.div_add_mod n q
  by_cases hn : k * q ≤ n
  · have hdiv : n / q = k := Nat.div_eq_of_lt_le hn (by rw [Nat.succ_mul]; omega)
    rw [hdiv, Nat.mul_comm] at hp
    unfold divRoundEven
    rw [hdiv, if_pos (by omega)]
  · cases k with
    | zero => omega
    | succ j =>
      have hs : (j + 1) * q = j * q + q := by ring
      rw [hs] at h1 h2 hn
      have hdiv : n / q = j := Nat.div_eq_of_lt_le (by omega) (by rw [Nat.succ_mul]; omega)
      rw [hdiv, Nat.mul_comm] at hp
      unfold divRoundEven
      rw [hdiv, if_neg (by omega), if_pos (by omega)]

theorem bitLenAux_le (fuel n k : Nat) (h : n < 2 ^ k) : bitLenAux fuel n ≤ k := by
  induction fuel generalizing n k with
  | zero => simp [bitLenAux]
  | succ fuel ih =>
    unfold bitLenAux
    split_ifs with h0
    · omega
    · cases k with
      | zero => simp at h; omega
      | succ k1 =>
        have : n / 2 < 2 ^ k1 := by
          rw [Nat.div_lt_iff_lt_mul (by decide)]
          rw [pow_succ] at h
          exact h
        have := ih (n / 2) k1 this
        omega

theorem bitLen_le (n k : Nat) (h : n < 2 ^ k) : bitLen n ≤ k := bitLenAux_le n n k h

/-- Printing the binary32 nearest to `k / 100` with two decimals gives back
`k` as long as binary32 values near `k / 100` are less than 0.01 apart. -/
theorem divRoundEven_roundMag_cents (k : Nat)
    (hs : bitLen (k * 2 ^ 149 / 100) - 24 ≤ 142) :
    divRoundEven (roundMag (k * 2 ^ 149) 100 * 100) (2 ^ 149) = k := by
  have hpow : 2 ^ (bitLen (k * 2 ^ 149 / 100) - 24) ≤ 2 ^ 142 :=
    Nat.pow_le_pow_right (by decide) hs
  have hpos : 0 < 100 * 2 ^ (bitLen (k * 2 ^ 149 / 100) - 24) := by positivity
  have hnear := divRoundEven_near (k * 2 ^ 149) _ hpos
  unfold roundMag
  generalize bitLen (k * 2 ^ 149 / 100) - 24 = s at hpow hpos hnear ⊢
  generalize divRoundEven (k * 2 ^ 149) (100 * 2 ^ s) = m at hnear ⊢
  have e1 : m * 2 ^ s * 100 = m * (100 * 2 ^ s) := by ring
  have hQ : (2 : Nat) ^ 149 = 128 * 2 ^ 142 := by norm_num
  apply divRoundEven_eq_of_near
  · rw [e1]
    omega
  · rw [e1]
    omega

theorem bitLenAux_zero (fuel : Nat) : bitLenAux fuel 0 = 0 := by
  cases fuel <;> simp [bitLenAux]

theorem bitLenAux_bounds (fuel n : Nat) (h : n ≤ fuel) :
    n < 2 ^ bitLenAux fuel n ∧ (n ≠ 0 → 2 ^ (bitLenAux fuel n - 1) ≤ n) := by
  induction fuel generalizing n with
  | zero =>
    have : n = 0 := by omega
    subst this
    simp [bitLenAux]
  | succ fuel ih =>
    unfold bitLenAux
    split_ifs with h0
    · subst h0
      simp
    · obtain ⟨hlt, hge⟩ := ih (n / 2) (by omega)
      constructor
      · rw [pow_succ]
        omega
      · intro _
        simp only [Nat.add_sub_cancel]
        by_cases h2 : n / 2 = 0
        · rw [h2, bitLenAux_zero]
          simp
          omega
        · have hpos : bitLenAux fuel (n / 2) ≠ 0 := by
            intro hz
            rw [hz] at hlt
            simp at hlt
            exact h2 hlt
          have := hge h2
          obtain ⟨j, hj⟩ := Nat.exists_eq_succ_of_ne_zero hpos
          rw [hj] at this ⊢
          simp only [Nat.succ_sub_one] at this
          rw [Nat.succ_eq_add_one, pow_succ]
          omega

theorem bitLen_eq_of_bounds (n j : Nat) (hlo : 2 ^ j ≤ n) (hhi : n < 2 ^ (j + 1)) :
    bitLen n = j + 1 := by
  have hn : n ≠ 0 := by
    have : 0 < 2 ^ j := by positivity
    omega
  obtain ⟨hlt, hge⟩ := bitLenAux_bounds n n (Nat.le_refl n)
  have hge := hge hn
  change n < 2 ^ bitLen n at hlt
  change 2 ^ (bitLen n - 1) ≤ n at hge
  by_contra hne
  rcases Nat.lt_or_gt_of_ne hne with h | h
  · have : 2 ^ bitLen n ≤ 2 ^ j := Nat.pow_le_pow_right (by decide) (by omega)
    omega
  · have : 2 ^ (j + 1) ≤ 2 ^ (bitLen n - 1) := Nat.pow_le_pow_right (by decide) (by omega)
    omega

theorem bitLen_bounds_of_ge (n s : Nat) (h : s + 24 ≤ bitLen n) (hs : bitLen n - 24 = s) :
    2 ^ (s + 23) ≤ n ∧ n < 2 ^ (s + 24) := by
  have hL : bitLen n = s + 24 := by omega
  have hn : n ≠ 0 := by
    rintro rfl
    simp [bitLen, bitLenAux] at hL
  obtain ⟨hlt, hge⟩ := bitLenAux_bounds n n (Nat.le_refl n)
  have hge := hge hn
  change n < 2 ^ bitLen n at hlt
  change 2 ^ (bitLen n - 1) ≤ n at hge
  rw [hL] at hlt hge
  exact ⟨hge, hlt⟩

theorem divRoundEven_mul_self (c q : Nat) (hq : 0 < q) : divRoundEven (c * q) q = c := by
  apply divRoundEven_eq_of_near <;> omega


theorem roundMag_reprint_large (k : Nat)
    (hs : 143 ≤ bitLen (k * 2 ^ 149 / 100) - 24) :
    roundMag (divRoundEven (roundMag (k * 2 ^ 149) 100 * 100) (2 ^ 149) * 2 ^ 149) 100
      = roundMag (k * 2 ^ 149) 100 := by
  obtain ⟨j, hj⟩ : ∃ j, bitLen (k * 2 ^ 149 / 100) - 24 = 143 + j :=
    ⟨bitLen (k * 2 ^ 149 / 100) - 24 - 143, by omega⟩
  obtain ⟨hflo, hfhi⟩ := bitLen_bounds_of_ge (k * 2 ^ 149 / 100) (143 + j) (by omega) hj
  have hT1 : 1 ≤ 2 ^ j := Nat.one_le_two_pow
  have e23 : 2 ^ (143 + j + 23) = 2 ^ 166 * 2 ^ j := by
    rw [show 143 + j + 23 = 166 + j by omega, pow_add]
  have e24 : 2 ^ (143 + j + 24) = 2 ^ 167 * 2 ^ j := by
    rw [show 143 + j + 24 = 167 + j by omega, pow_add]
  have e25 : 2 ^ (143 + j + 25) = 2 ^ 168 * 2 ^ j := by
    rw [show 143 + j + 25 = 168 + j by omega, pow_add]
  have e0 : 2 ^ (143 + j) = 2 ^ 143 * 2 ^ j := pow_add 2 143 j
  have e1 : 2 ^ (143 + j + 1) = 2 ^ 144 * 2 ^ j := by
    rw [show 143 + j + 1 = 144 + j by omega, pow_add]
  rw [e23] at hflo
  rw [e24] at hfhi
  have hR : roundMag (k * 2 ^ 149) 100
      = divRoundEven (k * 2 ^ 149) (100 * 2 ^ (143 + j)) * 2 ^ (143 + j) := by
    unfold roundMag
    rw [hj]
  have hnear := divRoundEven_near (k * 2 ^ 149) (100 * 2 ^ (143 + j)) (by positivity)
  rw [hR]
  generalize divRoundEven (k * 2 ^ 149) (100 * 2 ^ (143 + j)) = m at hnear ⊢
  rw [e0] at hnear ⊢
  generalize 2 ^ j = t at *
  -- the atom `m * t`
  have hmD : m * (100 * (2 ^ 143 * t)) = 100 * 2 ^ 143 * (m * t) := by ring
  have hR100 : m * (2 ^ 143 * t) * 100 = 100 * 2 ^ 143 * (m * t) := by ring
  rw [hmD] at hnear
  have hm_lo : 2 ^ 23 ≤ m := by
    by_contra hlt
    have h1 : m * t ≤ (2 ^ 23 - 1) * t := Nat.mul_le_mul_right t (by omega)
    omega
  have hm_hi : m ≤ 2 ^ 24 := by
    by_contra hgt
    have h1 : (2 ^ 24 + 1) * t ≤ m * t := Nat.mul_le_mul_right t (by omega)
    omega
  have hnear2 := divRoundEven_near (m * (2 ^ 143 * t) * 100) (2 ^ 149) (by positivity)
  rw [hR100] at hnear2 ⊢
  by_cases htop : m = 2 ^ 24
  · -- the value is a power of two: printing is exact
    subst htop
    have hexact : 100 * 2 ^ 143 * (2 ^ 24 * t) = (100 * 2 ^ 18 * t) * 2 ^ 149 := by ring
    rw [hexact, divRoundEven_mul_self _ _ (by positivity)]
    have hf2 : 100 * 2 ^ 18 * t * 2 ^ 149 / 100 = 2 ^ 167 * t := by
      rw [show 100 * 2 ^ 18 * t * 2 ^ 149 = 2 ^ 167 * t * 100 by ring]
      exact Nat.mul_div_cancel _ (by decide)
    have hbl : bitLen (2 ^ 167 * t) = 143 + j + 24 + 1 := by
      apply bitLen_eq_of_bounds
      · rw [e24]
      · rw [show 143 + j + 24 + 1 = 143 + j + 25 by omega, e25]
        omega
    unfold roundMag
    rw [hf2, hbl, show 143 + j + 24 + 1 - 24 = 143 + j + 1 by omega, e1]
    have hq : 100 * 2 ^ 18 * t * 2 ^ 149 = 2 ^ 23 * (100 * (2 ^ 144 * t)) := by ring
    rw [hq, divRoundEven_mul_self _ _ (by positivity)]
    ring
  · have hm_lt : m + 1 ≤ 2 ^ 24 := by omega
    have h1 : (m + 1) * t ≤ 2 ^ 24 * t := Nat.mul_le_mul_right t hm_lt
    have h1' : (m + 1) * t = m * t + t := by ring
    have hlow : 100 * (2 ^ 166 * t) ≤ divRoundEven (100 * 2 ^ 143 * (m * t)) (2 ^ 149) * 2 ^ 149 := by
      by_cases hbot : m = 2 ^ 23
      · subst hbot
        have hexact : 100 * 2 ^ 143 * (2 ^ 23 * t) = (100 * 2 ^ 17 * t) * 2 ^ 149 := by ring
        rw [hexact, divRoundEven_mul_self _ _ (by positivity)]
        omega
      · have h2 : (2 ^ 23 + 1) * t ≤ m * t := Nat.mul_le_mul_right t (by omega)
        omega
    have hhigh : divRoundEven (100 * 2 ^ 143 * (m * t)) (2 ^ 149) * 2 ^ 149
        < 2 ^ 167 * t * 100 := by
      omega
    generalize divRoundEven (100 * 2 ^ 143 * (m * t)) (2 ^ 149) = k1 at hnear2 hlow hhigh ⊢
    have hbl : bitLen (k1 * 2 ^ 149 / 100) = 143 + j + 23 + 1 := by
      apply bitLen_eq_of_bounds
      · rw [e23, Nat.le_div_iff_mul_le (by decide)]
        omega
      · rw [show 143 + j + 23 + 1 = 143 + j + 24 by omega, e24,
          Nat.div_lt_iff_lt_mul (by decide)]
        exact hhigh
    have hm1 : divRoundEven (k1 * 2 ^ 149) (100 * (2 ^ 143 * t)) = m := by
      apply divRoundEven_eq_of_near
      · rw [hmD]
        omega
      · rw [hmD]
        omega
    unfold roundMag
    rw [hbl, show 143 + j + 23 + 1 - 24 = 143 + j by omega, e0, hm1]

/-- Printing a binary32 that is nearest to some `k / 100` with two decimals
and reading the decimal back gives the same binary32, whatever its size. -/
theorem roundMag_reprint (k : Nat) :
    roundMag (divRoundEven (roundMag (k * 2 ^ 149) 100 * 100) (2 ^ 149) * 2 ^ 149) 100
      = roundMag (k * 2 ^ 149) 100 := by
  by_cases hs : bitLen (k * 2 ^ 149 / 100) - 24 ≤ 142
  · rw [divRoundEven_roundMag_cents k hs]
  · exact roundMag_reprint_large k (by omega)

/-! ### Reading back what `printf` wrote -/

theorem round_congr (neg : Bool) (p q p1 q1 : Nat)
    (h : roundMag p1 q1 = roundMag p q) : F32.round neg p1 q1 = F32.round neg p q := by
  unfold F32.round
  rw [h]

theorem tolower_of_isdigit (c : Char) (h : isdigit c = true) : tolower c = c := by
  have hc : 48 ≤ c.toNat ∧ c.toNat ≤ 57 := by simpa [isdigit] using h
  unfold tolower
  rw [if_neg (by omega)]

theorem isdigit_not_letter (c : Char) (h : isdigit c = true) :
    tolower c ≠ 'n' ∧ tolower c ≠ 'i' ∧ tolower c ≠ 'x' := by
  have hc : 48 ≤ c.toNat ∧ c.toNat ≤ 57 := by simpa [isdigit] using h
  rw [tolower_of_isdigit c h]
  refine ⟨?_, ?_, ?_⟩ <;>
  · rintro rfl
    exact absurd hc (by decide)

theorem ofDecimal_neg_two (neg : Bool) (k : Nat) :
    F32.ofDecimal neg k (-2) = F32.round neg (k * 2 ^ 149) 100 := rfl

theorem ofDecimal_zero (neg : Bool) (n : Nat) :
    F32.ofDecimal neg n 0 = F32.round neg (n * 2 ^ 149) 1 := by
  show F32.round neg (n * 10 ^ 0 * 2 ^ 149) 1 = _
  rw [pow_zero, Nat.mul_one]

theorem scanNumber_of_digit (neg : Bool) (d : Char) (t : List Char)
    (hd : isdigit d = true) (ht : ∀ x xs, t = x :: xs → tolower x ≠ 'x') :
    scanNumber neg (d :: t) = scanDecimal neg (d :: t) := by
  obtain ⟨hn, hi, -⟩ := isdigit_not_letter d hd
  rw [scanNumber, if_neg hn, if_neg hi, if_neg]
  rintro ⟨-, hx⟩
  cases t with
  | nil => simp at hx
  | cons x xs =>
    simp only [List.head?_cons, Option.map_some', Option.some.injEq] at hx
    exact ht x xs rfl hx

theorem scanFloat_core (neg : Bool) (ip tail : List Char)
    (hip : ∀ x, x ∈ ip → isdigit x = true) (hne : ip ≠ [])
    (htail : ∀ t ts, tail = t :: ts → isdigit t = false ∧ tolower t ≠ 'x') :
    scanFloat ((if neg then ['-'] else []) ++ ip ++ tail)
      = some (F32.ofDecimal neg (digitsVal (ip ++ (scanFraction tail).1))
          ((scanExponent (scanFraction tail).2).1 - ((scanFraction tail).1.length : Int)),
        (scanExponent (scanFraction tail).2).2) := by
  obtain ⟨d, ds, rfl⟩ := List.exists_cons_of_ne_nil hne
  have hd : isdigit d = true := hip d (List.mem_cons_self d ds)
  have hdn := isdigit_toNat d hd
  have hsp : isspace d = false := by
    simp only [isspace, decide_eq_false_iff_not]
    omega
  have hsplit : ((d :: ds) ++ tail).takeWhile isdigit = d :: ds ∧
      ((d :: ds) ++ tail).dropWhile isdigit = tail := by
    cases tail with
    | nil =>
      simp only [List.append_nil]
      exact ⟨List.takeWhile_eq_self_iff.2 (fun x hx => hip x hx),
        List.dropWhile_eq_nil_iff.2 (fun x hx => hip x hx)⟩
    | cons t ts =>
      exact takeWhile_append_cons isdigit (d :: ds) t ts hip (htail t ts rfl).1
  have hsign : scanSign (((if neg then ['-'] else []) ++ (d :: ds) ++ tail).dropWhile isspace)
      = (neg, (d :: ds) ++ tail) := by
    cases neg with
    | true =>
      have : isspace '-' = false := by decide
      simp [List.dropWhile, this, scanSign]
    | false =>
      simp only [Bool.false_eq_true, if_false, List.nil_append, List.cons_append,
        List.dropWhile, hsp]
      exact scanSign_of_isdigit d (ds ++ tail) hd
  have hnum : scanNumber neg ((d :: ds) ++ tail) = scanDecimal neg ((d :: ds) ++ tail) := by
    apply scanNumber_of_digit neg d (ds ++ tail) hd
    intro x xs hx
    cases ds with
    | nil => exact (htail x xs hx).2
    | cons y ys =>
      simp only [List.cons_append, List.cons.injEq] at hx
      rw [← hx.1]
      exact (isdigit_not_letter y (hip y (by simp))).2.2
  unfold scanFloat
  rw [hsign]
  simp only [hnum]
  unfold scanDecimal
  simp only [hsplit.1, hsplit.2]
  rw [if_neg (by simp)]

theorem isSep_stops (c : Char) (h : IsSep c) :
    isdigit c = false ∧ c ≠ '.' ∧ c ≠ 'e' ∧ c ≠ 'E' ∧ tolower c ≠ 'x' := by
  rcases h with rfl | rfl <;> decide

theorem scanFloat_whole_of (neg : Bool) (ip rest : List Char) (c : Char)
    (hip : ∀ x, x ∈ ip → isdigit x = true) (hne : ip ≠ [])
    (hc : isdigit c = false ∧ c ≠ '.' ∧ c ≠ 'e' ∧ c ≠ 'E' ∧ tolower c ≠ 'x') :
    scanFloat ((if neg then ['-'] else []) ++ ip ++ c :: rest)
      = some (F32.ofDecimal neg (digitsVal ip) 0, c :: rest) := by
  obtain ⟨hcd, hdot, he, hE, hx⟩ := hc
  have hfr : scanFraction (c :: rest) = ([], c :: rest) := by
    unfold scanFraction
    split
    · rename_i heq
      simp only [List.cons.injEq] at heq
      exact absurd heq.1 hdot
    · rfl
  have hex : scanExponent (c :: rest) = (0, c :: rest) := by
    simp [scanExponent, he, hE]
  rw [scanFloat_core neg ip (c :: rest) hip hne
    (fun t ts h => by
      cases h
      exact ⟨hcd, hx⟩)]
  simp [hfr, hex]

theorem scanFloat_whole (neg : Bool) (ip rest : List Char) (c : Char)
    (hip : ∀ x, x ∈ ip → isdigit x = true) (hne : ip ≠ []) (hc : IsSep c) :
    scanFloat ((if neg then ['-'] else []) ++ ip ++ c :: rest)
      = some (F32.ofDecimal neg (digitsVal ip) 0, c :: rest) :=
  scanFloat_whole_of neg ip rest c hip hne (isSep_stops c hc)

theorem scanFloat_point_of (neg : Bool) (ip fp rest : List Char) (c : Char)
    (hip : ∀ x, x ∈ ip → isdigit x = true) (hne : ip ≠ [])
    (hfp : ∀ x, x ∈ fp → isdigit x = true)
    (hc : isdigit c = false ∧ c ≠ '.' ∧ c ≠ 'e' ∧ c ≠ 'E' ∧ tolower c ≠ 'x') :
    scanFloat ((if neg then ['-'] else []) ++ ip ++ '.' :: (fp ++ c :: rest))
      = some (F32.ofDecimal neg (digitsVal (ip ++ fp)) (-(fp.length : Int)), c :: rest) := by
  obtain ⟨hcd, hdot, he, hE, -⟩ := hc
  have hsplit := takeWhile_append_cons isdigit fp c rest hfp hcd
  have hfr : scanFraction ('.' :: (fp ++ c :: rest)) = (fp, c :: rest) := by
    simp only [scanFraction]
    rw [hsplit.1, hsplit.2]
  have hex : scanExponent (c :: rest) = (0, c :: rest) := by
    simp [scanExponent, he, hE]
  rw [scanFloat_core neg ip ('.' :: (fp ++ c :: rest)) hip hne
    (fun t ts h => by
      simp only [List.cons.injEq] at h
      rw [← h.1]
      decide)]
  simp [hfr, hex]

theorem scanFloat_point (neg : Bool) (ip fp rest : List Char) (c : Char)
    (hip : ∀ x, x ∈ ip → isdigit x = true) (hne : ip ≠ [])
    (hfp : ∀ x, x ∈ fp → isdigit x = true) (hc : IsSep c) :
    scanFloat ((if neg then ['-'] else []) ++ ip ++ '.' :: (fp ++ c :: rest))
      = some (F32.ofDecimal neg (digitsVal (ip ++ fp)) (-(fp.length : Int)), c :: rest) :=
  scanFloat_point_of neg ip fp rest c hip hne hfp (isSep_stops c hc)

theorem scanFloat_inf (neg : Bool) (c : Char) (rest : List Char) (hc : IsSep c) :
    scanFloat ((if neg then ['-'] else []) ++ ['i', 'n', 'f'] ++ c :: rest)
      = some (.inf neg, c :: rest) := by
  have hci : tolower c ≠ 'i' := by rcases hc with rfl | rfl <;> decide
  have hsp : isspace 'i' = false := by decide
  have hsm : isspace '-' = false := by decide
  have h1 : tolower 'i' ≠ 'n' := by decide
  have h2 : tolower 'i' = 'i' := by decide
  have h3 : tolower 'n' = 'n' := by decide
  have h4 : tolower 'f' = 'f' := by decide
  cases neg with
  | true =>
    simp [scanFloat, List.dropWhile, hsm, scanSign, scanNumber, scanWord, h1, h2, h3, h4, hci]
  | false =>
    simp [scanFloat, List.dropWhile, hsp, scanSign, scanNumber, scanWord, h1, h2, h3, h4, hci]


theorem scanFloat_fmtFixed_zero (x : F32) (hw : x.isWhole) (hb : x.isBinary32)
    (c : Char) (rest : List Char) (hc : IsSep c) :
    scanFloat (fmtFixed 0 x ++ c :: rest) = some (x, c :: rest) := by
  cases x with
  | inf s => exact absurd hw (by simp [F32.isWhole])
  | nan s => exact absurd hw (by simp [F32.isWhole])
  | finite neg mag =>
    obtain ⟨n, hn⟩ : 2 ^ 149 ∣ mag := hw
    have hround : divRoundEven (mag * 10 ^ 0) (2 ^ 149) = n := by
      apply divRoundEven_eq_of_near
      · rw [hn]
        have : 2 ^ 149 * n * 10 ^ 0 = n * 2 ^ 149 := by ring
        rw [this]
        omega
      · rw [hn]
        have : 2 ^ 149 * n * 10 ^ 0 = n * 2 ^ 149 := by ring
        rw [this]
        omega
    have hshape : fmtFixed 0 (.finite neg mag) ++ c :: rest
        = (if neg then ['-'] else []) ++ showNat n ++ c :: rest := by
      rw [fmtFixed, hround]
      simp
    rw [hshape, scanFloat_whole _ _ _ _ (showNat_isdigit n) (showNat_ne_nil n) hc,
      digitsVal_showNat, ofDecimal_zero]
    have hx : n * 2 ^ 149 = mag := by rw [hn]; ring
    rw [hx]
    unfold F32.isBinary32 at hb
    rw [hb]

theorem scanFloat_fmtFixed_two (neg : Bool) (k : Nat)
    (c : Char) (rest : List Char) (hc : IsSep c) :
    scanFloat (fmtFixed 2 (F32.ofDecimal neg k (-2)) ++ c :: rest)
      = some (F32.ofDecimal neg k (-2), c :: rest) := by
  rw [ofDecimal_neg_two]
  by_cases hov : 2 ^ 128 * 2 ^ 149 ≤ roundMag (k * 2 ^ 149) 100
  · have hinf : F32.round neg (k * 2 ^ 149) 100 = .inf neg := by
      unfold F32.round
      rw [if_pos hov]
    rw [hinf]
    exact scanFloat_inf neg c rest hc
  · have hfin : F32.round neg (k * 2 ^ 149) 100 = .finite neg (roundMag (k * 2 ^ 149) 100) := by
      unfold F32.round
      rw [if_neg hov]
    generalize hk1 : divRoundEven (roundMag (k * 2 ^ 149) 100 * 100) (2 ^ 149) = k1
    have hshape : fmtFixed 2 (.finite neg (roundMag (k * 2 ^ 149) 100)) ++ c :: rest
        = (if neg then ['-'] else [])
            ++ showNat (k1 / 100) ++ '.' :: (fracDigits 2 (k1 % 100) ++ c :: rest) := by
      rw [fmtFixed, show (10 : Nat) ^ 2 = 100 by decide, hk1]
      simp
    rw [hfin, hshape, scanFloat_point _ _ _ _ _ (showNat_isdigit _) (showNat_ne_nil _)
      (fracDigits_isdigit 2 _) hc]
    have hval : digitsVal (showNat (k1 / 100) ++ fracDigits 2 (k1 % 100)) = k1 := by
      rw [digitsVal_append, foldl_fracDigits, digitsVal_showNat]
      have : k1 % 100 % 10 ^ 2 = k1 % 100 := Nat.mod_eq_of_lt (Nat.mod_lt _ (by decide))
      rw [this]
      have := Nat.div_add_mod k1 100
      omega
    have hlen : (-((fracDigits 2 (k1 % 100)).length : Int)) = -2 := by
      simp [fracDigits]
    rw [hval, hlen, ofDecimal_neg_two, ← hfin,
      round_congr neg (k * 2 ^ 149) 100 (k1 * 2 ^ 149) 100
        (by rw [← hk1]; exact roundMag_reprint k)]

/-! ### Fields of a saved line -/

theorem isFieldChar_of_isdigit (c : Char) (h : isdigit c = true) : IsFieldChar c := by
  have hc := isdigit_toNat c h
  constructor
  · rintro rfl
    exact absurd hc (by decide)
  · rintro rfl
    exact absurd hc (by decide)

theorem cstr_eq_self (l : List Char) (h : ∀ c, c ∈ l → c ≠ NUL) : cstr l = l := by
  unfold cstr
  rw [List.takeWhile_eq_self_iff]
  intro c hc
  simpa using h c hc

theorem scanSet_field (width : Nat) (tok rest : List Char) (hne : tok ≠ [])
    (hlen : tok.length ≤ width) (htok : ∀ c, c ∈ tok → IsFieldChar c) :
    scanSet width (tok ++ ',' :: rest) = some (tok, ',' :: rest) := by
  have hsplit := takeWhile_append_cons (fun c => decide (c ≠ ',')) tok ',' rest
    (fun x hx => by simpa using (htok x hx).1) (by decide)
  unfold scanSet
  rw [hsplit.1, List.take_of_length_le hlen, if_neg hne]
  simp

theorem sscanf_fields (name f1 ty det f2 : List Char) (v1 v2 : F32)
    (hname : name ≠ [] ∧ name.length ≤ 127 ∧ ∀ c, c ∈ name → IsFieldChar c)
    (hty : ty ≠ [] ∧ ty.length ≤ 15 ∧ ∀ c, c ∈ ty → IsFieldChar c)
    (hdet : det ≠ [] ∧ det.length ≤ 31 ∧ ∀ c, c ∈ det → IsFieldChar c)
    (hf1 : ∀ rest, scanFloat (f1 ++ ',' :: rest) = some (v1, ',' :: rest))
    (hf1n : ∀ c, c ∈ f1 → c ≠ NUL)
    (hf2 : scanFloat (f2 ++ ['\n']) = some (v2, ['\n']))
    (hf2n : ∀ c, c ∈ f2 → c ≠ NUL) :
    sscanf (name ++ ',' :: (f1 ++ ',' :: (ty ++ ',' :: (det ++ ',' :: (f2 ++ ['\n'])))))
      = some (name, v1, ty, det, v2) := by
  have hcomma : (',' : Char) ≠ NUL := by decide
  have hnl : ('\n' : Char) ≠ NUL := by decide
  have hc : cstr (name ++ ',' :: (f1 ++ ',' :: (ty ++ ',' :: (det ++ ',' :: (f2 ++ ['\n'])))))
      = name ++ ',' :: (f1 ++ ',' :: (ty ++ ',' :: (det ++ ',' :: (f2 ++ ['\n'])))) := by
    apply cstr_eq_self
    intro c hmem
    simp only [List.mem_append, List.mem_cons, List.mem_singleton, List.not_mem_nil,
      or_false] at hmem
    rcases hmem with h | rfl | h | rfl | h | rfl | h | rfl | h | rfl
    · exact (hname.2.2 c h).2
    · exact hcomma
    · exact hf1n c h
    · exact hcomma
    · exact (hty.2.2 c h).2
    · exact hcomma
    · exact (hdet.2.2 c h).2
    · exact hcomma
    · exact hf2n c h
    · exact hnl
  unfold sscanf
  rw [hc, scanSet_field 127 name _ hname.1 hname.2.1 hname.2.2]
  simp only [Option.bind_eq_bind, Option.some_bind, scanComma, hf1,
    scanSet_field 15 ty _ hty.1 hty.2.1 hty.2.2,
    scanSet_field 31 det _ hdet.1 hdet.2.1 hdet.2.2, hf2]
  rfl


theorem showNatAux_length_le (fuel n d : Nat) (acc : List Char) (hd : 0 < d)
    (hn : n < 10 ^ d) : (showNatAux fuel n acc).length ≤ acc.length + d := by
  induction fuel generalizing n d acc with
  | zero => simp [showNatAux]
  | succ fuel ih =>
    unfold showNatAux
    split_ifs with h0
    · simp only [List.length_cons]
      omega
    · cases d with
      | zero => omega
      | succ d1 =>
        cases d1 with
        | zero =>
          exfalso
          apply h0
          rw [Nat.div_eq_zero_iff (by decide)]
          simpa using hn
        | succ d2 =>
          have hlt : n / 10 < 10 ^ (d2 + 1) := by
            rw [Nat.div_lt_iff_lt_mul (by decide)]
            rw [pow_succ] at hn
            exact hn
          have := ih (n / 10) (d2 + 1) (digitChar (n % 10) :: acc) (by omega) hlt
          simp only [List.length_cons] at this
          omega

theorem showInt_ne_nil (n : Int) : showInt n ≠ [] := by
  unfold showInt
  split_ifs
  · simp
  · exact showNat_ne_nil _

theorem showInt_isFieldChar (n : Int) : ∀ c, c ∈ showInt n → IsFieldChar c := by
  intro c hc
  unfold showInt at hc
  split_ifs at hc
  · rcases List.mem_cons.1 hc with rfl | hc
    · exact ⟨by decide, by decide⟩
    · exact isFieldChar_of_isdigit c (showNat_isdigit _ c hc)
  · exact isFieldChar_of_isdigit c (showNat_isdigit _ c hc)

theorem showInt_length_le (n : Int) (hlo : -2 ^ 31 ≤ n) (hhi : n < 2 ^ 31) :
    (showInt n).length ≤ 31 := by
  have hn : n.natAbs < 10 ^ 10 := by
    have : (10 : Nat) ^ 10 = 10000000000 := by norm_num
    omega
  have := showNatAux_length_le (n.natAbs + 1) n.natAbs 10 [] (by decide) hn
  unfold showInt
  split_ifs
  · simp only [List.length_cons]
    simp only [List.length_nil] at this
    unfold showNat
    omega
  · simp only [List.length_nil] at this
    unfold showNat
    omega

theorem takeWhile_isdigit_showNat (n : Nat) : (showNat n).takeWhile isdigit = showNat n :=
  List.takeWhile_eq_self_iff.2 (showNat_isdigit n)

theorem atoi_showInt (n : Int) (hlo : -2 ^ 31 ≤ n) (hhi : n < 2 ^ 31) :
    atoi (showInt n) = n := by
  have hcstr : cstr (showInt n) = showInt n :=
    cstr_eq_self _ (fun c hc => (showInt_isFieldChar n c hc).2)
  have hsigned : atoiSigned ((showInt n).dropWhile isspace) = n := by
    unfold showInt
    split_ifs with hneg
    · have : isspace '-' = false := by decide
      simp only [List.dropWhile, this, atoiSigned, takeWhile_isdigit_showNat,
        digitsVal_showNat]
      omega
    · obtain ⟨d, ds, hds⟩ := List.exists_cons_of_ne_nil (showNat_ne_nil n.natAbs)
      have hd : isdigit d = true :=
        showNat_isdigit n.natAbs d (by rw [hds]; exact List.mem_cons_self d ds)
      have hdn := isdigit_toNat d hd
      have hsp : isspace d = false := by
        simp only [isspace, decide_eq_false_iff_not]
        omega
      have htw := takeWhile_isdigit_showNat n.natAbs
      have hval := digitsVal_showNat n.natAbs
      rw [hds] at htw hval ⊢
      simp only [List.dropWhile, hsp]
      unfold atoiSigned
      split
      · rename_i heq
        simp only [List.cons.injEq] at heq
        rw [heq.1] at hdn
        exact absurd hdn (by decide)
      · rename_i heq
        simp only [List.cons.injEq] at heq
        rw [heq.1] at hdn
        exact absurd hdn (by decide)
      · rw [htw, hval]
        omega
  unfold atoi
  rw [hcstr, hsigned]
  unfold clampLong wrapInt
  rw [if_neg (by omega), if_neg (by omega)]
  omega

theorem fmtFixed_ne_nul (prec : Nat) (x : F32) : ∀ c, c ∈ fmtFixed prec x → c ≠ NUL := by
  intro c hc
  cases x with
  | finite neg mag =>
    rw [fmtFixed] at hc
    simp only [List.mem_append] at hc
    rcases hc with (hc | hc) | hc
    · split_ifs at hc
      · rcases List.mem_singleton.1 hc with rfl
        decide
      · cases hc
    · exact (isFieldChar_of_isdigit c (showNat_isdigit _ c hc)).2
    · split_ifs at hc
      · cases hc
      · rcases List.mem_cons.1 hc with rfl | hc
        · decide
        · exact (isFieldChar_of_isdigit c (fracDigits_isdigit _ _ c hc)).2
  | inf neg =>
    cases neg <;>
    · simp only [fmtFixed, Bool.false_eq_true, if_false, if_true, List.nil_append,
        List.cons_append, List.mem_cons, List.not_mem_nil, or_false] at hc
      rcases hc with rfl | rfl | rfl | rfl <;> decide
  | nan neg =>
    cases neg <;>
    · simp only [fmtFixed, Bool.false_eq_true, if_false, if_true, List.nil_append,
        List.cons_append, List.mem_cons, List.not_mem_nil, or_false] at hc
      rcases hc with rfl | rfl | rfl | rfl <;> decide

theorem showTag_strncpy (tag : List Char) (hlen : tag.length ≤ 15)
    (htag : ∀ c, c ∈ tag → IsFieldChar c) :
    showTag (strncpy tag MAX_LICENSE_LEN) = some tag := by
  have hc : cstr tag = tag := cstr_eq_self tag (fun c hc => (htag c hc).2)
  have hpad : List.replicate (MAX_LICENSE_LEN - tag.length) NUL
      = NUL :: List.replicate (15 - tag.length) NUL := by
    have : MAX_LICENSE_LEN - tag.length = (15 - tag.length) + 1 := by
      unfold MAX_LICENSE_LEN
      omega
    rw [this, List.replicate_succ]
  have hbuf : strncpy tag MAX_LICENSE_LEN = tag ++ NUL :: List.replicate (15 - tag.length) NUL := by
    unfold strncpy
    rw [hc, hpad, List.take_of_length_le (by unfold MAX_LICENSE_LEN; omega)]
  have hsplit := takeWhile_append_cons (fun c => decide (c ≠ NUL)) tag NUL
    (List.replicate (15 - tag.length) NUL) (fun x hx => by simpa using (htag x hx).2) (by decide)
  unfold showTag
  rw [hbuf, if_pos (by simp)]
  unfold cstr
  rw [hsplit.1]


theorem sscanf_saved (b : Boat) (label det : List Char)
    (hname : WellFormedName b.name)
    (hlabel : label ≠ [] ∧ label.length ≤ 15 ∧ ∀ c, c ∈ label → IsFieldChar c)
    (hdet : det ≠ [] ∧ det.length ≤ 31 ∧ ∀ c, c ∈ det → IsFieldChar c)
    (hwhole : b.length.isWhole) (hlen : b.length.isBinary32) (hcents : IsCents b.amountOwed) :
    sscanf (b.name ++ [','] ++ fmtFixed 0 b.length ++ [','] ++ label ++ [','] ++ det ++ [',']
        ++ fmtFixed 2 b.amountOwed ++ ['\n'])
      = some (b.name, b.length, label, det, b.amountOwed) := by
  obtain ⟨neg, k, hx⟩ := hcents
  have hshape : b.name ++ [','] ++ fmtFixed 0 b.length ++ [','] ++ label ++ [','] ++ det
        ++ [','] ++ fmtFixed 2 b.amountOwed ++ ['\n']
      = b.name ++ ',' :: (fmtFixed 0 b.length ++ ',' :: (label ++ ',' :: (det ++ ',' ::
          (fmtFixed 2 b.amountOwed ++ ['\n'])))) := by
    simp only [List.append_assoc, List.singleton_append, List.cons_append, List.nil_append]
  rw [hshape]
  apply sscanf_fields _ _ _ _ _ _ _ hname hlabel hdet
  · exact fun rest => scanFloat_fmtFixed_zero b.length hwhole hlen ',' rest (Or.inl rfl)
  · exact fmtFixed_ne_nul 0 b.length
  · rw [hx]
    exact scanFloat_fmtFixed_two neg k '\n' [] (Or.inr rfl)
  · exact fmtFixed_ne_nul 2 b.amountOwed

/-- C1 (amended) — Round trip.  For every well-formed record of each of the
four storage kinds whose length is a whole number and whose `amountOwed` is
the `float` of a decimal with two places, `saveCSV` writes a line, and
parsing that line with the `sscanf` block of `addBoat` and `loadCSV` yields
a record equal to the original in name, length, storage kind, location
detail and `amountOwed`. -/
theorem saveLine_parseBoat_roundtrip (b : Boat) (hwf : WellFormed b)
    (hwhole : b.length.isWhole) (hcents : IsCents b.amountOwed) :
    ∃ line, saveLine b = some line ∧ parseBoat line = some b := by
  obtain ⟨hname, hloc, hlen, -⟩ := hwf
  obtain ⟨name, length, type, location, amountOwed⟩ := b
  simp only at hname hloc hlen hwhole hcents
  cases type with
  | none => simp [WellFormedLocation] at hloc
  | some t =>
    cases t <;> cases location <;> simp only [WellFormedLocation] at hloc
    · -- slip
      rename_i n
      refine ⟨_, rfl, ?_⟩
      have hs := sscanf_saved ⟨name, length, some .SLIP, .slipNumber n, amountOwed⟩
        slipLabel (showInt n) hname ⟨by decide, by decide, by decide⟩
        ⟨showInt_ne_nil n, showInt_length_le n hloc.1 hloc.2, showInt_isFieldChar n⟩
        hwhole hlen hcents
      simp only at hs
      have h1 : strcasecmp slipLabel slipLabel = 0 := by decide
      simp only [parseBoat, hs, h1, if_true, atoi_showInt n hloc.1 hloc.2]
    · -- land
      rename_i c
      refine ⟨_, rfl, ?_⟩
      have hs := sscanf_saved ⟨name, length, some .LAND, .bayLetter c, amountOwed⟩
        landLabel [c] hname ⟨by decide, by decide, by decide⟩
        ⟨by simp, by simp, fun x hx => by rw [List.mem_singleton.1 hx]; exact hloc⟩
        hwhole hlen hcents
      simp only at hs
      have h1 : ¬ strcasecmp landLabel slipLabel = 0 := by decide
      have h2 : strcasecmp landLabel landLabel = 0 := by decide
      simp only [parseBoat, hs, h1, h2, if_true, if_false, List.headD_cons]
    · -- trailer
      rename_i buf
      obtain ⟨tag, hne, hlen15, htag, rfl⟩ := hloc
      have hshow := showTag_strncpy tag hlen15 htag
      refine ⟨name ++ [','] ++ fmtFixed 0 length ++ [','] ++ trailorLabel ++ [','] ++ tag
        ++ [','] ++ fmtFixed 2 amountOwed ++ ['\n'], by simp only [saveLine, hshow], ?_⟩
      have hs := sscanf_saved
        ⟨name, length, some .TRAILOR, .trailorTag (strncpy tag MAX_LICENSE_LEN), amountOwed⟩
        trailorLabel tag hname ⟨by decide, by decide, by decide⟩
        ⟨hne, by omega, htag⟩ hwhole hlen hcents
      simp only at hs
      have h1 : ¬ strcasecmp trailorLabel slipLabel = 0 := by decide
      have h2 : ¬ strcasecmp trailorLabel landLabel = 0 := by decide
      have h3 : strcasecmp trailorLabel trailorLabel = 0 := by decide
      simp only [parseBoat, hs, h1, h2, h3, if_true, if_false]
    · -- storage
      rename_i n
      refine ⟨_, rfl, ?_⟩
      have hs := sscanf_saved ⟨name, length, some .STORAGE, .storageSpace n, amountOwed⟩
        storageLabel (showInt n) hname ⟨by decide, by decide, by decide⟩
        ⟨showInt_ne_nil n, showInt_length_le n hloc.1 hloc.2, showInt_isFieldChar n⟩
        hwhole hlen hcents
      simp only at hs
      have h1 : ¬ strcasecmp storageLabel slipLabel = 0 := by decide
      have h2 : ¬ strcasecmp storageLabel landLabel = 0 := by decide
      have h3 : ¬ strcasecmp storageLabel trailorLabel = 0 := by decide
      have h4 : strcasecmp storageLabel storageLabel = 0 := by decide
      simp only [parseBoat, hs, h1, h2, h3, h4, if_true, if_false,
        atoi_showInt n hloc.1 hloc.2]


theorem saveLine_parseBoat_roundtrip_witness :
    WellFormed mia ∧ mia.length.isWhole ∧ IsCents mia.amountOwed ∧
      ∃ line, saveLine mia = some line ∧ parseBoat line = some mia :=
  ⟨⟨⟨by decide, by decide, by decide⟩,
      ⟨"XY12".toList, by decide, by decide, by decide, rfl⟩, by decide, by decide⟩,
    by decide, ⟨true, 1999, rfl⟩,
    saveLine_parseBoat_roundtrip mia
      ⟨⟨by decide, by decide, by decide⟩,
        ⟨"XY12".toList, by decide, by decide, by decide, rfl⟩, by decide, by decide⟩
      (by decide) ⟨true, 1999, rfl⟩⟩

/-- C1 — The round trip as stated fails.  The boats `dory` (length 20.25)
and `penny` (owing 99.999) are well-formed and are what the program stores
for the lines `Dory,20.25,slip,4,0` and `Penny,12,land,B,99.999`; `saveCSV`
writes the length with no decimals and the balance with two, so the lines
it writes parse to records with length 20 and balance 100.00. -/
theorem saveLine_parseBoat_not_inverse :
    WellFormed dory ∧ parseBoat "Dory,20.25,slip,4,0".toList = some dory ∧
      saveLine dory = some "Dory,20,slip,4,0.00\n".toList ∧
      parseBoat "Dory,20,slip,4,0.00\n".toList
        = some { dory with length := F32.ofDecimal false 20 0 } ∧
      parseBoat "Dory,20,slip,4,0.00\n".toList ≠ some dory ∧
      WellFormed penny ∧ parseBoat "Penny,12,land,B,99.999".toList = some penny ∧
      saveLine penny = some "Penny,12,land,B,100.00\n".toList ∧
      parseBoat "Penny,12,land,B,100.00\n".toList
        = some { penny with amountOwed := F32.ofDecimal false 100 0 } ∧
      parseBoat "Penny,12,land,B,100.00\n".toList ≠ some penny ∧
      ¬ (∀ b, WellFormed b → ∃ line, saveLine b = some line ∧ parseBoat line = some b) := by
  have hdory : WellFormed dory :=
    ⟨⟨by decide, by decide, by decide⟩, ⟨by decide, by decide⟩, by decide, by decide⟩
  have hpenny : WellFormed penny :=
    ⟨⟨by decide, by decide, by decide⟩, ⟨by decide, by decide⟩, by decide, by decide⟩
  refine ⟨hdory, by decide, by decide, by decide, by decide, hpenny, by decide, by decide,
    by decide, by decide, fun h => ?_⟩
  obtain ⟨line, hsave, hparse⟩ := h dory hdory
  have hline : saveLine dory = some "Dory,20,slip,4,0.00\n".toList := by decide
  rw [hline] at hsave
  cases hsave
  revert hparse
  decide

/-! ## A session from load to save -/

/-- C18 — End-to-end scenario.  Loading the single line
`Jetta,20,slip,2,500.00` into the empty store gives one boat; finding
`jetta` succeeds; after `applyMonthlyToAll` the boat owes 750.00; after
`acceptPayment` of 700.00 it owes 50.00; and `saveCSV` then writes exactly
the one line `Jetta,20,slip,2,50.00`. -/
theorem jetta_scenario :
    loadCSV ⟨[]⟩ (some "Jetta,20,slip,2,500.00\n".toList) = ⟨[jetta]⟩ ∧
      loadCSV ⟨[]⟩ (some "Jetta,20,slip,2,500.00".toList) = ⟨[jetta]⟩ ∧
      findBoat ⟨[jetta]⟩ "jetta".toList = some (some 0) ∧
      applyMonthlyToAll ⟨[jetta]⟩
        = some ⟨[{ jetta with amountOwed := F32.ofDecimal false 750 0 }]⟩ ∧
      fmtFixed 2 (F32.ofDecimal false 750 0) = "750.00".toList ∧
      acceptPayment ⟨[{ jetta with amountOwed := F32.ofDecimal false 750 0 }]⟩
          "jetta".toList (F32.ofDecimal false 70000 (-2))
        = some ⟨[{ jetta with amountOwed := F32.ofDecimal false 50 0 }]⟩ ∧
      fmtFixed 2 (F32.ofDecimal false 50 0) = "50.00".toList ∧
      saveCSV ⟨[{ jetta with amountOwed := F32.ofDecimal false 50 0 }]⟩
        = some ["Jetta,20,slip,2,50.00\n".toList] := by
  refine ⟨by decide, by decide, by decide, by decide, by decide, by decide, by decide,
    by decide⟩

/-! ## Charging the whole fleet -/

theorem charged_of_kind (b : Boat) (t : LocationType) (h : b.type = some t) :
    applyMonthlyCharges b = some (charged b) ∧
      charged b = { b with amountOwed := fadd b.amountOwed (fmul (rateOf t) b.length) } := by
  simp [charged, applyMonthlyCharges, h]

theorem applyMonthlyLoop_eq_map (l : List Boat)
    (h : ∀ b, b ∈ l → ∃ t, b.type = some t) :
    applyMonthlyLoop l = some (l.map charged) := by
  induction l with
  | nil => rfl
  | cons a rest ih =>
    obtain ⟨t, ht⟩ := h a (List.mem_cons_self a rest)
    have hrest := ih (fun b hb => h b (List.mem_cons_of_mem a hb))
    simp only [applyMonthlyLoop, (charged_of_kind a t ht).1, hrest, List.map_cons]

/-- C20 — Charging the whole fleet.  When each boat of the store has an
assigned storage kind, `applyMonthlyToAll` produces the store whose slot `i`
holds the old boat of slot `i` with `amountOwed` replaced by
`amountOwed + rate * length` (in `float` arithmetic); the count, the order
and every name, length, kind and location detail are unchanged.  Visiting the
boats in any other order `l2` charges each boat in the same way. -/
theorem applyMonthlyToAll_charges_each (db : BoatDatabase)
    (hkind : ∀ b, b ∈ db.boatList → ∃ t, b.type = some t) :
    ∃ db1, applyMonthlyToAll db = some db1 ∧ db1.boatCount = db.boatCount ∧
      (∀ (i : Nat) (b : Boat), db.boatList[i]? = some b →
        ∃ t, b.type = some t ∧
          db1.boatList[i]?
            = some { b with amountOwed := fadd b.amountOwed (fmul (rateOf t) b.length) }) ∧
      (∀ l2, l2.Perm db.boatList →
        ∃ r, applyMonthlyLoop l2 = some r ∧ r.Perm db1.boatList ∧ r = l2.map charged) := by
  refine ⟨⟨db.boatList.map charged⟩, ?_, ?_, ?_, ?_⟩
  · simp only [applyMonthlyToAll, applyMonthlyLoop_eq_map db.boatList hkind]
  · simp [BoatDatabase.boatCount]
  · intro i b hb
    obtain ⟨t, ht⟩ := hkind b (List.getElem?_mem hb)
    refine ⟨t, ht, ?_⟩
    rw [List.getElem?_map, hb, Option.map_some', (charged_of_kind b t ht).2]
  · intro l2 hperm
    refine ⟨l2.map charged, ?_, hperm.map charged, rfl⟩
    exact applyMonthlyLoop_eq_map l2 (fun b hb => hkind b (hperm.subset hb))

theorem applyMonthlyToAll_charges_each_witness :
    (∀ b, b ∈ fleet.boatList → ∃ t, b.type = some t) ∧
      ∃ db1, applyMonthlyToAll fleet = some db1 ∧ db1.boatCount = fleet.boatCount :=
  ⟨by
      intro b hb
      simp only [fleet, List.mem_cons, List.mem_singleton, List.not_mem_nil, or_false] at hb
      rcases hb with rfl | rfl | rfl <;> exact ⟨_, rfl⟩,
    (applyMonthlyToAll_charges_each fleet (by
      intro b hb
      simp only [fleet, List.mem_cons, List.mem_singleton, List.not_mem_nil, or_false] at hb
      rcases hb with rfl | rfl | rfl <;> exact ⟨_, rfl⟩)).imp fun _ h => ⟨h.1, h.2.1⟩⟩

/-! ## Adding a boat -/

theorem addBoat_of_parse (db : BoatDatabase) (line : List Char) (boat : Boat)
    (hroom : db.boatCount < 120) (hparse : parseBoat line = some boat) :
    addBoat db line = ⟨qsort (db.boatList ++ [boat])⟩ := by
  unfold addBoat
  rw [if_neg (by unfold MAX_BOATS; omega), hparse]

theorem qsort_perm (l : List Boat) : (qsort l).Perm l := List.perm_insertionSort boatLe l

/-- C11 — Successful add.  When the store holds fewer than 120 boats and the
line converts into five fields with a recognised kind (the parse yields
`boat`, of kind `t`), `addBoat` raises `boatCount` by exactly one and the new
sequence is a permutation of the old boats plus `boat`, sorted by name; each
old boat is still there with the fields it had, and a boat is added whatever
names the store already holds. -/
theorem addBoat_success (db : BoatDatabase) (line : List Char) (boat : Boat)
    (t : LocationType)
    (hroom : db.boatCount < 120) (hparse : parseBoat line = some boat)
    (_hkind : boat.type = some t) :
    (addBoat db line).boatCount = db.boatCount + 1 ∧
      (addBoat db line).boatList.Perm (db.boatList ++ [boat]) ∧
      List.Pairwise (fun a b => compareBoats a b ≤ 0) (addBoat db line).boatList ∧
      (∀ b, b ∈ db.boatList → b ∈ (addBoat db line).boatList) ∧
      boat ∈ (addBoat db line).boatList := by
  rw [addBoat_of_parse db line boat hroom hparse]
  have hperm := qsort_perm (db.boatList ++ [boat])
  refine ⟨?_, hperm, qsort_sorted _, fun b hb => ?_, ?_⟩
  · simp only [BoatDatabase.boatCount]
    rw [hperm.length_eq]
    simp
  · exact hperm.symm.subset (List.mem_append_left _ hb)
  · exact hperm.symm.subset (List.mem_append_right _ (List.mem_singleton_self boat))

theorem addBoat_success_witness :
    (⟨[jetta]⟩ : BoatDatabase).boatCount < 120 ∧
      parseBoat "Jetta,20,slip,2,500.00".toList = some jetta ∧
      jetta.type = some .SLIP ∧
      (addBoat ⟨[jetta]⟩ "Jetta,20,slip,2,500.00".toList).boatCount
        = (⟨[jetta]⟩ : BoatDatabase).boatCount + 1 :=
  ⟨by decide, by decide, by decide,
    (addBoat_success ⟨[jetta]⟩ "Jetta,20,slip,2,500.00".toList jetta .SLIP (by decide)
      (by decide) (by decide)).1⟩

/-! ## Comparing without case -/

theorem toLowerStr_cons (a : Char) (as : List Char) :
    toLowerStr (a :: as) = if a = NUL then [] else tolower a :: toLowerStr as := by
  unfold toLowerStr cstr
  by_cases h : a = NUL
  · simp [List.takeWhile, h]
  · simp [List.takeWhile, h]

theorem strcasecmp_eq_zero_iff (a b : List Char) :
    strcasecmp a b = 0 ↔ toLowerStr a = toLowerStr b := by
  induction a generalizing b with
  | nil =>
    cases b with
    | nil => simp [strcasecmp]
    | cons y bs =>
      have hy := tolower_toNat_eq_zero y
      simp only [strcasecmp, toLowerStr_cons]
      by_cases h : y = NUL
      · subst h
        have : (tolower NUL).toNat = 0 := by decide
        simp [this, toLowerStr, cstr]
      · have : ¬ (tolower y).toNat = 0 := fun h0 => h (hy.1 h0)
        simp only [h, if_false]
        constructor
        · intro h0
          omega
        · intro h0
          simp [toLowerStr, cstr] at h0
  | cons x as ih =>
    have hx := tolower_toNat_eq_zero x
    cases b with
    | nil =>
      simp only [strcasecmp, toLowerStr_cons]
      by_cases h : x = NUL
      · subst h
        have : (tolower NUL).toNat = 0 := by decide
        simp [this, toLowerStr, cstr]
      · have : ¬ (tolower x).toNat = 0 := fun h0 => h (hx.1 h0)
        simp only [h, if_false]
        constructor
        · intro h0
          omega
        · intro h0
          simp [toLowerStr, cstr] at h0
    | cons y bs =>
      have hy := tolower_toNat_eq_zero y
      simp only [strcasecmp, toLowerStr_cons]
      by_cases hxy : (tolower x).toNat = (tolower y).toNat
      · have hchar : tolower x = tolower y := char_eq_of_toNat_eq _ _ hxy
        by_cases h0 : (tolower x).toNat = 0
        · have h1 : x = NUL := hx.1 h0
          have h2 : y = NUL := hy.1 (by omega)
          subst h1 h2
          have : (tolower NUL).toNat = 0 := by decide
          simp [this]
        · have h1 : ¬ x = NUL := fun h => h0 (hx.2 h)
          have h2 : ¬ y = NUL := fun h => h0 (by rw [hxy]; exact hy.2 h)
          simp only [hxy, ne_eq, not_true_eq_false, if_false, h1, h2]
          rw [← hxy]
          simp only [h0, if_false]
          rw [ih bs, hchar]
          simp
      · simp only [ne_eq, hxy, not_false_eq_true, if_true]
        have hne : tolower x ≠ tolower y := fun h => hxy (by rw [h])
        constructor
        · intro h0
          omega
        · intro h0
          exfalso
          by_cases h1 : x = NUL
          · by_cases h2 : y = NUL
            · exact hne (by rw [h1, h2])
            · simp [h1, h2] at h0
          · by_cases h2 : y = NUL
            · simp [h1, h2] at h0
            · simp only [h1, h2, if_false, List.cons.injEq] at h0
              exact hne h0.1

/-! ## The fields of a line -/

theorem toLowerStr_kindLabel (t : LocationType) : toLowerStr (kindLabel t) = kindLabel t := by
  cases t <;> decide

theorem strcasecmp_kindLabel (ty : List Char) (t t1 : LocationType)
    (h : toLowerStr ty = kindLabel t) : strcasecmp ty (kindLabel t1) = 0 ↔ t = t1 := by
  rw [strcasecmp_eq_zero_iff, h, toLowerStr_kindLabel]
  cases t <;> cases t1 <;> decide

theorem parseBoat_of_sscanf (line name ty det : List Char) (len owed : F32)
    (t : LocationType) (hs : sscanf line = some (name, len, ty, det, owed))
    (hk : toLowerStr ty = kindLabel t) :
    parseBoat line = some ⟨name, len, some t,
      (match t with
        | .SLIP => .slipNumber (atoi det)
        | .LAND => .bayLetter (det.headD NUL)
        | .TRAILOR => .trailorTag (strncpy det MAX_LICENSE_LEN)
        | .STORAGE => .storageSpace (atoi det)), owed⟩ := by
  have h1 := strcasecmp_kindLabel ty t .SLIP hk
  have h2 := strcasecmp_kindLabel ty t .LAND hk
  have h3 := strcasecmp_kindLabel ty t .TRAILOR hk
  have h4 := strcasecmp_kindLabel ty t .STORAGE hk
  simp only [kindLabel] at h1 h2 h3 h4
  unfold parseBoat
  rw [hs]
  cases t <;> simp [h1, h2, h3, h4]

theorem sscanf_five_fields (name f1 ty det tail rest2 : List Char) (v1 v2 : F32)
    (hname : WellFormedName name)
    (hty : ty ≠ [] ∧ ty.length ≤ 15 ∧ ∀ c, c ∈ ty → IsFieldChar c)
    (hdet : det ≠ [] ∧ det.length ≤ 31 ∧ ∀ c, c ∈ det → IsFieldChar c)
    (hf1 : ∀ rest, scanFloat (f1 ++ ',' :: rest) = some (v1, ',' :: rest))
    (hf1n : ∀ c, c ∈ f1 → c ≠ NUL)
    (hf2 : scanFloat tail = some (v2, rest2))
    (htail : ∀ c, c ∈ tail → c ≠ NUL) :
    sscanf (name ++ ',' :: (f1 ++ ',' :: (ty ++ ',' :: (det ++ ',' :: tail))))
      = some (name, v1, ty, det, v2) := by
  have hcomma : (',' : Char) ≠ NUL := by decide
  have hc : cstr (name ++ ',' :: (f1 ++ ',' :: (ty ++ ',' :: (det ++ ',' :: tail))))
      = name ++ ',' :: (f1 ++ ',' :: (ty ++ ',' :: (det ++ ',' :: tail))) := by
    apply cstr_eq_self
    intro c hmem
    simp only [List.mem_append, List.mem_cons] at hmem
    rcases hmem with h | rfl | h | rfl | h | rfl | h | rfl | h
    · exact (hname.2.2 c h).2
    · exact hcomma
    · exact hf1n c h
    · exact hcomma
    · exact (hty.2.2 c h).2
    · exact hcomma
    · exact (hdet.2.2 c h).2
    · exact hcomma
    · exact htail c h
  unfold sscanf
  rw [hc, scanSet_field 127 name _ hname.1 hname.2.1 hname.2.2]
  simp only [Option.bind_eq_bind, Option.some_bind, scanComma, hf1,
    scanSet_field 15 ty _ hty.1 hty.2.1 hty.2.2,
    scanSet_field 31 det _ hdet.1 hdet.2.1 hdet.2.2, hf2]
  rfl

theorem kind_field_facts (ty : List Char) (t : LocationType)
    (hty : ∀ c, c ∈ ty → IsFieldChar c) (hk : toLowerStr ty = kindLabel t) :
    ty ≠ [] ∧ ty.length ≤ 15 := by
  have hc : cstr ty = ty := cstr_eq_self ty (fun c hc => (hty c hc).2)
  have hlen : ty.length = (kindLabel t).length := by
    rw [← hk, toLowerStr, hc, List.length_map]
  have h4 : (kindLabel t).length = 4 ∨ (kindLabel t).length = 7 := by
    cases t <;> decide
  constructor
  · intro h
    rw [h] at hlen
    simp at hlen
    omega
  · omega

theorem scanFloat_decimalText_sep (neg : Bool) (ip fp rest : List Char) (c : Char)
    (hip : ∀ x, x ∈ ip → isdigit x = true) (hne : ip ≠ [])
    (hfp : ∀ x, x ∈ fp → isdigit x = true) (hc : IsSep c) :
    scanFloat (decimalText neg ip fp ++ c :: rest)
      = some (decimalValue neg ip fp, c :: rest) := by
  unfold decimalText decimalValue
  by_cases hfp0 : fp = []
  · subst hfp0
    have := scanFloat_whole neg ip rest c hip hne hc
    simpa using this
  · have := scanFloat_point neg ip fp rest c hip hne hfp hc
    simpa [hfp0] using this

theorem scanFloat_decimalText_end (neg : Bool) (ip fp : List Char)
    (hip : ∀ x, x ∈ ip → isdigit x = true) (hne : ip ≠ [])
    (hfp : ∀ x, x ∈ fp → isdigit x = true) :
    scanFloat (decimalText neg ip fp) = some (decimalValue neg ip fp, []) := by
  unfold decimalText decimalValue
  by_cases hfp0 : fp = []
  · subst hfp0
    have := scanFloat_core neg ip [] hip hne (fun t ts h => by cases h)
    simpa [scanFraction, scanExponent] using this
  · have hfr : scanFraction ('.' :: fp) = (fp, []) := by
      simp only [scanFraction]
      rw [List.takeWhile_eq_self_iff.2 hfp, List.dropWhile_eq_nil_iff.2 hfp]
    have := scanFloat_core neg ip ('.' :: fp) hip hne
      (fun t ts h => by
        simp only [List.cons.injEq] at h
        rw [← h.1]
        decide)
    rw [hfr] at this
    simpa [hfp0, scanExponent] using this

/-- C13 (amended) — Parsed fields.  Take a line of five comma-separated
fields: a name of 1 to 127 characters, a second field that reads as the number `v1`, a kind
field that names the kind `t` when compared without case, a detail of 1 to 31
characters, and a fifth field that reads as the number `v2`.  The parse used
by `addBoat` and `loadCSV` yields the record with that name, with length `v1`
and `amountOwed` `v2`, of kind `t`, whose payload is `atoi` of the detail for
a slip and for storage and the first character of the detail for land.  A
field written in decimal reads as the `float` nearest to the decimal, and
`atoi` of the decimal text of an `int` is that `int`. -/
theorem parseBoat_five_fields (name f1 ty det tail rest2 : List Char) (v1 v2 : F32)
    (t : LocationType)
    (hname : WellFormedName name)
    (hty : ∀ c, c ∈ ty → IsFieldChar c) (hkind : toLowerStr ty = kindLabel t)
    (hdet : det ≠ [] ∧ det.length ≤ 31 ∧ ∀ c, c ∈ det → IsFieldChar c)
    (hf1 : ∀ rest, scanFloat (f1 ++ ',' :: rest) = some (v1, ',' :: rest))
    (hf1n : ∀ c, c ∈ f1 → c ≠ NUL)
    (hf2 : scanFloat tail = some (v2, rest2))
    (htail : ∀ c, c ∈ tail → c ≠ NUL) :
    parseBoat (name ++ [','] ++ f1 ++ [','] ++ ty ++ [','] ++ det ++ [','] ++ tail)
        = some ⟨name, v1, some t,
            (match t with
              | .SLIP => .slipNumber (atoi det)
              | .LAND => .bayLetter (det.headD NUL)
              | .TRAILOR => .trailorTag (strncpy det MAX_LICENSE_LEN)
              | .STORAGE => .storageSpace (atoi det)), v2⟩ ∧
      (∀ (neg : Bool) (ip fp rest : List Char), (∀ x, x ∈ ip → isdigit x = true) → ip ≠ [] →
        (∀ x, x ∈ fp → isdigit x = true) →
        scanFloat (decimalText neg ip fp ++ ',' :: rest)
            = some (decimalValue neg ip fp, ',' :: rest) ∧
          scanFloat (decimalText neg ip fp ++ '\n' :: rest)
            = some (decimalValue neg ip fp, '\n' :: rest) ∧
          scanFloat (decimalText neg ip fp) = some (decimalValue neg ip fp, [])) ∧
      (∀ n : Int, -2 ^ 31 ≤ n → n < 2 ^ 31 → atoi (showInt n) = n) := by
  refine ⟨?_, fun neg ip fp rest hip hne hfp => ?_, atoi_showInt⟩
  · have hshape : name ++ [','] ++ f1 ++ [','] ++ ty ++ [','] ++ det ++ [','] ++ tail
        = name ++ ',' :: (f1 ++ ',' :: (ty ++ ',' :: (det ++ ',' :: tail))) := by
      simp only [List.append_assoc, List.singleton_append, List.cons_append, List.nil_append]
    rw [hshape]
    have hfacts := kind_field_facts ty t hty hkind
    exact parseBoat_of_sscanf _ name ty det v1 v2 t
      (sscanf_five_fields name f1 ty det tail rest2 v1 v2 hname
        ⟨hfacts.1, hfacts.2, hty⟩ hdet hf1 hf1n hf2 htail) hkind
  · exact ⟨scanFloat_decimalText_sep neg ip fp rest ',' hip hne hfp (Or.inl rfl),
      scanFloat_decimalText_sep neg ip fp rest '\n' hip hne hfp (Or.inr rfl),
      scanFloat_decimalText_end neg ip fp hip hne hfp⟩

theorem parseBoat_five_fields_witness :
    WellFormedName "Penny".toList ∧ toLowerStr "Land".toList = kindLabel .LAND ∧
      parseBoat ("Penny".toList ++ [','] ++ decimalText false "12".toList [] ++ [',']
          ++ "Land".toList ++ [','] ++ "Bay".toList ++ [',']
          ++ decimalText false "99".toList "999".toList)
        = some penny :=
  ⟨⟨by decide, by decide, by decide⟩, by decide,
    (parseBoat_five_fields "Penny".toList (decimalText false "12".toList []) "Land".toList
      "Bay".toList (decimalText false "99".toList "999".toList) [] _ _ .LAND
      ⟨by decide, by decide, by decide⟩ (by decide) (by decide)
      ⟨by decide, by decide, by decide⟩
      (fun rest => scanFloat_decimalText_sep false "12".toList [] rest ','
        (by decide) (by decide) (by decide) (Or.inl rfl))
      (by decide)
      (scanFloat_decimalText_end false "99".toList "999".toList (by decide) (by decide)
        (by decide))
      (by decide)).1⟩

/-- C13 — Five fields and a recognised kind are not enough.  The format
reads at most 127 characters of a name and wants 1 to 31 characters of
detail: a line of five fields whose name has 128 characters yields no
record, nor does a line whose detail is empty, nor one whose detail has 32
characters. -/
theorem parseBoat_five_fields_no_record :
    longName.length = 128 ∧ (∀ c, c ∈ longName → c ≠ ',') ∧
      parseBoat (longName ++ ",20,slip,2,5.00".toList) = none ∧
      parseBoat "Jetta,20,slip,,5.00".toList = none ∧
      parseBoat ("Jetta,20,slip,".toList ++ List.replicate 32 '7' ++ ",5.00".toList) = none ∧
      parseBoat (longName.take 127 ++ ",20,slip,2,5.00".toList)
        = some ⟨longName.take 127, F32.ofDecimal false 20 0, some .SLIP, .slipNumber 2,
            F32.ofDecimal false 5 0⟩ := by
  refine ⟨by decide, by decide, by decide, by decide, by decide, by decide⟩

/-! ## The two spellings of the trailer kind -/

/-- C14 (amended) — The spelling `trailor` is accepted on read.  For every
line of five fields whose kind field is `trailor` when compared without case
and whose detail has 1 to 15 characters, the parse selects the Trailer
variant, and the tag it stores is the detail field. -/
theorem parseBoat_trailor (name f1 ty det tail rest2 : List Char) (v1 v2 : F32)
    (hname : WellFormedName name)
    (hty : ∀ c, c ∈ ty → IsFieldChar c) (hkind : toLowerStr ty = trailorLabel)
    (hdet : det ≠ [] ∧ det.length ≤ 15 ∧ ∀ c, c ∈ det → IsFieldChar c)
    (hf1 : ∀ rest, scanFloat (f1 ++ ',' :: rest) = some (v1, ',' :: rest))
    (hf1n : ∀ c, c ∈ f1 → c ≠ NUL)
    (hf2 : scanFloat tail = some (v2, rest2))
    (htail : ∀ c, c ∈ tail → c ≠ NUL) :
    parseBoat (name ++ [','] ++ f1 ++ [','] ++ ty ++ [','] ++ det ++ [','] ++ tail)
        = some ⟨name, v1, some .TRAILOR, .trailorTag (strncpy det MAX_LICENSE_LEN), v2⟩ ∧
      showTag (strncpy det MAX_LICENSE_LEN) = some det := by
  refine ⟨?_, showTag_strncpy det hdet.2.1 hdet.2.2⟩
  have hshape : name ++ [','] ++ f1 ++ [','] ++ ty ++ [','] ++ det ++ [','] ++ tail
      = name ++ ',' :: (f1 ++ ',' :: (ty ++ ',' :: (det ++ ',' :: tail))) := by
    simp only [List.append_assoc, List.singleton_append, List.cons_append, List.nil_append]
  rw [hshape]
  have hfacts := kind_field_facts ty .TRAILOR hty hkind
  exact parseBoat_of_sscanf _ name ty det v1 v2 .TRAILOR
    (sscanf_five_fields name f1 ty det tail rest2 v1 v2 hname
      ⟨hfacts.1, hfacts.2, hty⟩ ⟨hdet.1, by omega, hdet.2.2⟩ hf1 hf1n hf2 htail) hkind

theorem parseBoat_trailor_witness :
    WellFormedName "Mia".toList ∧ toLowerStr "TraiLOR".toList = trailorLabel ∧
      parseBoat ("Mia".toList ++ [','] ++ decimalText false "25".toList [] ++ [',']
          ++ "TraiLOR".toList ++ [','] ++ "XY12".toList ++ [',']
          ++ decimalText true "19".toList "99".toList)
        = some mia ∧
      showTag (strncpy "XY12".toList MAX_LICENSE_LEN) = some "XY12".toList :=
  ⟨⟨by decide, by decide, by decide⟩, by decide,
    parseBoat_trailor "Mia".toList (decimalText false "25".toList []) "TraiLOR".toList
      "XY12".toList (decimalText true "19".toList "99".toList) [] _ _
      ⟨by decide, by decide, by decide⟩ (by decide) (by decide)
      ⟨by decide, by decide, by decide⟩
      (fun rest => scanFloat_decimalText_sep false "25".toList [] rest ','
        (by decide) (by decide) (by decide) (Or.inl rfl))
      (by decide)
      (scanFloat_decimalText_end true "19".toList "99".toList (by decide) (by decide)
        (by decide))
      (by decide)⟩

/-- C14 — The spelling `trailer` is not accepted.  The line
`Mia,25,trailer,XY12,0.00` converts into five fields, `trailer` matches none
of the four labels the code compares with, and the record the parse yields
has no kind: the Trailer variant is not selected. -/
theorem parseBoat_trailer_not_selected :
    parseBoat "Mia,25,trailer,XY12,0.00".toList = some miaTrailer ∧
      miaTrailer.type ≠ some .TRAILOR ∧
      strcasecmp "trailer".toList trailorLabel ≠ 0 ∧
      parseBoat "Mia,25,TRAILER,XY12,0.00".toList = some miaTrailer := by
  decide

/-! ## The terminator of the trailer tag -/

/-- C19 — The code at a trailer line whose detail has 16 characters:
`strncpy` fills the 16 bytes of `trailorTag` with them and writes no
terminator, so the stored tag is not a string of at most 15 characters, and
`saveCSV` would read past the array when it prints the tag.  With 20
characters the array holds the first 16, again with no terminator. -/
theorem parseBoat_long_tag_unterminated :
    parseBoat "Mia,25,trailor,ABCDEFGHIJKLMNOP,0.00".toList = some miaLong ∧
      miaLong.location = .trailorTag "ABCDEFGHIJKLMNOP".toList ∧
      "ABCDEFGHIJKLMNOP".toList.length = 16 ∧ NUL ∉ "ABCDEFGHIJKLMNOP".toList ∧
      showTag "ABCDEFGHIJKLMNOP".toList = none ∧ saveLine miaLong = none ∧
      parseBoat "Mia,25,trailor,ABCDEFGHIJKLMNOPQRST,0.00".toList = some miaLong := by
  decide


/-! ## Lines that do not convert -/

theorem consumes_refl (s : List Char) : Consumes s s := ⟨[], rfl, fun _ h => by cases h⟩

theorem consumes_trans (s r t : List Char) (h1 : Consumes s r) (h2 : Consumes r t) :
    Consumes s t := by
  obtain ⟨p1, rfl, hp1⟩ := h1
  obtain ⟨p2, rfl, hp2⟩ := h2
  refine ⟨p1 ++ p2, by simp, fun c hc => ?_⟩
  rcases List.mem_append.1 hc with h | h
  · exact hp1 c h
  · exact hp2 c h

theorem consumes_cons (c : Char) (t r : List Char) (hc : c ≠ ',') (h : Consumes t r) :
    Consumes (c :: t) r := by
  obtain ⟨p, rfl, hp⟩ := h
  refine ⟨c :: p, rfl, fun x hx => ?_⟩
  rcases List.mem_cons.1 hx with rfl | hx
  · exact hc
  · exact hp x hx

theorem consumes_dropWhile (p : Char → Bool) (hp : p ',' = false) (s : List Char) :
    Consumes s (s.dropWhile p) := by
  refine ⟨s.takeWhile p, (List.takeWhile_append_dropWhile p s).symm, fun c hc => ?_⟩
  have := List.mem_takeWhile_imp hc
  rintro rfl
  rw [hp] at this
  cases this

theorem consumes_scanSign (s : List Char) : Consumes s (scanSign s).2 := by
  unfold scanSign
  split
  · exact consumes_cons _ _ _ (by decide) (consumes_refl _)
  · exact consumes_cons _ _ _ (by decide) (consumes_refl _)
  · exact consumes_refl _

theorem consumes_scanFraction (s : List Char) : Consumes s (scanFraction s).2 := by
  unfold scanFraction
  split
  · exact consumes_cons _ _ _ (by decide) (consumes_dropWhile isdigit (by decide) _)
  · exact consumes_refl _

theorem consumes_scanExponent (s : List Char) : Consumes s (scanExponent s).2 := by
  unfold scanExponent
  split
  · exact consumes_refl _
  · rename_i c t
    by_cases hc : c = 'e' ∨ c = 'E'
    · rw [if_pos hc]
      refine consumes_cons c _ _ (by rcases hc with rfl | rfl <;> decide) ?_
      exact consumes_trans _ _ _ (consumes_scanSign t)
        (consumes_dropWhile isdigit (by decide) _)
    · rw [if_neg hc]
      exact consumes_refl _

theorem consumes_scanBinExponent (s : List Char) : Consumes s (scanBinExponent s).2 := by
  unfold scanBinExponent
  split
  · exact consumes_refl _
  · rename_i c t
    by_cases hc : c = 'p' ∨ c = 'P'
    · rw [if_pos hc]
      refine consumes_cons c _ _ (by rcases hc with rfl | rfl <;> decide) ?_
      exact consumes_trans _ _ _ (consumes_scanSign t)
        (consumes_dropWhile isdigit (by decide) _)
    · rw [if_neg hc]
      exact consumes_refl _

theorem tolower_comma (c : Char) (k : Char) (h : tolower c = k) (hk : k ≠ ',') : c ≠ ',' := by
  rintro rfl
  exact hk (by rw [← h]; decide)

theorem consumes_scanWord (w t r : List Char) (hw : ∀ k, k ∈ w → k ≠ ',')
    (h : scanWord w t = some r) : Consumes t r := by
  induction w generalizing t with
  | nil =>
    simp only [scanWord, Option.some.injEq] at h
    subst h
    exact consumes_refl _
  | cons k ks ih =>
    cases t with
    | nil => simp [scanWord] at h
    | cons c cs =>
      simp only [scanWord] at h
      split_ifs at h with hck
      exact consumes_cons c _ _ (tolower_comma c k hck (hw k (List.mem_cons_self k ks)))
        (ih cs (fun x hx => hw x (List.mem_cons_of_mem k hx)) h)

theorem consumes_scanDecimal (neg : Bool) (s r : List Char) (v : F32)
    (h : scanDecimal neg s = some (v, r)) : Consumes s r := by
  unfold scanDecimal at h
  split_ifs at h
  simp only [Option.some.injEq, Prod.mk.injEq] at h
  rw [← h.2]
  exact consumes_trans _ _ _ (consumes_dropWhile isdigit (by decide) s)
    (consumes_trans _ _ _ (consumes_scanFraction _) (consumes_scanExponent _))

theorem consumes_scanHex (neg : Bool) (s r : List Char) (v : F32)
    (h : scanHex neg s = some (v, r)) : Consumes s r := by
  have hd := consumes_dropWhile isxdigit (by decide) s
  unfold scanHex at h
  split at h
  · rename_i t heq
    rw [heq] at hd
    have hdot : Consumes s t :=
      consumes_trans _ _ _ hd (consumes_cons '.' t t (by decide) (consumes_refl t))
    split_ifs at h
    · simp only [Option.some.injEq, Prod.mk.injEq] at h
      rw [← h.2]
      exact hdot
    · simp only [Option.some.injEq, Prod.mk.injEq] at h
      rw [← h.2]
      exact consumes_trans _ _ _ hdot
        (consumes_trans _ _ _ (consumes_dropWhile isxdigit (by decide) t)
          (consumes_scanBinExponent _))
  · split_ifs at h
    simp only [Option.some.injEq, Prod.mk.injEq] at h
    rw [← h.2]
    exact consumes_trans _ _ _ hd (consumes_scanBinExponent _)

theorem consumes_scanNumber (neg : Bool) (s r : List Char) (v : F32)
    (h : scanNumber neg s = some (v, r)) : Consumes s r := by
  cases s with
  | nil => simp [scanNumber] at h
  | cons c t =>
    rw [scanNumber] at h
    by_cases hn : tolower c = 'n'
    · rw [if_pos hn] at h
      have hc : c ≠ ',' := tolower_comma c 'n' hn (by decide)
      cases hw : scanWord ['a', 'n'] t with
      | none => simp [hw] at h
      | some r1 =>
        simp only [hw, Option.some.injEq, Prod.mk.injEq] at h
        rw [← h.2]
        exact consumes_cons c _ _ hc (consumes_scanWord _ t r1 (by decide) hw)
    · rw [if_neg hn] at h
      by_cases hi : tolower c = 'i'
      · rw [if_pos hi] at h
        have hc : c ≠ ',' := tolower_comma c 'i' hi (by decide)
        cases hw : scanWord ['n', 'f'] t with
        | none => simp [hw] at h
        | some r1 =>
          have h1 : Consumes (c :: t) r1 :=
            consumes_cons c _ _ hc (consumes_scanWord _ t r1 (by decide) hw)
          cases r1 with
          | nil =>
            simp only [hw, Option.some.injEq, Prod.mk.injEq] at h
            rw [← h.2]
            exact h1
          | cons d r2 =>
            simp only [hw] at h
            by_cases hd : tolower d = 'i'
            · rw [if_pos hd] at h
              cases hw2 : scanWord ['n', 'i', 't', 'y'] r2 with
              | none => simp [hw2] at h
              | some r3 =>
                simp only [hw2, Option.some.injEq, Prod.mk.injEq] at h
                rw [← h.2]
                exact consumes_trans _ _ _ h1
                  (consumes_cons d _ _ (tolower_comma d 'i' hd (by decide))
                    (consumes_scanWord _ r2 r3 (by decide) hw2))
            · rw [if_neg hd] at h
              simp only [Option.some.injEq, Prod.mk.injEq] at h
              rw [← h.2]
              exact h1
      · rw [if_neg hi] at h
        by_cases hx : c = '0' ∧ (t.head?).map tolower = some 'x'
        · rw [if_pos hx] at h
          have hc : c ≠ ',' := by rw [hx.1]; decide
          cases t with
          | nil => simp at hx
          | cons x xs =>
            have hxc : x ≠ ',' := by
              have := hx.2
              simp only [List.head?_cons, Option.map_some', Option.some.injEq] at this
              exact tolower_comma x 'x' this (by decide)
            exact consumes_cons c _ _ hc
              (consumes_cons x _ _ hxc (consumes_scanHex neg _ r v (by simpa using h)))
        · rw [if_neg hx] at h
          exact consumes_scanDecimal neg _ r v h

theorem consumes_scanFloat (s r : List Char) (v : F32) (h : scanFloat s = some (v, r)) :
    Consumes s r := by
  unfold scanFloat at h
  exact consumes_trans _ _ _ (consumes_dropWhile isspace (by decide) s)
    (consumes_trans _ _ _ (consumes_scanSign _) (consumes_scanNumber _ _ r v h))

theorem afterCommas_of_consumes (n : Nat) (s r : List Char) (h : Consumes s (',' :: r)) :
    afterCommas (n + 1) s = afterCommas n r := by
  obtain ⟨pre, rfl, hpre⟩ := h
  have hsplit := takeWhile_append_cons (fun c => decide (c ≠ ',')) pre ',' r
    (fun x hx => by simpa using hpre x hx) (by decide)
  rw [afterCommas, hsplit.2]

theorem scanComma_eq_some (s r : List Char) (h : scanComma s = some r) : s = ',' :: r := by
  unfold scanComma at h
  split at h
  · simp only [Option.some.injEq] at h
    rw [h]
  · cases h

theorem scanSet_comma_consumes (width : Nat) (s tok r r2 : List Char)
    (h : scanSet width s = some (tok, r)) (hc : scanComma r = some r2) :
    Consumes s (',' :: r2) ∧ s ≠ [] ∧ s.head? ≠ some ',' := by
  have hr := scanComma_eq_some r r2 hc
  unfold scanSet at h
  split_ifs at h with hempty
  simp only [Option.some.injEq, Prod.mk.injEq] at h
  obtain ⟨htok, hdrop⟩ := h
  have htw := List.takeWhile_append_dropWhile (fun c => decide (c ≠ ',')) s
  have hmem : ∀ c, c ∈ s.takeWhile (fun c => decide (c ≠ ',')) → c ≠ ',' := by
    intro c hcm
    simpa using List.mem_takeWhile_imp hcm
  refine ⟨?_, ?_, ?_⟩
  · by_cases hlen : (s.takeWhile (fun c => decide (c ≠ ','))).length ≤ width
    · rw [List.take_of_length_le hlen] at hdrop
      refine ⟨s.takeWhile (fun c => decide (c ≠ ',')), ?_, hmem⟩
      rw [← hr, ← hdrop]
      exact (List.take_append_drop _ s).symm.trans (by
        congr 1
        have := congrArg (List.take (s.takeWhile (fun c => decide (c ≠ ','))).length) htw
        rw [List.take_left] at this
        exact this.symm)
    · exfalso
      have hlt : width < (s.takeWhile (fun c => decide (c ≠ ','))).length := by omega
      have hl : ((s.takeWhile (fun c => decide (c ≠ ','))).take width).length = width := by
        rw [List.length_take]
        omega
      rw [hl] at hdrop
      have hget : s[width]? = some ',' := by
        have := congrArg List.head? hdrop
        rw [hr] at this
        simpa [List.head?_drop] using this
      have hget2 : s[width]? = (s.takeWhile (fun c => decide (c ≠ ',')))[width]? := by
        conv_lhs => rw [← htw]
        rw [List.getElem?_append_left hlt]
      rw [hget2] at hget
      exact hmem ',' (List.getElem?_mem hget) rfl
  · rintro rfl
    simp at hempty
  · intro hhead
    cases s with
    | nil => simp at hhead
    | cons c cs =>
      simp only [List.head?_cons, Option.some.injEq] at hhead
      subst hhead
      simp [List.takeWhile] at hempty

theorem scanFloat_comma_consumes (s r r2 : List Char) (v : F32)
    (h : scanFloat s = some (v, r)) (hc : scanComma r = some r2) :
    Consumes s (',' :: r2) := by
  rw [← scanComma_eq_some r r2 hc]
  exact consumes_scanFloat s r v h

theorem sscanf_some_facts (line : List Char)
    (x : List Char × F32 × List Char × List Char × F32) (h : sscanf line = some x) :
    cstr line ≠ [] ∧ (cstr line).head? ≠ some ',' ∧
      ∃ r2 r8, afterCommas 1 (cstr line) = some r2 ∧
        (∃ v r4, scanFloat r2 = some (v, ',' :: r4)) ∧
        afterCommas 4 (cstr line) = some r8 ∧ (scanFloat r8).isSome = true := by
  unfold sscanf at h
  simp only [bind, Option.bind_eq_some, Prod.exists] at h
  obtain ⟨name, r1, h1, r2, h2, len, r3, h3, r4, h4, ty, r5, h5, r6, h6, det, r7, h7, r8, h8,
    owed, r9, h9, -⟩ := h
  obtain ⟨c1, hne, hhead⟩ := scanSet_comma_consumes _ _ _ _ _ h1 h2
  have c3 := scanFloat_comma_consumes _ _ _ _ h3 h4
  obtain ⟨c5, -, -⟩ := scanSet_comma_consumes _ _ _ _ _ h5 h6
  obtain ⟨c7, -, -⟩ := scanSet_comma_consumes _ _ _ _ _ h7 h8
  refine ⟨hne, hhead, r2, r8, ?_, ⟨len, r4, by rw [h3, scanComma_eq_some r3 r4 h4]⟩, ?_,
    by rw [h9]; rfl⟩
  · rw [afterCommas_of_consumes 0 _ _ c1]
    rfl
  · rw [afterCommas_of_consumes 3 _ _ c1, afterCommas_of_consumes 2 _ _ c3,
      afterCommas_of_consumes 1 _ _ c5, afterCommas_of_consumes 0 _ _ c7]
    rfl

theorem isDigit_eq_isdigit (c : Char) : c.isDigit = isdigit c := by
  unfold Char.isDigit isdigit
  rw [Bool.eq_iff_iff]
  simp only [Bool.and_eq_true, decide_eq_true_eq, ge_iff_le]
  rfl

theorem isspace_eq_mem (c : Char) :
    decide (c ∈ [' ', '\t', '\n', Char.ofNat 11, Char.ofNat 12, '\r']) = isspace c := by
  unfold isspace
  rw [Bool.eq_iff_iff]
  simp only [decide_eq_true_eq, List.mem_cons, List.mem_singleton, List.not_mem_nil, or_false]
  constructor
  · rintro (rfl | rfl | rfl | rfl | rfl | rfl) <;> decide
  · intro h
    have hcases : c.toNat = 32 ∨ c.toNat = 9 ∨ c.toNat = 10 ∨ c.toNat = 11 ∨ c.toNat = 12 ∨
        c.toNat = 13 := by omega
    rcases hcases with h | h | h | h | h | h
    · exact Or.inl (char_eq_of_toNat_eq _ _ h)
    · exact Or.inr (Or.inl (char_eq_of_toNat_eq _ _ h))
    · exact Or.inr (Or.inr (Or.inl (char_eq_of_toNat_eq _ _ h)))
    · exact Or.inr (Or.inr (Or.inr (Or.inl (char_eq_of_toNat_eq _ _ h))))
    · exact Or.inr (Or.inr (Or.inr (Or.inr (Or.inl (char_eq_of_toNat_eq _ _ h)))))
    · exact Or.inr (Or.inr (Or.inr (Or.inr (Or.inr (char_eq_of_toNat_eq _ _ h)))))

theorem stripBlanks_eq (s : List Char) : stripBlanks s = s.dropWhile isspace := by
  unfold stripBlanks
  congr 1
  funext c
  exact isspace_eq_mem c

theorem stripSign_eq (s : List Char) : stripSign s = (scanSign s).2 := by
  unfold stripSign scanSign
  split <;> rfl

theorem scanWord_two (a b : Char) (t r : List Char) (h : scanWord [a, b] t = some r) :
    ∃ x y, t = x :: y :: r ∧ tolower x = a ∧ tolower y = b := by
  cases t with
  | nil => simp [scanWord] at h
  | cons x xs =>
    simp only [scanWord] at h
    split_ifs at h with hx
    cases xs with
    | nil => simp [scanWord] at h
    | cons y ys =>
      simp only [scanWord] at h
      split_ifs at h with hy
      simp only [Option.some.injEq] at h
      exact ⟨x, y, by rw [h], hx, hy⟩

theorem scanNumber_none_of_not_start (neg : Bool) (u : List Char)
    (h1 : u.head?.any Char.isDigit = false)
    (h2 : (u.head? == some '.' && (u.drop 1).head?.any Char.isDigit) = false)
    (h3 : ((u.take 3).map Char.toLower == ['i', 'n', 'f']) = false)
    (h4 : ((u.take 3).map Char.toLower == ['n', 'a', 'n']) = false) :
    scanNumber neg u = none := by
  cases u with
  | nil => rfl
  | cons c t =>
    have hcd : isdigit c = false := by
      rw [← isDigit_eq_isdigit]
      simpa using h1
    rw [scanNumber]
    by_cases hn : tolower c = 'n'
    · rw [if_pos hn]
      cases hw : scanWord ['a', 'n'] t with
      | none => rfl
      | some r =>
        exfalso
        obtain ⟨x, y, rfl, hx, hy⟩ := scanWord_two 'a' 'n' t r hw
        simp [← tolower_eq_toLower, hn, hx, hy] at h4
    · rw [if_neg hn]
      by_cases hi : tolower c = 'i'
      · rw [if_pos hi]
        cases hw : scanWord ['n', 'f'] t with
        | none => rfl
        | some r =>
          exfalso
          obtain ⟨x, y, rfl, hx, hy⟩ := scanWord_two 'n' 'f' t r hw
          simp [← tolower_eq_toLower, hi, hx, hy] at h3
      · rw [if_neg hi]
        have h0 : ¬ (c = '0' ∧ (t.head?).map tolower = some 'x') := by
          rintro ⟨rfl, -⟩
          exact absurd hcd (by decide)
        rw [if_neg h0]
        unfold scanDecimal
        rw [if_pos]
        have htw : (c :: t).takeWhile isdigit = [] := by simp [List.takeWhile, hcd]
        have hdw : (c :: t).dropWhile isdigit = c :: t := by simp [List.dropWhile, hcd]
        refine ⟨htw, ?_⟩
        rw [hdw]
        unfold scanFraction
        split
        · rename_i t1 heq
          simp only [List.cons.injEq] at heq
          obtain ⟨rfl, rfl⟩ := heq
          cases t with
          | nil => rfl
          | cons d ds =>
            have hdd : isdigit d = false := by
              rw [← isDigit_eq_isdigit]
              simpa using h2
            simp [List.takeWhile, hdd]
        · rfl

theorem scanFloat_none_of_not_numberStart (t : List Char) (h : NumberStart t = false) :
    scanFloat t = none := by
  unfold NumberStart at h
  rw [stripBlanks_eq, stripSign_eq] at h
  simp only [Bool.or_eq_false_iff] at h
  obtain ⟨⟨⟨h1, h2⟩, h3⟩, h4⟩ := h
  unfold scanFloat
  exact scanNumber_none_of_not_start _ _ h1 h2 h3 h4

theorem stopsNumber_facts (c : Char) (h : StopsNumber c) :
    isdigit c = false ∧ c ≠ '.' ∧ c ≠ 'e' ∧ c ≠ 'E' ∧ tolower c ≠ 'x' := by
  obtain ⟨hd, hdot, he, hE, hx, hX⟩ := h
  refine ⟨by rw [← isDigit_eq_isdigit]; exact hd, hdot, he, hE, fun hl => ?_⟩
  have hn : (tolower c).toNat = 120 := by rw [hl]; rfl
  rw [tolower_toNat] at hn
  by_cases hc : 65 ≤ c.toNat ∧ c.toNat ≤ 90
  · rw [if_pos hc] at hn
    exact hX (char_eq_of_toNat_eq c 'X' (by rw [show ('X' : Char).toNat = 88 from rfl]; omega))
  · rw [if_neg hc] at hn
    exact hx (char_eq_of_toNat_eq c 'x' (by rw [hn]; rfl))

theorem scanFloat_decimalText_stop (neg : Bool) (ip fp rest : List Char) (c : Char)
    (hne : ip ≠ []) (hdig : ∀ x, x ∈ ip ++ fp → x.isDigit = true) (hc : StopsNumber c) :
    scanFloat (decimalText neg ip fp ++ c :: rest)
      = some (decimalValue neg ip fp, c :: rest) := by
  have hip : ∀ x, x ∈ ip → isdigit x = true := fun x hx => by
    rw [← isDigit_eq_isdigit]
    exact hdig x (List.mem_append_left _ hx)
  have hfp : ∀ x, x ∈ fp → isdigit x = true := fun x hx => by
    rw [← isDigit_eq_isdigit]
    exact hdig x (List.mem_append_right _ hx)
  have hfacts := stopsNumber_facts c hc
  unfold decimalText decimalValue
  by_cases hfp0 : fp = []
  · subst hfp0
    have := scanFloat_whole_of neg ip rest c hip hne hfacts
    simpa using this
  · have := scanFloat_point_of neg ip fp rest c hip hne hfp hfacts
    simpa [hfp0] using this

theorem sscanf_none_of_malformed (line : List Char) (h : Malformed (cstr line)) :
    sscanf line = none := by
  cases hs : sscanf line with
  | none => rfl
  | some x =>
    exfalso
    obtain ⟨hne, hhead, r2, r8, h1, ⟨v, r4, hf1⟩, h4, hf4⟩ := sscanf_some_facts line x hs
    rcases h with h | h | h | ⟨t, ht, hnum⟩ | ⟨t, ht, hnum⟩ |
      ⟨neg, ip, fp, c, rest, ht, hip, hdig, hstop, hcomma⟩
    · exact hne h
    · exact hhead h
    · rw [h4] at h
      cases h
    · rw [h1] at ht
      cases ht
      rw [scanFloat_none_of_not_numberStart r2 hnum] at hf1
      cases hf1
    · rw [h4] at ht
      cases ht
      rw [scanFloat_none_of_not_numberStart r8 hnum] at hf4
      cases hf4
    · rw [h1] at ht
      cases ht
      rw [scanFloat_decimalText_stop neg ip fp rest c hip hdig hstop] at hf1
      simp only [Option.some.injEq, Prod.mk.injEq, List.cons.injEq] at hf1
      exact hcomma hf1.2.1

theorem saveLine_of_kindAssigned (b : Boat) (h : KindAssigned b) :
    ∃ t, b.type = some t ∧
      saveLine b = some (b.name ++ [','] ++ fmtFixed 0 b.length ++ [','] ++ kindLabel t
        ++ [','] ++ detailText b.location ++ [','] ++ fmtFixed 2 b.amountOwed ++ ['\n']) := by
  obtain ⟨name, length, type, location, amountOwed⟩ := b
  cases type with
  | none => simp [KindAssigned] at h
  | some t =>
    refine ⟨t, rfl, ?_⟩
    cases t <;> cases location <;> simp only [KindAssigned] at h <;>
      simp [saveLine, kindLabel, detailText, showTag, h]

theorem saveLines_eq_map (l : List Boat) (h : ∀ b, b ∈ l → KindAssigned b) :
    saveLines l = some (l.map fun b => (saveLine b).getD []) := by
  induction l with
  | nil => rfl
  | cons a rest ih =>
    obtain ⟨t, -, hline⟩ := saveLine_of_kindAssigned a (h a (List.mem_cons_self a rest))
    have hrest := ih (fun b hb => h b (List.mem_cons_of_mem a hb))
    simp only [saveLines, hline, hrest, List.map_cons, Option.getD_some]

theorem digitsVal_eq_decimalNat (ds : List Char) : digitsVal ds = decimalNat ds := by
  unfold digitsVal decimalNat
  induction ds using List.reverseRecOn with
  | nil => rfl
  | append_singleton l c ih =>
    rw [List.foldl_append, List.reverse_append]
    simp only [List.foldl_cons, List.foldl_nil, List.reverse_cons, List.reverse_nil,
      List.nil_append, List.singleton_append, List.map_cons, Nat.ofDigits_cons]
    rw [ih]
    ring

theorem isNumeral_showNat (n : Nat) (neg : Bool) :
    IsNumeral ((if neg then ['-'] else []) ++ showNat n) neg 0 n := by
  refine ⟨showNat n, [], by simp, showNat_ne_nil n, rfl, fun c hc => ?_, ?_⟩
  · rw [List.append_nil] at hc
    rw [isDigit_eq_isdigit]
    exact showNat_isdigit n c hc
  · rw [List.append_nil, ← digitsVal_eq_decimalNat, digitsVal_showNat]

theorem isNumeral_showInt (n : Int) : IsNumeral (showInt n) (decide (n < 0)) 0 n.natAbs := by
  have := isNumeral_showNat n.natAbs (decide (n < 0))
  unfold showInt
  by_cases h : n < 0
  · simpa [h] using this
  · simpa [h] using this

theorem isNumeral_fixed (neg : Bool) (q p : Nat) :
    IsNumeral ((if neg then ['-'] else []) ++ showNat (q / 10 ^ p)
      ++ (if p = 0 then [] else '.' :: fracDigits p (q % 10 ^ p))) neg p q := by
  have hlen : ∀ k m, (fracDigits k m).length = k := by
    intro k m
    induction k with
    | zero => rfl
    | succ k ih => simp [fracDigits, ih]
  by_cases hp : p = 0
  · subst hp
    have := isNumeral_showNat q neg
    simpa using this
  · refine ⟨showNat (q / 10 ^ p), fracDigits p (q % 10 ^ p), rfl, showNat_ne_nil _, hlen _ _,
      fun c hc => ?_, ?_⟩
    · rw [isDigit_eq_isdigit]
      rcases List.mem_append.1 hc with h | h
      · exact showNat_isdigit _ c h
      · exact fracDigits_isdigit _ _ c h
    · rw [← digitsVal_eq_decimalNat, digitsVal_append, foldl_fracDigits, digitsVal_showNat,
        Nat.mod_mod]
      exact Nat.div_add_mod' q (10 ^ p)

theorem divRoundEven_tie_even (p q : Nat) (hq : 0 < q)
    (h : 2 * (divRoundEven p q * q) = 2 * p + q ∨ 2 * p = 2 * (divRoundEven p q * q) + q) :
    divRoundEven p q % 2 = 0 := by
  have hp := Nat.div_add_mod p q
  have hr := Nat.mod_lt p hq
  have hc : q * (p / q) = p / q * q := Nat.mul_comm _ _
  have hs : (p / q + 1) * q = p / q * q + q := by ring
  unfold divRoundEven at h ⊢
  split_ifs at h ⊢ with h1 h2 h3
  · omega
  · rw [hs] at h
    omega
  · exact h3
  · omega

theorem isRendering_fmtFixed (p : Nat) (x : F32) (h : x.isFinite = true) :
    IsRendering p (fmtFixed p x) x := by
  cases x with
  | finite neg mag =>
    have hnear := divRoundEven_near (mag * 10 ^ p) (2 ^ 149) (by positivity)
    refine ⟨divRoundEven (mag * 10 ^ p) (2 ^ 149), ?_, hnear.1, hnear.2,
      divRoundEven_tie_even _ _ (by positivity)⟩
    rw [fmtFixed]
    exact isNumeral_fixed neg _ p
  | inf s => cases h
  | nan s => cases h

theorem isDetail_detailText (b : Boat) (h : KindAssigned b) :
    IsDetail (detailText b.location) b.location := by
  obtain ⟨name, length, type, location, amountOwed⟩ := b
  cases location with
  | slipNumber n => exact isNumeral_showInt n
  | bayLetter c => rfl
  | trailorTag buf => rfl
  | storageSpace n => exact isNumeral_showInt n
  | indeterminate =>
    cases type with
    | none => simp [KindAssigned] at h
    | some t => cases t <;> simp [KindAssigned] at h

/-- C15 (amended) — Serialization format.  For a store whose boats all have
their kind assigned (with a terminated tag for a trailer) and a finite
length and `amountOwed`, `saveCSV` writes exactly one line per boat, in
store order, of the form `name,length,kindLabel,detail,amountOwed` and a
newline.  `kindLabel` is exactly `slip`, `land`, `trailor` or `storage`
according to the kind; `detail` is the numeral of the slip or storage
number, the bay letter, or the trailer tag; `length` is the numeral of the
length rounded to a whole number, with no point; `amountOwed` is the numeral
of the balance rounded to hundredths, with a point and exactly two
digits. -/
theorem saveCSV_format (db : BoatDatabase)
    (hkind : ∀ b, b ∈ db.boatList → KindAssigned b)
    (hfin : ∀ b, b ∈ db.boatList → b.length.isFinite = true ∧ b.amountOwed.isFinite = true) :
    ∃ lines, saveCSV db = some lines ∧ lines.length = db.boatCount ∧
      (∀ (i : Nat) (b : Boat), db.boatList[i]? = some b →
        ∃ t len det owed, b.type = some t ∧
          lines[i]? = some (b.name ++ [','] ++ len ++ [','] ++ kindLabel t ++ [',']
            ++ det ++ [','] ++ owed ++ ['\n']) ∧
          IsRendering 0 len b.length ∧ IsDetail det b.location ∧
          IsRendering 2 owed b.amountOwed) ∧
      kindLabel .SLIP = "slip".toList ∧ kindLabel .LAND = "land".toList ∧
      kindLabel .TRAILOR = "trailor".toList ∧ kindLabel .STORAGE = "storage".toList := by
  refine ⟨db.boatList.map fun b => (saveLine b).getD [], saveLines_eq_map db.boatList hkind,
    by simp [BoatDatabase.boatCount], fun i b hb => ?_, by decide, by decide, by decide,
    by decide⟩
  have hmem := List.getElem?_mem hb
  obtain ⟨t, ht, hline⟩ := saveLine_of_kindAssigned b (hkind b hmem)
  refine ⟨t, fmtFixed 0 b.length, detailText b.location, fmtFixed 2 b.amountOwed, ht, ?_,
    isRendering_fmtFixed 0 _ (hfin b hmem).1, isDetail_detailText b (hkind b hmem),
    isRendering_fmtFixed 2 _ (hfin b hmem).2⟩
  rw [List.getElem?_map, hb, Option.map_some', hline, Option.getD_some]

theorem saveCSV_format_witness :
    (∀ b, b ∈ ([abe, jetta, jetta2, mia, cee] : List Boat) → KindAssigned b) ∧
      (∀ b, b ∈ ([abe, jetta, jetta2, mia, cee] : List Boat) →
        b.length.isFinite = true ∧ b.amountOwed.isFinite = true) ∧
      saveCSV ⟨[abe, jetta, jetta2, mia, cee]⟩
        = some ["Abe,30,land,C,120.50\n".toList, "Jetta,20,slip,2,500.00\n".toList,
            "jetta,15,storage,7,10.00\n".toList, "Mia,25,trailor,XY12,-19.99\n".toList,
            "Cee,-0,slip,-3,-0.00\n".toList] ∧
      ∃ lines, saveCSV ⟨[abe, jetta, jetta2, mia, cee]⟩ = some lines ∧
        lines.length = (⟨[abe, jetta, jetta2, mia, cee]⟩ : BoatDatabase).boatCount :=
  ⟨by decide, by decide, by decide,
    (saveCSV_format ⟨[abe, jetta, jetta2, mia, cee]⟩ (by decide) (by decide)).imp
      fun _ h => ⟨h.1, h.2.1⟩⟩

/-- C15 — A length or a balance that is no finite number is not written as
digits.  The line `Bee,1e39,slip,-3,nan` converts: its length overflows to
infinity and its balance is a NaN.  For the boat it yields `saveCSV` writes
`Bee,inf,slip,-3,nan`: the length has no digit and the balance has no point
and no two decimals. -/
theorem saveCSV_writes_inf_and_nan :
    parseBoat "Bee,1e39,slip,-3,nan".toList = some bee ∧
      addBoat ⟨[]⟩ "Bee,1e39,slip,-3,nan".toList = ⟨[bee]⟩ ∧
      KindAssigned bee ∧
      saveCSV ⟨[bee]⟩ = some ["Bee,inf,slip,-3,nan\n".toList] ∧
      fmtFixed 0 bee.length = "inf".toList ∧ fmtFixed 2 bee.amountOwed = "nan".toList ∧
      (∀ text, ¬ IsRendering 0 text bee.length) ∧
      (∀ text, ¬ IsRendering 2 text bee.amountOwed) ∧
      ¬ (∀ c, c ∈ fmtFixed 0 bee.length → c = '-' ∨ c.isDigit = true) ∧
      '.' ∉ fmtFixed 2 bee.amountOwed := by
  refine ⟨by decide, by decide, by decide, by decide, by decide, by decide,
    fun _ h => h, fun _ h => h, by decide, by decide⟩
/-! ## Loading a file -/

theorem fgetsLines_line (n : Nat) (l cur rest : List Char)
    (hl : ∀ c, c ∈ l → c ≠ '\n') (hfit : cur.length + l.length + 2 ≤ n) :
    fgetsLines n cur (l ++ '\n' :: rest)
      = (cur.reverse ++ l ++ ['\n']) :: fgetsLines n [] rest := by
  induction l generalizing cur with
  | nil => simp [fgetsLines]
  | cons a as ih =>
    have ha : a ≠ '\n' := hl a (List.mem_cons_self a as)
    have hlen : ¬ cur.length + 2 = n := by
      simp only [List.length_cons] at hfit
      omega
    rw [List.cons_append, fgetsLines, if_neg (by simp [ha, hlen]),
      ih (a :: cur) (fun c hc => hl c (List.mem_cons_of_mem a hc))
        (by simp only [List.length_cons] at hfit ⊢; omega)]
    simp

theorem fgetsLines_fileOf (ls : List (List Char))
    (h : ∀ l, l ∈ ls → l.length ≤ 254 ∧ ∀ c, c ∈ l → c ≠ '\n') :
    fgetsLines MAX_LINE [] (fileOf ls) = ls.map fun l => l ++ ['\n'] := by
  induction ls with
  | nil => rfl
  | cons l rest ih =>
    obtain ⟨hlen, hnl⟩ := h l (List.mem_cons_self l rest)
    simp only [fileOf, List.map_cons]
    rw [fgetsLines_line MAX_LINE l [] _ hnl (by simp only [List.length_nil, MAX_LINE]; omega),
      ih (fun m hm => h m (List.mem_cons_of_mem l hm))]
    simp

theorem loadLoop_eq (ls : List (List Char)) (acc : List Boat) (hacc : acc.length ≤ 120) :
    loadLoop ls acc = acc ++ (ls.filterMap parseBoat).take (120 - acc.length) := by
  induction ls generalizing acc with
  | nil => simp [loadLoop]
  | cons line rest ih =>
    unfold loadLoop
    by_cases hroom : acc.length < MAX_BOATS
    · rw [if_pos hroom]
      unfold MAX_BOATS at hroom
      cases hp : parseBoat line with
      | none =>
        rw [List.filterMap_cons_none hp]
        exact ih acc hacc
      | some boat =>
        rw [List.filterMap_cons_some hp]
        simp only
        rw [ih (acc ++ [boat]) (by simp only [List.length_append, List.length_singleton]; omega)]
        have : 120 - acc.length = (120 - (acc ++ [boat]).length) + 1 := by
          simp only [List.length_append, List.length_singleton]
          omega
        rw [this, List.take_succ_cons]
        simp
    · rw [if_neg hroom]
      unfold MAX_BOATS at hroom
      have : 120 - acc.length = 0 := by omega
      rw [this]
      simp

/-- C16 (amended) — Load.  Let a file hold the lines `ls`, each of at most
254 characters and followed by a newline, and let every line that converts
into five fields name a recognised kind.  Then `loadCSV` on the empty store
yields the boats parsed from the lines that convert, taken in file order up
to the capacity of 120 and sorted by name: lines that do not convert
contribute nothing, lines beyond capacity are ignored, every stored boat has
its kind assigned, and `boatCount` is the smaller of the number of lines that
convert and 120. -/
theorem loadCSV_of_short_lines (ls : List (List Char))
    (hshort : ∀ l, l ∈ ls → l.length ≤ 254 ∧ ∀ c, c ∈ l → c ≠ '\n')
    (hkinds : ∀ l, l ∈ ls → ∀ b, parseBoat (l ++ ['\n']) = some b → ∃ t, b.type = some t) :
    (loadCSV ⟨[]⟩ (some (fileOf ls))).boatList
        = qsort (((ls.map fun l => l ++ ['\n']).filterMap parseBoat).take 120) ∧
      (∀ b, b ∈ (loadCSV ⟨[]⟩ (some (fileOf ls))).boatList → ∃ t, b.type = some t) ∧
      (loadCSV ⟨[]⟩ (some (fileOf ls))).boatList.Perm
        (((ls.map fun l => l ++ ['\n']).filterMap parseBoat).take 120) ∧
      (loadCSV ⟨[]⟩ (some (fileOf ls))).boatCount
        = min ((ls.map fun l => l ++ ['\n']).filterMap parseBoat).length 120 ∧
      (loadCSV ⟨[]⟩ (some (fileOf ls))).boatCount ≤ 120 ∧
      List.Pairwise (fun a b => compareBoats a b ≤ 0)
        (loadCSV ⟨[]⟩ (some (fileOf ls))).boatList := by
  have hload : (loadCSV ⟨[]⟩ (some (fileOf ls))).boatList
      = qsort (((ls.map fun l => l ++ ['\n']).filterMap parseBoat).take 120) := by
    simp only [loadCSV]
    rw [fgetsLines_fileOf ls hshort, loadLoop_eq _ [] (by simp)]
    simp
  have hcount : (loadCSV ⟨[]⟩ (some (fileOf ls))).boatCount
      = min ((ls.map fun l => l ++ ['\n']).filterMap parseBoat).length 120 := by
    simp only [BoatDatabase.boatCount]
    rw [hload, (qsort_perm _).length_eq, List.length_take, Nat.min_comm]
  refine ⟨hload, ?_, ?_, hcount, ?_, ?_⟩
  · intro b hb
    rw [hload] at hb
    have hmem := List.mem_of_mem_take ((qsort_perm _).subset hb)
    obtain ⟨line, hline, hp⟩ := List.mem_filterMap.1 hmem
    obtain ⟨l, hl, rfl⟩ := List.mem_map.1 hline
    exact hkinds l hl b hp
  · rw [hload]
    exact qsort_perm _
  · rw [hcount]
    exact Nat.min_le_right _ _
  · rw [hload]
    exact qsort_sorted _

theorem loadCSV_of_short_lines_witness :
    (∀ l, l ∈ ["Jetta,20,slip,2,500.00".toList, "no boat here".toList,
        "Abe,30,land,C,120.50".toList] → l.length ≤ 254 ∧ ∀ c, c ∈ l → c ≠ '\n') ∧
      (loadCSV ⟨[]⟩ (some (fileOf ["Jetta,20,slip,2,500.00".toList, "no boat here".toList,
        "Abe,30,land,C,120.50".toList]))).boatList = qsort ([jetta, abe].take 120) ∧
      (loadCSV ⟨[]⟩ (some (fileOf ["Jetta,20,slip,2,500.00".toList, "no boat here".toList,
        "Abe,30,land,C,120.50".toList]))).boatList = [abe, jetta] :=
  ⟨by decide,
    (loadCSV_of_short_lines ["Jetta,20,slip,2,500.00".toList, "no boat here".toList,
      "Abe,30,land,C,120.50".toList] (by decide)
      (by
        intro l hl b hb
        simp only [List.mem_cons, List.mem_singleton, List.not_mem_nil, or_false] at hl
        rcases hl with rfl | rfl | rfl
        · rw [show parseBoat ("Jetta,20,slip,2,500.00".toList ++ ['\n']) = some jetta
            by decide] at hb
          cases hb
          exact ⟨.SLIP, rfl⟩
        · rw [show parseBoat ("no boat here".toList ++ ['\n']) = none by decide] at hb
          cases hb
        · rw [show parseBoat ("Abe,30,land,C,120.50".toList ++ ['\n']) = some abe
            by decide] at hb
          cases hb
          exact ⟨.LAND, rfl⟩)).1,
    by decide⟩

/-- C16 — Load as stated fails on a long line.  The file holds the single
line `longLine` of 269 characters; the line converts into the record `ann`
(what follows the fifth field is ignored).  `fgets` delivers the line in two
pieces of 255 and 15 characters and each piece converts into a record, so
`loadCSV` stores two boats for one well-formed line. -/
theorem loadCSV_long_line_two_boats :
    longLine.length = 269 ∧ (∀ c, c ∈ longLine → c ≠ '\n') ∧
      parseBoat (longLine ++ ['\n']) = some ann ∧
      fgetsLines MAX_LINE [] (fileOf [longLine])
        = ["Ann,1,slip,1,0".toList ++ List.replicate 241 ' ', "Bob,2,land,C,4\n".toList] ∧
      loadCSV ⟨[]⟩ (some (fileOf [longLine])) = ⟨[ann, bob]⟩ ∧
      (loadCSV ⟨[]⟩ (some (fileOf [longLine]))).boatCount = 2 := by
  refine ⟨by decide, by decide, by decide, by decide, by decide, by decide⟩


/-! ## The order of the fleet -/

theorem sscanf_name_length (line : List Char)
    (x : List Char × F32 × List Char × List Char × F32) (h : sscanf line = some x) :
    x.1.length ≤ 127 := by
  unfold sscanf at h
  simp only [bind, Option.bind_eq_some, Prod.exists] at h
  obtain ⟨name, r1, h1, r2, -, len, r3, -, r4, -, ty, r5, -, r6, -, det, r7, -, r8, -,
    owed, r9, -, hx⟩ := h
  simp only [pure, Option.some.injEq] at hx
  subst hx
  unfold scanSet at h1
  split_ifs at h1
  simp only [Option.some.injEq, Prod.mk.injEq] at h1
  rw [← h1.1]
  exact List.length_take_le _ _

theorem parseBoat_name_fits (line : List Char) (b : Boat) (h : parseBoat line = some b) :
    (cstr b.name).length < MAX_NAME_LEN := by
  have hle : ∀ name : List Char, name.length ≤ 127 → (cstr name).length < MAX_NAME_LEN := by
    intro name hn
    have := (List.takeWhile_sublist (fun c => decide (c ≠ NUL)) (l := name)).length_le
    unfold cstr MAX_NAME_LEN
    omega
  unfold parseBoat at h
  cases hs : sscanf line with
  | none => simp [hs] at h
  | some x =>
    obtain ⟨name, len, ty, det, owed⟩ := x
    have hn := sscanf_name_length line _ hs
    simp only [hs] at h
    split_ifs at h <;>
    · simp only [Option.some.injEq] at h
      subst h
      exact hle name hn

theorem loadLoop_mem (ls : List (List Char)) (acc : List Boat) :
    ∀ b, b ∈ loadLoop ls acc → b ∈ acc ∨ ∃ line, line ∈ ls ∧ parseBoat line = some b := by
  induction ls generalizing acc with
  | nil =>
    intro b hb
    exact Or.inl (by simpa [loadLoop] using hb)
  | cons line rest ih =>
    intro b hb
    unfold loadLoop at hb
    split_ifs at hb
    · cases hp : parseBoat line with
      | none =>
        simp only [hp] at hb
        rcases ih acc b hb with h | ⟨l, hl, hlb⟩
        · exact Or.inl h
        · exact Or.inr ⟨l, List.mem_cons_of_mem line hl, hlb⟩
      | some boat =>
        simp only [hp] at hb
        rcases ih (acc ++ [boat]) b hb with h | ⟨l, hl, hlb⟩
        · rcases List.mem_append.1 h with h | h
          · exact Or.inl h
          · rw [List.mem_singleton.1 h]
            exact Or.inr ⟨line, List.mem_cons_self line rest, hp⟩
        · exact Or.inr ⟨l, List.mem_cons_of_mem line hl, hlb⟩
    · exact Or.inl hb

theorem loadCSV_mem (db : BoatDatabase) (file : Option (List Char)) (b : Boat)
    (hb : b ∈ (loadCSV db file).boatList) :
    b ∈ db.boatList ∨ ∃ content line, file = some content ∧
      line ∈ fgetsLines MAX_LINE [] content ∧ parseBoat line = some b := by
  cases file with
  | none => exact Or.inl hb
  | some content =>
    have hb1 : b ∈ loadLoop (fgetsLines MAX_LINE [] content) db.boatList :=
      (qsort_perm _).subset hb
    rcases loadLoop_mem _ _ b hb1 with h | ⟨line, hline, hp⟩
    · exact Or.inl h
    · exact Or.inr ⟨content, line, rfl, hline, hp⟩

theorem addBoat_mem (db : BoatDatabase) (line : List Char) (b : Boat)
    (hb : b ∈ (addBoat db line).boatList) : b ∈ db.boatList ∨ parseBoat line = some b := by
  unfold addBoat at hb
  split_ifs at hb
  · exact Or.inl hb
  · cases hp : parseBoat line with
    | none =>
      simp only [hp] at hb
      exact Or.inl hb
    | some boat =>
      simp only [hp] at hb
      rcases List.mem_append.1 ((qsort_perm _).subset hb) with h | h
      · exact Or.inl h
      · rw [List.mem_singleton.1 h]
        exact Or.inr rfl

theorem reachable_pairwise (db : BoatDatabase) (h : Reachable db) :
    List.Pairwise boatLe db.boatList := by
  induction h with
  | empty => exact List.Pairwise.nil
  | load db file _ ih =>
    cases file with
    | none => exact ih
    | some content => exact qsort_sorted _
  | add db line _ ih =>
    unfold addBoat
    split_ifs
    · exact ih
    · cases parseBoat line with
      | none => exact ih
      | some boat => exact qsort_sorted _
  | remove db db1 name _ hrem ih => exact ih.sublist (removeBoat_sublist db db1 name hrem)

theorem reachable_namesFit (db : BoatDatabase) (h : Reachable db) : NamesFit db.boatList := by
  induction h with
  | empty =>
    intro b hb
    cases hb
  | load db file _ ih =>
    intro b hb
    rcases loadCSV_mem db file b hb with h | ⟨content, line, -, -, hp⟩
    · exact ih b h
    · exact parseBoat_name_fits line b hp
  | add db line _ ih =>
    intro b hb
    rcases addBoat_mem db line b hb with h | hp
    · exact ih b h
    · exact parseBoat_name_fits line b hp
  | remove db db1 name _ hrem ih =>
    exact fun b hb => ih b ((removeBoat_sublist db db1 name hrem).subset hb)

theorem removeBoat_defined (db : BoatDatabase) (name : List Char)
    (hfit : NamesFit db.boatList) (hname : (cstr name).length < MAX_NAME_LEN) :
    ∃ db1, removeBoat db name = some db1 := by
  by_cases hp : ∃ b, b ∈ db.boatList ∧ SameName b.name name
  · obtain ⟨i, hi⟩ := exists_firstSame name db.boatList hp
    have hm := (firstMatch_iff_firstSame name db.boatList i hfit).2 hi
    refine ⟨⟨db.boatList.eraseIdx i⟩, ?_⟩
    unfold removeBoat
    rw [removeLoop_of_firstMatch name db.boatList i hm]
  · refine ⟨db, removeBoat_of_no_sameName db name hfit hname (fun b hb hs => hp ⟨b, hb, hs⟩)⟩

/-- C2 — Sort invariant.  In every store reached from the empty store by
calls of `loadCSV`, `addBoat` and `removeBoat`, the names of
`boatList[0 .. boatCount)` are in case-insensitive non-decreasing order:
adjacent boats satisfy `compareBoats <= 0`, and so do any two boats taken
in the order of their slots.  Every name of such a store fits its array, so
`removeBoat` has a result for every name of at most 127 characters: the
sequences of calls with such names are all covered. -/
theorem reachable_sorted (db : BoatDatabase) (hreach : Reachable db) :
    List.Chain' (fun a b => compareBoats a b ≤ 0) db.boatList ∧
      List.Pairwise (fun a b => compareBoats a b ≤ 0) db.boatList ∧
      NamesFit db.boatList ∧
      ∀ name : List Char, (cstr name).length < MAX_NAME_LEN →
        ∃ db1, removeBoat db name = some db1 ∧ Reachable db1 := by
  refine ⟨(reachable_pairwise db hreach).chain', reachable_pairwise db hreach,
    reachable_namesFit db hreach, fun name hname => ?_⟩
  obtain ⟨db1, h1⟩ := removeBoat_defined db name (reachable_namesFit db hreach) hname
  exact ⟨db1, h1, Reachable.remove db db1 name hreach h1⟩

theorem reachable_sorted_witness :
    Reachable ⟨[abe, mia]⟩ ∧
      removeBoat (addBoat (loadCSV ⟨[]⟩
        (some "Zed,20,slip,2,500.00\nAbe,30,land,C,120.50\n".toList))
        "Mia,25,trailor,XY12,-19.99".toList) "zed".toList = some ⟨[abe, mia]⟩ ∧
      List.Chain' (fun a b => compareBoats a b ≤ 0) (⟨[abe, mia]⟩ : BoatDatabase).boatList :=
  ⟨Reachable.remove _ _ "zed".toList
      (Reachable.add _ "Mia,25,trailor,XY12,-19.99".toList
        (Reachable.load ⟨[]⟩ (some "Zed,20,slip,2,500.00\nAbe,30,land,C,120.50\n".toList)
          Reachable.empty)) (by decide),
    by decide,
    (reachable_sorted ⟨[abe, mia]⟩
      (Reachable.remove _ _ "zed".toList
        (Reachable.add _ "Mia,25,trailor,XY12,-19.99".toList
          (Reachable.load ⟨[]⟩ (some "Zed,20,slip,2,500.00\nAbe,30,land,C,120.50\n".toList)
            Reachable.empty)) (by decide))).1⟩

/-! ## The sign of the balance -/

theorem roundMag_zero (q : Nat) : roundMag 0 q = 0 := by
  unfold roundMag
  have hb : bitLen (0 / q) = 0 := by
    rw [Nat.zero_div]
    rfl
  rw [hb]
  unfold divRoundEven
  simp

theorem fge0_round_false (p q : Nat) : fge0 (F32.round false p q) = true := by
  unfold F32.round
  split_ifs <;> rfl

theorem fge0_round_zero (neg : Bool) (q : Nat) : fge0 (F32.round neg 0 q) = true := by
  unfold F32.round
  rw [roundMag_zero, if_neg (by norm_num)]
  simp [fge0]

theorem fge0_finite (neg : Bool) (mag : Nat) :
    fge0 (.finite neg mag) = true ↔ 0 ≤ (F32.finite neg mag).units := by
  cases neg <;> simp [fge0, F32.units]

theorem fge0_ofUnits (v : Int) (zneg : Bool) (h : 0 ≤ v) :
    fge0 (F32.ofUnits v zneg) = true := by
  unfold F32.ofUnits
  split_ifs with h0
  · simp [fge0]
  · have : ¬ v < 0 := by omega
    simp only [this, decide_False]
    exact fge0_round_false _ _

theorem rateOf_finite (t : LocationType) : ∃ m, m ≠ 0 ∧ rateOf t = .finite false m := by
  cases t
  · exact ⟨25 * 2 ^ 148, by norm_num, by decide⟩
  · exact ⟨14 * 2 ^ 149, by norm_num, by decide⟩
  · exact ⟨25 * 2 ^ 149, by norm_num, by decide⟩
  · exact ⟨11744051 * 2 ^ 129, by norm_num, by decide⟩

theorem fge0_fmul_rate (t : LocationType) (x : F32) (h : fge0 x = true) :
    fge0 (fmul (rateOf t) x) = true := by
  obtain ⟨m, hm, hrate⟩ := rateOf_finite t
  rw [hrate]
  cases x with
  | finite s n =>
    cases s with
    | false => exact fge0_round_false _ _
    | true =>
      have hn : n = 0 := by simpa [fge0] using h
      subst hn
      simp only [fmul, Nat.mul_zero]
      exact fge0_round_zero _ _
  | inf s =>
    cases s with
    | false => simp [fmul, hm, fge0]
    | true => simp [fge0] at h
  | nan s => simp [fge0] at h

theorem fge0_fadd (a b : F32) (ha : fge0 a = true) (hb : fge0 b = true) :
    fge0 (fadd a b) = true := by
  cases a with
  | nan s => simp [fge0] at ha
  | inf s =>
    have hs : s = false := by simpa [fge0] using ha
    subst hs
    cases b with
    | nan t => simp [fge0] at hb
    | inf t =>
      have ht : t = false := by simpa [fge0] using hb
      subst ht
      simp [fadd, fge0]
    | finite t n => simp [fadd, fge0]
  | finite s m =>
    cases b with
    | nan t => simp [fge0] at hb
    | inf t =>
      have ht : t = false := by simpa [fge0] using hb
      subst ht
      simp [fadd, fge0]
    | finite t n =>
      rw [fadd]
      exact fge0_ofUnits _ _
        (add_nonneg ((fge0_finite s m).1 ha) ((fge0_finite t n).1 hb))

theorem fge0_fsub (a b : F32) (ha : fge0 a = true) (hb : b.isFinite = true)
    (hle : fgt b a = false) : fge0 (fsub a b) = true := by
  cases b with
  | nan t => cases hb
  | inf t => cases hb
  | finite t n =>
    cases a with
    | nan s => simp [fge0] at ha
    | inf s =>
      have hs : s = false := by simpa [fge0] using ha
      subst hs
      simp [fsub, fge0]
    | finite s m =>
      rw [fsub]
      apply fge0_ofUnits
      have := (fgt_finite t s n m).not.1 (by simp [hle])
      omega

theorem applyMonthlyLoop_mem (l r : List Boat) (h : applyMonthlyLoop l = some r) :
    ∀ b1, b1 ∈ r → ∃ b, b ∈ l ∧ applyMonthlyCharges b = some b1 := by
  induction l generalizing r with
  | nil =>
    simp only [applyMonthlyLoop, Option.some.injEq] at h
    subst h
    intro b1 hb1
    cases hb1
  | cons a rest ih =>
    unfold applyMonthlyLoop at h
    cases ha : applyMonthlyCharges a with
    | none => simp [ha] at h
    | some a1 =>
      cases hr : applyMonthlyLoop rest with
      | none => simp [ha, hr] at h
      | some r1 =>
        simp only [ha, hr, Option.some.injEq] at h
        subst h
        intro b1 hb1
        rcases List.mem_cons.1 hb1 with rfl | hb1
        · exact ⟨a, List.mem_cons_self a rest, ha⟩
        · obtain ⟨b, hb, hbc⟩ := ih r1 hr b1 hb1
          exact ⟨b, List.mem_cons_of_mem a hb, hbc⟩

theorem acceptPayment_mem (db db1 : BoatDatabase) (name : List Char) (amount : F32)
    (h : acceptPayment db name amount = some db1) (b1 : Boat) (hb1 : b1 ∈ db1.boatList) :
    b1 ∈ db.boatList ∨ ∃ b, b ∈ db.boatList ∧ fgt amount b.amountOwed = false ∧
      b1 = { b with amountOwed := fsub b.amountOwed amount } := by
  unfold acceptPayment at h
  cases hf : findBoat db name with
  | none => simp [hf] at h
  | some o =>
    cases o with
    | none =>
      simp only [hf, Option.some.injEq] at h
      subst h
      exact Or.inl hb1
    | some i =>
      simp only [hf] at h
      cases hs : db.boatList[i]? with
      | none =>
        simp only [hs, Option.some.injEq] at h
        subst h
        exact Or.inl hb1
      | some boat =>
        simp only [hs] at h
        by_cases hgt : fgt amount boat.amountOwed = true
        · rw [if_pos hgt] at h
          simp only [Option.some.injEq] at h
          subst h
          exact Or.inl hb1
        · rw [if_neg hgt] at h
          simp only [Option.some.injEq] at h
          subst h
          rcases List.mem_or_eq_of_mem_set hb1 with h | h
          · exact Or.inl h
          · exact Or.inr ⟨boat, List.getElem?_mem hs, by simpa using hgt, h⟩

theorem acceptPayment_defined (db : BoatDatabase) (name : List Char) (amount : F32)
    (hfit : NamesFit db.boatList) (hname : (cstr name).length < MAX_NAME_LEN) :
    ∃ db1, acceptPayment db name amount = some db1 := by
  obtain ⟨r, hr⟩ := (findBoat_of_fit db name hfit hname).2.2
  cases hres : acceptPayment db name amount with
  | some db1 => exact ⟨db1, rfl⟩
  | none =>
    exfalso
    unfold acceptPayment at hres
    rw [hr] at hres
    cases r with
    | none => simp at hres
    | some i =>
      simp only at hres
      cases hs : db.boatList[i]? with
      | none => simp [hs] at hres
      | some boat =>
        by_cases hg : fgt amount boat.amountOwed = true <;> simp [hs, hg] at hres

theorem reachableBy_invariant (db : BoatDatabase)
    (h : ReachableBy GoodLine FiniteAmount db) :
    NamesFit db.boatList ∧ ∀ b, b ∈ db.boatList →
      (∃ t, b.type = some t) ∧ fge0 b.length = true ∧ fge0 b.amountOwed = true := by
  induction h with
  | empty =>
    exact ⟨fun b hb => (by cases hb), fun b hb => (by cases hb)⟩
  | load db file _ hlines ih =>
    refine ⟨fun b hb => ?_, fun b hb => ?_⟩
    · rcases loadCSV_mem db file b hb with h | ⟨content, line, -, -, hp⟩
      · exact ih.1 b h
      · exact parseBoat_name_fits line b hp
    · rcases loadCSV_mem db file b hb with h | ⟨content, line, hfile, hline, hp⟩
      · exact ih.2 b h
      · exact hlines content hfile line hline b hp
  | add db line _ hline ih =>
    refine ⟨fun b hb => ?_, fun b hb => ?_⟩
    · rcases addBoat_mem db line b hb with h | hp
      · exact ih.1 b h
      · exact parseBoat_name_fits line b hp
    · rcases addBoat_mem db line b hb with h | hp
      · exact ih.2 b h
      · exact hline b hp
  | remove db db1 name _ hrem ih =>
    have hsub := (removeBoat_sublist db db1 name hrem).subset
    exact ⟨fun b hb => ih.1 b (hsub hb), fun b hb => ih.2 b (hsub hb)⟩
  | pay db db1 name amount _ hamount hpay ih =>
    refine ⟨fun b1 hb1 => ?_, fun b1 hb1 => ?_⟩
    · rcases acceptPayment_mem db db1 name amount hpay b1 hb1 with h | ⟨b, hb, -, rfl⟩
      · exact ih.1 b1 h
      · exact ih.1 b hb
    · rcases acceptPayment_mem db db1 name amount hpay b1 hb1 with h | ⟨b, hb, hle, rfl⟩
      · exact ih.2 b1 h
      · obtain ⟨hk, hlen, howed⟩ := ih.2 b hb
        exact ⟨hk, hlen, fge0_fsub _ _ howed hamount hle⟩
  | month db db1 _ hmonth ih =>
    unfold applyMonthlyToAll at hmonth
    cases hl : applyMonthlyLoop db.boatList with
    | none => simp [hl] at hmonth
    | some r =>
      simp only [hl, Option.some.injEq] at hmonth
      subst hmonth
      have key : ∀ b1, b1 ∈ r → ∃ b t, b ∈ db.boatList ∧ b.type = some t ∧
          b1 = { b with amountOwed := fadd b.amountOwed (fmul (rateOf t) b.length) } := by
        intro b1 hb1
        obtain ⟨b, hb, hbc⟩ := applyMonthlyLoop_mem db.boatList r hl b1 hb1
        obtain ⟨t, ht⟩ := (ih.2 b hb).1
        refine ⟨b, t, hb, ht, ?_⟩
        have hc := charged_of_kind b t ht
        rw [hc.1] at hbc
        cases hbc
        exact hc.2
      refine ⟨fun b1 hb1 => ?_, fun b1 hb1 => ?_⟩
      · obtain ⟨b, t, hb, -, rfl⟩ := key b1 hb1
        exact ih.1 b hb
      · obtain ⟨b, t, hb, ht, rfl⟩ := key b1 hb1
        obtain ⟨-, hlen, howed⟩ := ih.2 b hb
        exact ⟨⟨t, ht⟩, hlen, fge0_fadd _ _ howed (fge0_fmul_rate t _ hlen)⟩

theorem goodLine_of_parse (line : List Char) (b : Boat) (h : parseBoat line = some b)
    (hb : (∃ t, b.type = some t) ∧ fge0 b.length = true ∧ fge0 b.amountOwed = true) :
    GoodLine line := by
  intro b1 hb1
  rw [h] at hb1
  cases hb1
  exact hb

/-- C17 (amended) — The balance is never negative when no negative number
and no NaN is read and the payments are finite.  Take a store reached from
the empty store by calls of `loadCSV`, `addBoat`, `removeBoat`,
`acceptPayment` and `applyMonthlyToAll` in which every line that converts
names one of the four kinds and carries a length and an `amountOwed` that
satisfy `>= 0`, and every amount paid is finite.  Then every boat has
`amountOwed >= 0`: a finite number that is not negative, or plus infinity.
No sequence of calls is left out but those in which a name of 128
characters or more is passed: on such a store `applyMonthlyToAll` has a
result, and so have `removeBoat` and `acceptPayment` for every name of at
most 127 characters. -/
theorem balance_nonneg_of_good_lines (db : BoatDatabase)
    (hreach : ReachableBy GoodLine FiniteAmount db) :
    (∀ b, b ∈ db.boatList → fge0 b.amountOwed = true) ∧
      (∀ neg mag, fge0 (.finite neg mag) = true ↔ 0 ≤ (F32.finite neg mag).units) ∧
      (∀ neg, fge0 (.inf neg) = !neg) ∧ (∀ neg, fge0 (.nan neg) = false) ∧
      (∃ db1, applyMonthlyToAll db = some db1 ∧ ReachableBy GoodLine FiniteAmount db1) ∧
      (∀ name : List Char, (cstr name).length < MAX_NAME_LEN →
        (∃ db1, removeBoat db name = some db1 ∧ ReachableBy GoodLine FiniteAmount db1) ∧
        ∀ amount, FiniteAmount amount →
          ∃ db1, acceptPayment db name amount = some db1 ∧
            ReachableBy GoodLine FiniteAmount db1) := by
  obtain ⟨hfit, hinv⟩ := reachableBy_invariant db hreach
  refine ⟨fun b hb => (hinv b hb).2.2, fge0_finite, fun _ => rfl, fun _ => rfl, ?_,
    fun name hname => ⟨?_, fun amount hamount => ?_⟩⟩
  · have hm := applyMonthlyLoop_eq_map db.boatList (fun b hb => (hinv b hb).1)
    refine ⟨⟨db.boatList.map charged⟩, ?_, ?_⟩
    · simp only [applyMonthlyToAll, hm]
    · exact ReachableBy.month db _ hreach (by simp only [applyMonthlyToAll, hm])
  · obtain ⟨db1, h1⟩ := removeBoat_defined db name hfit hname
    exact ⟨db1, h1, ReachableBy.remove db db1 name hreach h1⟩
  · obtain ⟨db1, h1⟩ := acceptPayment_defined db name amount hfit hname
    exact ⟨db1, h1, ReachableBy.pay db db1 name amount hreach hamount h1⟩

theorem balance_nonneg_of_good_lines_witness :
    ReachableBy GoodLine FiniteAmount ⟨[{ jetta with amountOwed := .finite false 0 }]⟩ ∧
      applyMonthlyToAll (addBoat ⟨[]⟩ "Jetta,20,slip,2,500.00".toList)
        = some ⟨[{ jetta with amountOwed := F32.ofDecimal false 750 0 }]⟩ ∧
      acceptPayment ⟨[{ jetta with amountOwed := F32.ofDecimal false 750 0 }]⟩
          "jetta".toList (F32.ofDecimal false 750 0)
        = some ⟨[{ jetta with amountOwed := .finite false 0 }]⟩ ∧
      ∀ b, b ∈ (⟨[{ jetta with amountOwed := .finite false 0 }]⟩ : BoatDatabase).boatList →
        fge0 b.amountOwed = true :=
  ⟨ReachableBy.pay ⟨[{ jetta with amountOwed := F32.ofDecimal false 750 0 }]⟩ _
      "jetta".toList (F32.ofDecimal false 750 0)
      (ReachableBy.month (addBoat ⟨[]⟩ "Jetta,20,slip,2,500.00".toList)
        ⟨[{ jetta with amountOwed := F32.ofDecimal false 750 0 }]⟩
        (ReachableBy.add _ _ ReachableBy.empty
          (goodLine_of_parse _ jetta (by decide) ⟨⟨.SLIP, rfl⟩, by decide, by decide⟩))
        (by decide))
      (by decide) (by decide),
    by decide, by decide,
    (balance_nonneg_of_good_lines ⟨[{ jetta with amountOwed := .finite false 0 }]⟩
      (ReachableBy.pay ⟨[{ jetta with amountOwed := F32.ofDecimal false 750 0 }]⟩ _
        "jetta".toList (F32.ofDecimal false 750 0)
        (ReachableBy.month (addBoat ⟨[]⟩ "Jetta,20,slip,2,500.00".toList)
          ⟨[{ jetta with amountOwed := F32.ofDecimal false 750 0 }]⟩
          (ReachableBy.add _ _ ReachableBy.empty
            (goodLine_of_parse _ jetta (by decide) ⟨⟨.SLIP, rfl⟩, by decide, by decide⟩))
          (by decide))
        (by decide) (by decide))).1⟩

/-- C17 — A balance below zero, and a balance that is no number, are
reachable.  The line `Debt,20,slip,1,-5.00` converts, and `addBoat` stores
its boat with `amountOwed` -5.00; the line `Tow,-20,slip,1,0.00` gives a
boat of length -20 that owes -250.00 after one `applyMonthlyToAll`.  With
no negative number at all: the line `Big,1e39,slip,1,1e39` stores a balance
of plus infinity, a payment of plus infinity is not above it, and the
difference the code stores is a NaN, for which `amountOwed >= 0` is
false. -/
theorem negative_balance_reachable :
    addBoat ⟨[]⟩ "Debt,20,slip,1,-5.00".toList = ⟨[debt]⟩ ∧
      fge0 debt.amountOwed = false ∧ fmtFixed 2 debt.amountOwed = "-5.00".toList ∧
      ReachableBy (fun _ => True) (fun _ => True) ⟨[debt]⟩ ∧
      addBoat ⟨[]⟩ "Tow,-20,slip,1,0.00".toList = ⟨[tow]⟩ ∧
      applyMonthlyToAll ⟨[tow]⟩
        = some ⟨[{ tow with amountOwed := F32.ofDecimal true 250 0 }]⟩ ∧
      fge0 (F32.ofDecimal true 250 0) = false ∧
      ReachableBy (fun _ => True) (fun _ => True)
        ⟨[{ tow with amountOwed := F32.ofDecimal true 250 0 }]⟩ ∧
      addBoat ⟨[]⟩ "Big,1e39,slip,1,1e39".toList = ⟨[big]⟩ ∧
      acceptPayment ⟨[big]⟩ "big".toList (.inf false)
        = some ⟨[{ big with amountOwed := .nan true }]⟩ ∧
      fge0 (.nan true) = false ∧
      ReachableBy (fun _ => True) (fun _ => True) ⟨[{ big with amountOwed := .nan true }]⟩ ∧
      ¬ (∀ db, ReachableBy (fun _ => True) (fun _ => True) db →
          ∀ b, b ∈ db.boatList → fge0 b.amountOwed = true) := by
  have h1 : addBoat ⟨[]⟩ "Debt,20,slip,1,-5.00".toList = ⟨[debt]⟩ := by decide
  have h2 : addBoat ⟨[]⟩ "Tow,-20,slip,1,0.00".toList = ⟨[tow]⟩ := by decide
  have h3 : applyMonthlyToAll ⟨[tow]⟩
      = some ⟨[{ tow with amountOwed := F32.ofDecimal true 250 0 }]⟩ := by decide
  have h4 : addBoat ⟨[]⟩ "Big,1e39,slip,1,1e39".toList = ⟨[big]⟩ := by decide
  have h5 : acceptPayment ⟨[big]⟩ "big".toList (.inf false)
      = some ⟨[{ big with amountOwed := .nan true }]⟩ := by decide
  have r1 : ReachableBy (fun _ => True) (fun _ => True) ⟨[debt]⟩ := by
    rw [← h1]
    exact ReachableBy.add _ _ ReachableBy.empty trivial
  have r2 : ReachableBy (fun _ => True) (fun _ => True)
      ⟨[{ tow with amountOwed := F32.ofDecimal true 250 0 }]⟩ := by
    refine ReachableBy.month ⟨[tow]⟩ _ ?_ h3
    rw [← h2]
    exact ReachableBy.add _ _ ReachableBy.empty trivial
  have r3 : ReachableBy (fun _ => True) (fun _ => True)
      ⟨[{ big with amountOwed := .nan true }]⟩ := by
    refine ReachableBy.pay ⟨[big]⟩ _ "big".toList (.inf false) ?_ trivial h5
    rw [← h4]
    exact ReachableBy.add _ _ ReachableBy.empty trivial
  refine ⟨h1, by decide, by decide, r1, h2, h3, by decide, r2, h4, h5, by decide, r3,
    fun h => ?_⟩
  have := h ⟨[debt]⟩ r1 debt (List.mem_singleton_self debt)
  revert this
  decide

end BoatManagement
